import Mathlib

/-!
Verification development for the Compacting Squares implementation
(`src/batch/src/world.ts` and `src/batch/src/cube.ts`).

The TypeScript classes are embedded shallowly: the mutable `World` object
becomes an immutable record that operations transform; exceptions become
`Except` values; the `while` loops of the source become fuel-based structural
recursions whose fuel is provably sufficient at every top-level call site.
The sparse cell index of the source is kept consistent with the cube list by
every operation (`index[cube[i].pos] == i`), so the index is represented
implicitly: lookups search the cube list for the requested position.
-/

set_option maxHeartbeats 2000000

namespace Compacting

/-- RGB color triple (`cube.ts`, class `Color`). -/
structure Color where
  r : Int
  g : Int
  b : Int
deriving DecidableEq, Repr

/-- `Color.BLUE` from `cube.ts`. -/
def Color.BLUE : Color := ⟨68, 187, 248⟩

/-- `Color.RED` from `cube.ts`. -/
def Color.RED : Color := ⟨248, 78, 94⟩

/-- Classification tag (`cube.ts`, enum `ComponentStatus`). -/
inductive ComponentStatus where
  | LINK_CUT
  | LINK_STABLE
  | CHUNK_CUT
  | CHUNK_STABLE
  | CONNECTOR
  | NONE
deriving DecidableEq, Repr

/-- A cube (`cube.ts`, class `Cube`).  The back-reference to the world and the
UI-only `selected` flag are dropped. -/
structure Cube where
  p : Int × Int
  resetPosition : Int × Int
  color : Color
  componentStatus : ComponentStatus
  chunkId : Int
  onBoundary : Bool
deriving DecidableEq, Repr

/-- The `Cube` constructor: both the position and the reset position are the
creation cell, the status is `NONE` and the chunk id is `-1`. -/
def Cube.mk' (p : Int × Int) (color : Color) : Cube :=
  ⟨p, p, color, ComponentStatus.NONE, -1, false⟩

/-- The world (`world.ts`, class `World`): the cube list.  The sparse
`world` cell array is implicit (see the module comment). -/
structure World where
  cubes : List Cube
deriving DecidableEq, Repr

/-- Error kinds of the exceptions thrown in `world.ts` (the source throws
strings; §7 of the design groups them by kind). -/
inductive WErr where
  | occupiedCell
  | emptyCell
  | noMovePath
  | badVersion
deriving DecidableEq, Repr

/-- `World.getCubeId`: id of the cube at the given cell. -/
def World.getCubeId (w : World) (p : Int × Int) : Option Nat :=
  w.cubes.findIdx? (fun c => decide (c.p = p))

/-- `World.getCube`: the cube at the given location, if any. -/
def World.getCube (w : World) (p : Int × Int) : Option Cube :=
  match w.getCubeId p with
  | none => none
  | some id => w.cubes.get? id

/-- `World.hasCube`. -/
def World.hasCube (w : World) (p : Int × Int) : Bool :=
  (w.getCube p).isSome

/-- Well-formedness: at most one cube per cell (invariant of the design's
data model, maintained by every operation of the source). -/
def World.wf (w : World) : Prop :=
  (w.cubes.map (fun c => c.p)).Nodup

/-- `World.addCubeUnmarked`: throws if the cell is occupied; otherwise appends
a fresh cube (whose id is the old list length) and returns it. -/
def World.addCubeUnmarked (w : World) (p : Int × Int) (color : Color) :
    Except WErr (World × Cube) :=
  if w.hasCube p then .error .occupiedCell
  else
    let cube := Cube.mk' p color
    .ok (⟨w.cubes ++ [cube]⟩, cube)

/-- `World.moveCubeUnmarked`: throws if the source is empty or the target is
occupied; otherwise updates the cube's position. -/
def World.moveCubeUnmarked (w : World) (src dst : Int × Int) :
    Except WErr World :=
  if ¬ w.hasCube src then .error .emptyCell
  else if w.hasCube dst then .error .occupiedCell
  else
    match w.getCubeId src with
    | none => .error .emptyCell
    | some id =>
      match w.cubes.get? id with
      | none => .error .emptyCell
      | some c => .ok ⟨w.cubes.set id { c with p := dst }⟩

/-- `World.removeCubeUnmarked`: throws if the cell is empty; otherwise removes
the cube there (the source filters the cube object out and renumbers the
index, which the implicit index makes automatic). -/
def World.removeCubeUnmarked (w : World) (p : Int × Int) : Except WErr World :=
  if ¬ w.hasCube p then .error .emptyCell
  else .ok ⟨w.cubes.filter (fun c => decide (c.p ≠ p))⟩

/-- Neighbor presence flags in the 8 compass directions
(`World.hasNeighbors`). -/
structure NbrFlags where
  n : Bool
  ne : Bool
  e : Bool
  se : Bool
  s : Bool
  sw : Bool
  w : Bool
  nw : Bool
deriving DecidableEq, Repr

/-- `World.hasNeighbors`. -/
def World.hasNeighbors (w : World) (p : Int × Int) : NbrFlags :=
  ⟨w.hasCube (p.1, p.2 + 1), w.hasCube (p.1 + 1, p.2 + 1),
   w.hasCube (p.1 + 1, p.2), w.hasCube (p.1 + 1, p.2 - 1),
   w.hasCube (p.1, p.2 - 1), w.hasCube (p.1 - 1, p.2 - 1),
   w.hasCube (p.1 - 1, p.2), w.hasCube (p.1 - 1, p.2 + 1)⟩

/-- The four cardinal directions (single letters of the source's direction
strings). -/
inductive Card where
  | N
  | E
  | S
  | W
deriving DecidableEq, Repr, Fintype

/-- Moving one cell in a cardinal direction (one letter of the `switch` in
`targetPositionFromFields`). -/
def stepCard (p : Int × Int) : Card → Int × Int
  | .N => (p.1, p.2 + 1)
  | .S => (p.1, p.2 - 1)
  | .E => (p.1 + 1, p.2)
  | .W => (p.1 - 1, p.2)

/-- The twelve move directions (`world.ts`, enum `MoveDirection`), in
declaration order. -/
inductive MoveDirection where
  | N
  | E
  | S
  | W
  | NW
  | NE
  | EN
  | ES
  | SE
  | SW
  | WS
  | WN
deriving DecidableEq, Repr

/-- The letters of a direction string. -/
def MoveDirection.letters : MoveDirection → List Card
  | .N => [.N]
  | .E => [.E]
  | .S => [.S]
  | .W => [.W]
  | .NW => [.N, .W]
  | .NE => [.N, .E]
  | .EN => [.E, .N]
  | .ES => [.E, .S]
  | .SE => [.S, .E]
  | .SW => [.S, .W]
  | .WS => [.W, .S]
  | .WN => [.W, .N]

/-- `Move.targetPositionFromFields`: apply the letters in order. -/
def targetPositionFromFields (position : Int × Int) (direction : MoveDirection) :
    Int × Int :=
  direction.letters.foldl stepCard position

/-- A move record (`world.ts`, class `Move`); the world is passed to the
predicates separately. -/
structure Move where
  position : Int × Int
  direction : MoveDirection
deriving DecidableEq, Repr

/-- `Move.sourcePosition`. -/
def Move.sourcePosition (m : Move) : Int × Int := m.position

/-- `Move.targetPosition`. -/
def Move.targetPosition (m : Move) : Int × Int :=
  targetPositionFromFields m.position m.direction

/-- Reading one cardinal flag out of the 8-neighbor flags (`has[c]`). -/
def cardFlag (has : NbrFlags) : Card → Bool
  | .N => has.n
  | .E => has.e
  | .S => has.s
  | .W => has.w

/-- `Move.isValidIgnoreConnectivity`: target must be empty; slides need two
flanking cubes on one side, corner moves need the first letter free and the
second letter occupied. -/
def Move.isValidIgnoreConnectivity (m : Move) (w : World) : Bool :=
  if w.hasCube m.targetPosition then false
  else
    let has := w.hasNeighbors m.position
    match m.direction with
    | .N => (has.w && has.nw) || (has.e && has.ne)
    | .E => (has.n && has.ne) || (has.s && has.se)
    | .S => (has.w && has.sw) || (has.e && has.se)
    | .W => (has.n && has.nw) || (has.s && has.sw)
    | d =>
      -- corner moves: `!has[direction[0]] && has[direction[1]]`
      match d.letters with
      | [c1, c2] => !(cardFlag has c1) && cardFlag has c2
      | _ => false

/-- The four neighbor cells used by the BFS/DFS routines of the source, in
source order `[x-1, x+1, y-1, y+1]` (west, east, south, north), looked up in
the cell index. -/
def bfsNeighborIds (w : World) (p : Int × Int) : List (Option Nat) :=
  [w.getCubeId (p.1 - 1, p.2), w.getCubeId (p.1 + 1, p.2),
   w.getCubeId (p.1, p.2 - 1), w.getCubeId (p.1, p.2 + 1)]

/-- The BFS work loop shared by `World.isConnected` and
`World.bridgeCapacity` (their `while` loops are identical except for the
push guard: `isConnected` pushes with the truthiness test `if (c.cubeId)`,
which drops id 0, while `bridgeCapacity` pushes with `c.cubeId !== null`;
the flag `pushZero` selects between the two).  Each new visit marks the cube
seen and increments the count.  The fuel only bounds the iteration count; the
call sites pass enough fuel for the loop to reach its real exit. -/
def bfsLoop (w : World) (pushZero : Bool) :
    Nat → List Bool → Nat → List Nat → List Bool × Nat
  | 0, seen, count, _ => (seen, count)
  | _ + 1, seen, count, [] => (seen, count)
  | fuel + 1, seen, count, cubeId :: rest =>
    if seen.getD cubeId false then bfsLoop w pushZero fuel seen count rest
    else
      match w.cubes.get? cubeId with
      | none => bfsLoop w pushZero fuel (seen.set cubeId true) (count + 1) rest
      | some cube =>
        let pushes := (bfsNeighborIds w cube.p).filterMap fun oid =>
          match oid with
          | some i => if pushZero || decide (i ≠ 0) then some i else none
          | none => none
        bfsLoop w pushZero fuel (seen.set cubeId true) (count + 1)
          (rest ++ pushes)

/-- `World.isConnected`: BFS from cube 0 (or cube 1 when cube 0 is the skipped
one and more cubes exist); the skipped cube counts as seen.  Connected iff
every cube was seen. -/
def World.isConnected (w : World) (skip : Option (Int × Int)) : Bool :=
  if w.cubes.length = 0 then true
  else
    let n := w.cubes.length
    let start : List Bool × Nat × List Nat :=
      match skip with
      | none => (List.replicate n false, 0, [0])
      | some sp =>
        match w.getCubeId sp with
        | none => (List.replicate n false, 0, [0])
        | some skipIndex =>
          ((List.replicate n false).set skipIndex true, 1,
            if skipIndex = 0 ∧ 1 < n then [1] else [0])
    let r := bfsLoop w false (5 * n + 2) start.1 start.2.1 start.2.2
    decide (n = r.2)

/-- `Move.isValid`: the local test plus connectivity with the source cube
removed. -/
def Move.isValid (m : Move) (w : World) : Bool :=
  m.isValidIgnoreConnectivity w && w.isConnected (some m.position)

/-- The twelve directions in enum declaration order
(`Object.keys(MoveDirection)`). -/
def allMoveDirections : List MoveDirection :=
  [.N, .E, .S, .W, .NW, .NE, .EN, .ES, .SE, .SW, .WS, .WN]

/-- `World.validMovesFrom`: empty when removing the cube disconnects the
configuration; otherwise all locally valid moves (connectivity is checked
once up front). -/
def World.validMovesFrom (w : World) (p : Int × Int) : List Move :=
  if ¬ (w.isConnected (some p)) then []
  else
    allMoveDirections.filterMap fun d =>
      let m : Move := ⟨p, d⟩
      if m.isValidIgnoreConnectivity w then some m else none

/-- `World.degree`: number of cardinal neighbors. -/
def World.degree (w : World) (c : Cube) : Nat :=
  let has := w.hasNeighbors c.p
  (if has.n then 1 else 0) + (if has.e then 1 else 0) +
    (if has.s then 1 else 0) + (if has.w then 1 else 0)

/-- `World.getOneNeighbor`: first cardinal neighbor in source order
east, west, north, south. -/
def World.getOneNeighbor (w : World) (c : Cube) : Option Cube :=
  match w.getCube (c.p.1 + 1, c.p.2) with
  | some nb => some nb
  | none =>
    match w.getCube (c.p.1 - 1, c.p.2) with
    | some nb => some nb
    | none =>
      match w.getCube (c.p.1, c.p.2 + 1) with
      | some nb => some nb
      | none => w.getCube (c.p.1, c.p.2 - 1)

/-- Minimum of a list of integers (the source's `Array.min`, which returns
`Infinity` on an empty array; every call site guards against emptiness, so
the default value is irrelevant). -/
def intListMin : List Int → Int
  | [] => 0
  | x :: xs => xs.foldl min x

/-- `World.downmostLeftmost`: the leftmost cube of the downmost row. -/
def World.downmostLeftmost (w : World) : Option Cube :=
  if w.cubes.length = 0 then none
  else
    let lowestY := intListMin (w.cubes.map (fun c => c.p.2))
    let lowestX := intListMin
      ((w.cubes.filter (fun c => decide (c.p.2 = lowestY))).map (fun c => c.p.1))
    w.getCube (lowestX, lowestY)

/-- The bend preference table of `World.nextOnOutside`. -/
def bends : Card → List Card
  | .N => [.E, .N, .W, .S]
  | .E => [.S, .E, .N, .W]
  | .S => [.W, .S, .E, .N]
  | .W => [.N, .W, .S, .E]

/-- `World.nextOnOutside`: first direction of the bend table whose neighbor
is present. -/
def World.nextOnOutside (w : World) (p : Int × Int) (direction : Card) :
    Option Card :=
  let has := w.hasNeighbors p
  (bends direction).find? (fun dir => cardFlag has dir)

/-- The `while (true)` loop of `World.outsideCubes`: emit the cube at the
current position, pick the next outward direction, stop when there is none or
when the (cell, outgoing direction) edge was already traversed, else record
the edge and step.  `direction` is the direction of the previous segment. -/
def outsideLoop (w : World) :
    Nat → Int × Int → Card → List ((Int × Int) × Card) → List Cube → List Cube
  | 0, _, _, _, outside => outside
  | fuel + 1, position, direction, edgesSeen, outside =>
    match w.getCube position with
    | none => outside
    | some cube =>
      let outside := outside ++ [cube]
      match w.nextOnOutside position direction with
      | none => outside
      | some dir =>
        let newEdge := (cube.p, dir)
        if newEdge ∈ edgesSeen then outside
        else
          outsideLoop w fuel (stepCard position dir) dir
            (edgesSeen ++ [newEdge]) outside

/-- `World.outsideCubes`: the counter-clockwise outside walk, starting at the
downmost-leftmost cube with incoming direction `S`. -/
def World.outsideCubes (w : World) : List Cube :=
  match w.downmostLeftmost with
  | none => []
  | some start => outsideLoop w (4 * w.cubes.length + 2) start.p .S [] []

/-- Read an entry of an integer array with the `-1` initialization value as
default (all reads are in bounds in the runs of the source). -/
def getInt (l : List Int) (i : Nat) : Int :=
  l.getD i (-1)

/-- State of the outside-walk fold of `World.findComponents`.  The head of
`stack` is the top of the source's array stack. -/
structure CompState where
  seen : List Bool
  stack : List Nat
  components : List Int
  chunkIds : List Int
  chunksSeen : Int
deriving Repr

/-- The inner `while` of `World.findComponents`: pop the stack down to (but
not including) `cubeId`, marking every popped cube as part of the current
chunk (status 3 if it already had a status, else 2); stop when the stack has
at most one element. -/
def popChunk (cubeId : Nat) (chunksSeen : Int) :
    List Nat → List Int → List Int → List Nat × List Int × List Int
  | top :: s1 :: restStack, components, chunkIds =>
    if top = cubeId then (top :: s1 :: restStack, components, chunkIds)
    else
      popChunk cubeId chunksSeen (s1 :: restStack)
        (components.set top (if getInt components top ≠ -1 then 3 else 2))
        (chunkIds.set top chunksSeen)
  | stack, components, chunkIds => (stack, components, chunkIds)

/-- One step of the outside-walk loop of `World.findComponents`.  The guard
`stack[stack.length - 2] === cubeId` of the source compares against
`undefined` when the stack is shorter than 2, which is exactly
`stack.get? 1 = some cubeId` here.  When the final stack is empty in the last
branch, the source assigns `components[undefined]`, which leaves the array
entries unchanged. -/
def compWalkStep (w : World) (st : CompState) (cube : Cube) : CompState :=
  match w.getCubeId cube.p with
  | none => st
  | some cubeId =>
    if ¬ (st.seen.getD cubeId false) then
      { st with seen := st.seen.set cubeId true, stack := cubeId :: st.stack }
    else if st.stack.get? 1 = some cubeId then
      match st.stack with
      | cId :: restStack =>
        let components :=
          if getInt st.components cId = -1 then st.components.set cId 1
          else st.components
        let components :=
          if getInt components cubeId = -1 then components.set cubeId 1
          else components
        { st with stack := restStack, components := components }
      | [] => st
    else
      let res := popChunk cubeId st.chunksSeen st.stack st.components st.chunkIds
      match res.1 with
      | cId :: _ =>
        { st with
          stack := res.1,
          components := res.2.1.set cId (if 1 < res.1.length then 3 else 2),
          chunkIds := res.2.2.set cId st.chunksSeen,
          chunksSeen := st.chunksSeen + 1 }
      | [] =>
        { st with
          stack := res.1, components := res.2.1, chunkIds := res.2.2,
          chunksSeen := st.chunksSeen + 1 }

/-- `World.findComponents`: component status (1 link, 2 chunk, 3 connector)
and chunk id per cube, both `-1` on a disconnected or empty configuration. -/
def World.findComponents (w : World) : List Int × List Int :=
  let n := w.cubes.length
  let components := List.replicate n (-1 : Int)
  let chunkIds := List.replicate n (-1 : Int)
  if n = 0 ∨ ¬ (w.isConnected none) then (components, chunkIds)
  else
    let outside := w.outsideCubes
    let st0 : CompState := ⟨List.replicate n false, [], components, chunkIds, 0⟩
    let st := outside.foldl (compWalkStep w) st0
    -- if the origin was not put in a component yet, it is a 1-component
    let components :=
      match outside.head? with
      | none => st.components
      | some origin =>
        match w.getCubeId origin.p with
        | none => st.components
        | some originId =>
          if getInt st.components originId = -1 then st.components.set originId 1
          else st.components
    -- remaining cubes are on the inside of a 2-component
    let components := components.map (fun v => if v = -1 then 2 else v)
    -- mark loose squares as part of a chunk
    (List.range n).foldl
      (fun (acc : List Int × List Int) i =>
        if getInt acc.1 i = 1 then
          match w.cubes.get? i with
          | none => acc
          | some cube =>
            if w.degree cube = 1 then
              match w.getOneNeighbor cube with
              | none => acc
              | some neighbor =>
                match w.getCubeId neighbor.p with
                | none => acc
                | some neighborIndex =>
                  if getInt acc.1 neighborIndex = 3 then
                    let components := acc.1.set i 2
                    let chunkIds := acc.2.set i (getInt acc.2 neighborIndex)
                    let cs := [w.getCube (neighbor.p.1 - 1, neighbor.p.2),
                               w.getCube (neighbor.p.1 + 1, neighbor.p.2),
                               w.getCube (neighbor.p.1, neighbor.p.2 - 1),
                               w.getCube (neighbor.p.1, neighbor.p.2 + 1)]
                    let shouldRemoveConnector := cs.all fun oc =>
                      match oc with
                      | none => true
                      | some c =>
                        match w.getCubeId c.p with
                        | none => true
                        | some ci => decide (getInt components ci ≠ 1)
                    if shouldRemoveConnector then
                      (components.set neighborIndex 2, chunkIds)
                    else (components, chunkIds)
                  else acc
            else acc
        else acc)
      (components, st.chunkIds)

/-- State of the articulation-point DFS (`World.findCubeStabilityRecursive`);
one entry per cube id. -/
structure StabState where
  seen : List Bool
  parent : List (Option Nat)
  depth : List Int
  low : List Int
  stable : List Bool
deriving Repr

/-- `World.findCubeStabilityRecursive`: Hopcroft–Tarjan low-link DFS.  The
fuel bounds the recursion depth, which is at most the number of cubes. -/
def stabRec (w : World) : Nat → Nat → Int → StabState → StabState
  | 0, _, _, st => st
  | fuel + 1, i, d, st =>
    let st := { st with
      seen := st.seen.set i true,
      depth := st.depth.set i d,
      low := st.low.set i d }
    match w.cubes.get? i with
    | none => st
    | some cube =>
      let res := (bfsNeighborIds w cube.p).foldl
        (fun (acc : StabState × Bool × Nat) oid =>
          match oid with
          | none => acc
          | some cid =>
            if ¬ (acc.1.seen.getD cid false) then
              let st := { acc.1 with parent := acc.1.parent.set cid (some i) }
              let st := stabRec w fuel cid (d + 1) st
              let cutCube :=
                acc.2.1 || decide (getInt st.depth i ≤ getInt st.low cid)
              let st := { st with
                low := st.low.set i (min (getInt st.low i) (getInt st.low cid)) }
              (st, cutCube, acc.2.2 + 1)
            else
              -- `c.cubeId != parent[i]` (loose inequality; `parent[i]` may
              -- be null, in which case the test is true)
              if (match acc.1.parent.getD i none with
                  | some pid => decide (cid ≠ pid)
                  | none => true) then
                ({ acc.1 with
                    low := acc.1.low.set i
                      (min (getInt acc.1.low i) (getInt acc.1.depth cid)) },
                  acc.2.1, acc.2.2)
              else acc)
        (st, false, 0)
      let stableI :=
        match res.1.parent.getD i none with
        | none => decide (res.2.2 ≤ 1)
        | some _ => !res.2.1
      { res.1 with stable := res.1.stable.set i stableI }

/-- `World.findCubeStability`: `stable[i] = true` iff cube `i` is not a cut
cube. -/
def World.findCubeStability (w : World) : List Bool :=
  if w.cubes.length = 0 then []
  else
    let n := w.cubes.length
    let st0 : StabState := ⟨List.replicate n false, List.replicate n none,
      List.replicate n (-1), List.replicate n (-1), List.replicate n true⟩
    (stabRec w (n + 1) 0 0 st0).stable

/-- The tag combination of `World.markComponents`. -/
def statusFor (comp : Int) (stable : Bool) : ComponentStatus :=
  if comp = 2 then (if stable then .CHUNK_STABLE else .CHUNK_CUT)
  else if comp = 1 then (if stable then .LINK_STABLE else .LINK_CUT)
  else if comp = 3 then .CONNECTOR
  else .NONE

/-- `World.markComponents`: set every cube's status and chunk id from
`findComponents`/`findCubeStability`, then recompute the `onBoundary` flags
from the outside walk. -/
def World.markComponents (w : World) : World :=
  let fc := w.findComponents
  let stable := w.findCubeStability
  let cubes1 := w.cubes.enum.map fun ic =>
    { ic.2 with
      componentStatus := statusFor (getInt fc.1 ic.1) (stable.getD ic.1 false),
      chunkId := getInt fc.2 ic.1 }
  let cubes2 := cubes1.map fun c => { c with onBoundary := false }
  let w2 : World := ⟨cubes2⟩
  let outsidePos : List (Int × Int) := w2.outsideCubes.map (fun c => c.p)
  ⟨cubes2.map fun c =>
    if c.p ∈ outsidePos then { c with onBoundary := true } else c⟩

/-- `World.addCube`: `addCubeUnmarked` followed by `markComponents`. -/
def World.addCube (w : World) (p : Int × Int) (color : Color) :
    Except WErr World :=
  match w.addCubeUnmarked p color with
  | .error err => .error err
  | .ok r => .ok r.1.markComponents

/-- `World.moveCube`: `moveCubeUnmarked` followed by `markComponents`. -/
def World.moveCube (w : World) (src dst : Int × Int) : Except WErr World :=
  match w.moveCubeUnmarked src dst with
  | .error err => .error err
  | .ok w1 => .ok w1.markComponents

/-- `World.removeCube`: `removeCubeUnmarked` followed by `markComponents`. -/
def World.removeCube (w : World) (p : Int × Int) : Except WErr World :=
  match w.removeCubeUnmarked p with
  | .error err => .error err
  | .ok w1 => .ok w1.markComponents

/-- `World.bridgeCapacity`: BFS from the downmost-leftmost root with cube `b`
marked seen up front; returns the number of cubes not counted (the cubes cut
off from the root by `b`).  The source's guard `if (bId !== cubeId)` on the
count is never false because `b` is pre-seen and hence never newly visited. -/
def World.bridgeCapacity (w : World) (bp : Int × Int) : Nat :=
  match w.getCubeId bp with
  | none => 0
  | some bId =>
    let n := w.cubes.length
    let seen0 := (List.replicate n false).set bId true
    match w.downmostLeftmost with
    | none => 0
    | some origin =>
      match w.getCubeId origin.p with
      | none => 0
      | some originId =>
        let r := bfsLoop w true (5 * n + 2) seen0 1 [originId]
        n - r.2

/-- One cube entry of the save file (`{x, y, color?}`). -/
structure SaveCube where
  x : Int
  y : Int
  color : Option Color
deriving DecidableEq, Repr

/-- The save file (`{_version, cubes}`); the JSON text layer is external. -/
structure SaveFile where
  version : Int
  cubes : List SaveCube
deriving DecidableEq, Repr

/-- `World.serialize`: version 1, one entry per cube carrying the reset
position and the color. -/
def World.serialize (w : World) : SaveFile :=
  ⟨1, w.cubes.map fun c => ⟨c.resetPosition.1, c.resetPosition.2, some c.color⟩⟩

/-- `World.deserialize`: reject versions above 1, then add each cube in order
(the color defaults to blue).  Run on an empty world as the source's doc
comment requires. -/
def SaveCube.colorD (sc : SaveCube) : Color :=
  match sc.color with
  | none => Color.BLUE
  | some c => c

def deserializeStep (w : World) (sc : SaveCube) : Except WErr World :=
  w.addCube (sc.x, sc.y) sc.colorD

/-- The body of `World.deserialize` after the version check: add every cube in
order. -/
def deserializeInto (w : World) (data : SaveFile) : Except WErr World :=
  if 1 < data.version then .error .badVersion
  else data.cubes.foldlM deserializeStep w

/-- An empty world (`new World()`). -/
def emptyWorld : World := ⟨[]⟩

/-- Deserialization into a fresh empty world. -/
def deserialize (data : SaveFile) : Except WErr World :=
  deserializeInto emptyWorld data

/-- The `seen` map of `World.shortestMovePath`: cell, keyed as a string in the
source, mapped to the move that first reached it (`none` for the start).
Represented as an association list in insertion order. -/
abbrev SeenMap : Type := List ((Int × Int) × Option Move)

/-- Lookup in the seen map. -/
def seenLookup (seen : SeenMap) (c : Int × Int) : Option (Option Move) :=
  match List.find? (fun e => decide (e.1 = c)) seen with
  | none => none
  | some e => some e.2

/-- The BFS `while` loop of `World.shortestMovePath` on the move graph of the
world `w1` (the configuration with the mover removed): pop a (cell, parent
move) entry; skip it if the cell is seen; otherwise record it, stop when it
is the target, else push every valid move out of the cell. -/
def movePathBfs (w1 : World) (dst : Int × Int) :
    Nat → SeenMap → List ((Int × Int) × Option Move) → SeenMap
  | 0, seen, _ => seen
  | _ + 1, seen, [] => seen
  | fuel + 1, seen, (c, m) :: rest =>
    if (seenLookup seen c).isSome then movePathBfs w1 dst fuel seen rest
    else
      let seen := seen ++ [(c, m)]
      if c = dst then seen
      else
        let pushes := (w1.validMovesFrom c).map fun mv =>
          (mv.targetPosition, some mv)
        movePathBfs w1 dst fuel seen (rest ++ pushes)

/-- The path-reconstruction `while` loop of `World.shortestMovePath`: walk
the parent moves back from the target, prepending each move.  The source
dereferences `seen[c].move!`; the default branches are unreachable under the
BFS invariants. -/
def reconstructPath (seen : SeenMap) (src : Int × Int) :
    Nat → Int × Int → List Move → List Move
  | 0, _, path => path
  | fuel + 1, c, path =>
    if c = src then path
    else
      match seenLookup seen c with
      | some (some mv) =>
        reconstructPath seen src fuel mv.sourcePosition (mv :: path)
      | _ => path

/-- `World.shortestMovePath`: remove the mover, BFS over the move graph, fail
with `noMovePath` (after restoring the mover) if the target is unreached,
else reconstruct the path and restore the mover.  The mover is restored by
`addCubeUnmarked` at its old cell followed by copying its component status to
the freshly appended cube, exactly as in the source; the restored cube
therefore sits at the end of the cube list with a fresh reset position and
chunk id.  The returned list is the sequence the generator yields. -/
def World.shortestMovePath (w : World) (src dst : Int × Int) :
    Except WErr (List Move) × World :=
  match w.getCube src with
  | none => (.error .emptyCell, w)
  | some cube =>
    match w.removeCubeUnmarked src with
    | .error err => (.error err, w)
    | .ok w1 =>
      let fuel := 13 * (4 * w1.cubes.length + 2)
      let seen := movePathBfs w1 dst fuel [] [(src, none)]
      match w1.addCubeUnmarked cube.p cube.color with
      | .error err => (.error err, w1)
      | .ok r =>
        let w2 : World :=
          ⟨r.1.cubes.dropLast ++
            [{ r.2 with componentStatus := cube.componentStatus }]⟩
        match seenLookup seen dst with
        | none => (.error .noMovePath, w2)
        | some _ =>
          let path := reconstructPath seen src (seen.length + 1) dst []
          (.ok path, w2)

/-! ### Specification-side notions -/

/-- The error payload of an `Except`, if any. -/
def exceptErr {A : Type} : Except WErr A → Option WErr
  | .error e => some e
  | .ok _ => none

/-- The success payload of an `Except`, if any. -/
def exceptOk {A : Type} : Except WErr A → Option A
  | .error _ => none
  | .ok a => some a

/-- A configuration given by its cells only (blue cubes in list order);
used to build concrete instances. -/
def mkWorld (cells : List (Int × Int)) : World :=
  ⟨cells.map (fun p => Cube.mk' p Color.BLUE)⟩

/-- Rotating a relative offset from the north frame into the frame of the
given cardinal direction (clockwise rotations, as in the spec's
"symmetric rotations" of the slide rule). -/
def rotOffset : Card → Int × Int → Int × Int
  | .N, o => o
  | .E, o => (o.2, -o.1)
  | .S, o => (-o.1, -o.2)
  | .W, o => (-o.2, o.1)

/-- Translate a cell by an offset. -/
def shiftCell (p o : Int × Int) : Int × Int := (p.1 + o.1, p.2 + o.2)

/-- The slide rule of the spec's legality table, stated for north and rotated
into the other three directions: the target is empty and the cube is flanked
by a cube plus its diagonal forward neighbor on the west or on the east side
(in the rotated frame). -/
def specSlideLegal (w : World) (p : Int × Int) (c : Card) : Prop :=
  w.hasCube (shiftCell p (rotOffset c (0, 1))) = false ∧
    ((w.hasCube (shiftCell p (rotOffset c (-1, 0))) = true ∧
      w.hasCube (shiftCell p (rotOffset c (-1, 1))) = true) ∨
     (w.hasCube (shiftCell p (rotOffset c (1, 0))) = true ∧
      w.hasCube (shiftCell p (rotOffset c (1, 1))) = true))

/-- The corner rule of the spec's legality table for direction `d = d1d2`:
the target (diagonal) cell is empty, the `d1` neighbor is free and the `d2`
neighbor is occupied. -/
def specCornerLegal (w : World) (p : Int × Int) (c1 c2 : Card) : Prop :=
  w.hasCube (stepCard (stepCard p c1) c2) = false ∧
    w.hasCube (stepCard p c1) = false ∧
    w.hasCube (stepCard p c2) = true

/-- The spec's legality table for all twelve directions. -/
def specLegal (w : World) (m : Move) : Prop :=
  match m.direction with
  | .N => specSlideLegal w m.position .N
  | .E => specSlideLegal w m.position .E
  | .S => specSlideLegal w m.position .S
  | .W => specSlideLegal w m.position .W
  | .NW => specCornerLegal w m.position .N .W
  | .NE => specCornerLegal w m.position .N .E
  | .EN => specCornerLegal w m.position .E .N
  | .ES => specCornerLegal w m.position .E .S
  | .SE => specCornerLegal w m.position .S .E
  | .SW => specCornerLegal w m.position .S .W
  | .WS => specCornerLegal w m.position .W .S
  | .WN => specCornerLegal w m.position .W .N

/-- Orthogonal (4-)adjacency of grid cells. -/
def isAdj (a b : Int × Int) : Prop :=
  b = (a.1 + 1, a.2) ∨ b = (a.1 - 1, a.2) ∨
    b = (a.1, a.2 + 1) ∨ b = (a.1, a.2 - 1)

/-- One step between cells inside the region `P`. -/
def cellStep (P : Int × Int → Prop) (a b : Int × Int) : Prop :=
  P a ∧ P b ∧ isAdj a b

/-- Reachability between cells inside the region `P`. -/
def CellReach (P : Int × Int → Prop) : Int × Int → Int × Int → Prop :=
  Relation.ReflTransGen (cellStep P)

/-- 4-connectedness of the region `P`. -/
def SetConnected (P : Int × Int → Prop) : Prop :=
  ∀ a b, P a → P b → CellReach P a b

/-- The occupied region of a world. -/
def occP (w : World) (p : Int × Int) : Prop :=
  w.hasCube p = true

/-- The occupied region minus an optional skipped cell. -/
def occMinus (w : World) (skip : Option (Int × Int)) (p : Int × Int) : Prop :=
  match skip with
  | none => occP w p
  | some sp => occP w p ∧ p ≠ sp

/-! ### Concrete instances -/

/-- Scenario S4: an isolated cube at (2,2) plus a 3-cube line — a
disconnected instance, in save-file form. -/
def s4File : SaveFile :=
  ⟨1, [⟨2, 2, none⟩, ⟨0, 0, none⟩, ⟨1, 0, none⟩, ⟨2, 0, none⟩]⟩

/-- Two cubes side by side. -/
def pairWorld : World := mkWorld [(0, 0), (1, 0)]

/-- The corner move east-north out of the left cube of `pairWorld`. -/
def moveEN : Move := ⟨(0, 0), .EN⟩

/-- The U-shape of scenario S6. -/
def uWorld : World := mkWorld [(0, 0), (1, 0), (2, 0), (0, 1), (2, 1)]

/-- A horizontal line of three cubes. -/
def line3 : World := mkWorld [(0, 0), (1, 0), (2, 0)]

/-- A world with two cubes sharing the reset position (0,0): the first cube
was added at (0,0) and moved away, then a second cube was added at (0,0). -/
def clashWorld : World :=
  match emptyWorld.addCube (0, 0) Color.BLUE with
  | .error _ => emptyWorld
  | .ok w =>
    match w.moveCube (0, 0) (0, 1) with
    | .error _ => emptyWorld
    | .ok w2 =>
      match w2.addCube (0, 0) Color.RED with
      | .error _ => emptyWorld
      | .ok w3 => w3

/-- An L-shaped world of three cubes. -/
def lWorld : World := mkWorld [(0, 0), (1, 0), (1, 1)]

/-- A single cube at the origin. -/
def singletonWorld : World := mkWorld [(0, 0)]

/-- The cell of a save-file entry. -/
def SaveCube.cell (sc : SaveCube) : Int × Int := (sc.x, sc.y)

/-- An edge of the outside walk whose endpoints are both cubes. -/
def validEdge (w : World) (e : (Int × Int) × Card) : Prop :=
  w.hasCube e.1 = true ∧ w.hasCube (stepCard e.1 e.2) = true

/-- One step of the outside walk on (cell, outgoing direction) edges:
advance to the edge's far endpoint and pick the next outward direction
there. -/
def walkStep (w : World) (e : (Int × Int) × Card) :
    Option ((Int × Int) × Card) :=
  match w.nextOnOutside (stepCard e.1 e.2) e.2 with
  | none => none
  | some d => some (stepCard e.1 e.2, d)

/-- The list of consecutive pairs of a list. -/
def consecPairs {α : Type} (l : List α) : List (α × α) :=
  l.zip l.tail

/-- The opposite cardinal direction. -/
def revCard : Card → Card
  | .N => .S
  | .S => .N
  | .E => .W
  | .W => .E

/-- The bend lookup expressed on bare neighbor flags (north, east, south,
west). -/
def nextFlags (bn be bs bw : Bool) (d : Card) : Option Card :=
  (bends d).find? fun c =>
    match c with
    | .N => bn
    | .E => be
    | .S => bs
    | .W => bw

/-- The traversed directed edge of cells an outside-walk edge stands for. -/
def edgePair (e : (Int × Int) × Card) : (Int × Int) × (Int × Int) :=
  (e.1, stepCard e.1 e.2)

/-- The cell the outside walk stands on after traversing the given edges
(the walk starts at `startp` with no edge traversed). -/
def walkPos (startp : Int × Int) (l : List ((Int × Int) × Card)) : Int × Int :=
  match l.getLast? with
  | none => startp
  | some e => stepCard e.1 e.2

/-- The incoming direction of the outside walk after traversing the given
edges (the walk starts heading `S`). -/
def lastDir (l : List ((Int × Int) × Card)) : Card :=
  match l.getLast? with
  | none => Card.S
  | some e => e.2

/-- An edge of the move graph explored by `shortestMovePath`: a valid move
of the mover-free configuration `w1` from cell `a` to cell `b`. -/
def moveEdge (w1 : World) (a b : Int × Int) : Prop :=
  ∃ mv : Move, mv ∈ w1.validMovesFrom a ∧ mv.targetPosition = b

/-- Reachability in the move graph of the mover-free configuration. -/
def MoveReach (w1 : World) : Int × Int → Int × Int → Prop :=
  Relation.ReflTransGen (moveEdge w1)

/-- Reachability from `src` in exactly `n` steps of the move graph. -/
def reachN (w1 : World) (src : Int × Int) : Nat → Int × Int → Prop
  | 0, c => c = src
  | n + 1, c => ∃ b, reachN w1 src n b ∧ moveEdge w1 b c

/-- The moves form a chain of cells from `a` to `b`: each move starts where
the previous one ended. -/
def movesChain : Int × Int → Int × Int → List Move → Prop
  | a, b, [] => a = b
  | a, b, mv :: rest =>
    mv.sourcePosition = a ∧ movesChain mv.targetPosition b rest

/-- Invariant of the recorded entries of the move-path BFS: each entry's
label is its exact move-graph distance from the source, its parent move
points strictly earlier with a label one smaller, keys are pairwise
distinct, unoccupied in the scaffold, and next to it. -/
structure PathInv (w1 : World) (src : Int × Int)
    (seen : SeenMap) (sL : List Nat) : Prop where
  len : sL.length = seen.length
  keysNodup : (seen.map (fun e => e.1)).Nodup
  keysFree : ∀ e ∈ seen, w1.hasCube e.1 = false
  keysBound : ∀ e ∈ seen, e.1 = src ∨ ∃ q, w1.hasCube q = true ∧ isAdj e.1 q
  entries : ∀ i e lab, seen.get? i = some e → sL.get? i = some lab →
    (e.2 = none → e.1 = src ∧ lab = 0) ∧
    (∀ mv, e.2 = some mv →
      mv ∈ w1.validMovesFrom mv.sourcePosition ∧ mv.targetPosition = e.1 ∧
      ∃ j ep labp, j < i ∧ seen.get? j = some ep ∧ sL.get? j = some labp ∧
        ep.1 = mv.sourcePosition ∧ labp + 1 = lab)
  reach : ∀ i e lab, seen.get? i = some e → sL.get? i = some lab →
    reachN w1 src lab e.1
  minimal : ∀ i e lab, seen.get? i = some e → sL.get? i = some lab →
    ∀ n, reachN w1 src n e.1 → lab ≤ n

/-- Invariant of the work queue of the move-path BFS: labels of entries are
their candidate distances, the label sequence is a block of `f`s followed by
a block of `f+1`s, every cell strictly closer than the front label is
recorded, every cell at distance at most the front label is recorded or
queued with a label bounded by its distance, recorded cells have all their
move targets recorded or queued one level deeper, and an empty queue means
every reachable cell is recorded. -/
structure QueueInv (w1 : World) (src : Int × Int) (seen : SeenMap)
    (sL : List Nat) (queue : List ((Int × Int) × Option Move))
    (qL : List Nat) : Prop where
  len : qL.length = queue.length
  entries : ∀ i e lab, queue.get? i = some e → qL.get? i = some lab →
    (e.2 = none → e.1 = src ∧ lab = 0) ∧
    (∀ mv, e.2 = some mv →
      mv ∈ w1.validMovesFrom mv.sourcePosition ∧ mv.targetPosition = e.1 ∧
      ∃ j ep labp, seen.get? j = some ep ∧ sL.get? j = some labp ∧
        ep.1 = mv.sourcePosition ∧ labp + 1 = lab)
  reach : ∀ i e lab, queue.get? i = some e → qL.get? i = some lab →
    reachN w1 src lab e.1
  sorted : ∃ a b f, qL = List.replicate a f ++ List.replicate b (f + 1)
  q4 : ∀ f, qL.head? = some f → ∀ c n, reachN w1 src n c → n < f →
    c ∈ seen.map (fun e => e.1)
  q5 : ∀ f, qL.head? = some f → ∀ c n, reachN w1 src n c → n ≤ f →
    c ∈ seen.map (fun e => e.1) ∨
    ∃ i e lab, queue.get? i = some e ∧ qL.get? i = some lab ∧
      e.1 = c ∧ lab ≤ n
  q6 : ∀ i e1 lab1, seen.get? i = some e1 → sL.get? i = some lab1 →
    ∀ mv, mv ∈ w1.validMovesFrom e1.1 →
      mv.targetPosition ∈ seen.map (fun e => e.1) ∨
      ∃ k ep labp, queue.get? k = some ep ∧ qL.get? k = some labp ∧
        ep.1 = mv.targetPosition ∧ labp ≤ lab1 + 1
  emptyDone : queue = [] → ∀ c n, reachN w1 src n c →
    c ∈ seen.map (fun e => e.1)

/-- A seen-array entry, read with the initialization default. -/
def seenAt (seen : List Bool) (i : Nat) : Prop :=
  seen.getD i false = true

/-- The position of the cube with the given id (default value for invalid
ids, which never occur in the uses below). -/
def posAt (w : World) (i : Nat) : Int × Int :=
  match w.cubes.get? i with
  | none => (0, 0)
  | some c => c.p

/-- Adjacency of cube ids through the cell index: `j` is returned among the
four neighbor lookups around cube `i`. -/
def idNbr (w : World) (i j : Nat) : Prop :=
  ∃ c, w.cubes.get? i = some c ∧ some j ∈ bfsNeighborIds w c.p

/-- The ids the BFS work loop newly visits, given the initially seen
predicate `pre` and the initial queue `Q`: unseen ids of `Q`, closed under
neighbor pushes out of newly visited cubes. -/
inductive BfsReach (w : World) (pre : Nat → Prop) (Q : List Nat) : Nat → Prop
  | base {i : Nat} : i ∈ Q → ¬ pre i → BfsReach w pre Q i
  | step {i j : Nat} : BfsReach w pre Q i → idNbr w i j → ¬ pre j →
      BfsReach w pre Q j

/-- The identity-relevant fields of a cube: position, reset position and
color (the fields the classification routines never touch). -/
def cubeKey (c : Cube) : (Int × Int) × (Int × Int) × Color :=
  (c.p, c.resetPosition, c.color)

/-! ## Theorems -/

/-! ### Basic facts about lookups -/

/-- A successful `findIdx?` returns an index past the accumulator whose
element satisfies the predicate. -/
theorem findIdxQ_spec {α : Type} (q : α → Bool) :
    ∀ (l : List α) (s j : Nat), l.findIdx? q s = some j →
      s ≤ j ∧ ∃ a, l.get? (j - s) = some a ∧ q a = true
  | [], s, j => by intro h; simp [List.findIdx?] at h
  | x :: xs, s, j => by
    intro h
    rw [List.findIdx?_cons] at h
    by_cases hq : q x = true
    · rw [if_pos hq] at h
      cases h
      exact ⟨le_refl _, x, by simp, hq⟩
    · rw [if_neg hq] at h
      obtain ⟨hle, a, hget, hqa⟩ := findIdxQ_spec q xs (s + 1) j h
      refine ⟨by omega, a, ?_, hqa⟩
      have hj : j - s = (j - (s + 1)) + 1 := by omega
      rw [hj]
      simpa using hget

/-- `findIdx?` succeeds whenever some element satisfies the predicate. -/
theorem findIdxQ_isSome {α : Type} (q : α → Bool) :
    ∀ (l : List α) (s : Nat), (∃ a ∈ l, q a = true) →
      (l.findIdx? q s).isSome = true
  | [], _, h => by simp at h
  | x :: xs, s, h => by
    rw [List.findIdx?_cons]
    by_cases hq : q x = true
    · rw [if_pos hq]; rfl
    · rw [if_neg hq]
      obtain ⟨a, ha, hqa⟩ := h
      rcases List.mem_cons.mp ha with rfl | ha
      · exact absurd hqa hq
      · exact findIdxQ_isSome q xs (s + 1) ⟨a, ha, hqa⟩

/-- A failing `findIdx?` means no element satisfies the predicate. -/
theorem findIdxQ_none {α : Type} (q : α → Bool) :
    ∀ (l : List α) (s : Nat), l.findIdx? q s = none →
      ∀ a ∈ l, q a = false
  | [], _, _ => by intro a ha; cases ha
  | x :: xs, s, h => by
    rw [List.findIdx?_cons] at h
    by_cases hq : q x = true
    · rw [if_pos hq] at h; cases h
    · rw [if_neg hq] at h
      intro a ha
      rcases List.mem_cons.mp ha with rfl | ha
      · exact Bool.not_eq_true _ ▸ by simpa using hq
      · exact findIdxQ_none q xs (s + 1) h a ha

/-- All elements strictly before a successful `findIdx?` index fail the
predicate. -/
theorem findIdxQ_first {α : Type} (q : α → Bool) :
    ∀ (l : List α) (s j : Nat), l.findIdx? q s = some j →
      ∀ k, k < j - s → ∀ a, l.get? k = some a → q a = false
  | [], s, j => by intro h; simp [List.findIdx?] at h
  | x :: xs, s, j => by
    intro h k hk a hget
    rw [List.findIdx?_cons] at h
    by_cases hq : q x = true
    · rw [if_pos hq] at h
      cases h
      omega
    · rw [if_neg hq] at h
      have hle := (findIdxQ_spec q xs (s + 1) j h).1
      match k, hget with
      | 0, hget =>
        cases hget
        exact Bool.not_eq_true _ ▸ by simpa using hq
      | k + 1, hget =>
        exact findIdxQ_first q xs (s + 1) j h k (by omega) a (by simpa using hget)

/-- The cube id returned for a cell indexes a cube sitting at that cell. -/
theorem getCubeId_some_spec {w : World} {p : Int × Int} {i : Nat}
    (h : w.getCubeId p = some i) :
    ∃ c, w.cubes.get? i = some c ∧ c.p = p := by
  obtain ⟨-, a, hget, hq⟩ := findIdxQ_spec _ _ _ _ h
  exact ⟨a, by simpa using hget, by simpa using hq⟩

/-- A cell is occupied exactly when it is the position of some cube. -/
theorem hasCube_iff_mem {w : World} {p : Int × Int} :
    w.hasCube p = true ↔ p ∈ w.cubes.map (fun c => c.p) := by
  constructor
  · intro h
    rw [World.hasCube, Option.isSome_iff_exists] at h
    obtain ⟨c, hc⟩ := h
    rw [World.getCube] at hc
    cases hid : w.getCubeId p with
    | none => rw [hid] at hc; cases hc
    | some i =>
      obtain ⟨c', hget, hp⟩ := getCubeId_some_spec hid
      exact hp ▸ List.mem_map.mpr ⟨c', List.get?_mem hget, rfl⟩
  · intro h
    obtain ⟨c, hc, hp⟩ := List.mem_map.mp h
    rw [World.hasCube, World.getCube]
    cases hid : w.getCubeId p with
    | none =>
      have := findIdxQ_none _ _ _ hid c hc
      simp [hp] at this
    | some i =>
      obtain ⟨c', hget, -⟩ := getCubeId_some_spec hid
      have hg : w.cubes[i]? = some c' := by
        rw [← List.get?_eq_getElem?]
        exact hget
      simp [hg]

/-- The cube returned for a cell sits at that cell and belongs to the world. -/
theorem getCube_some_spec {w : World} {p : Int × Int} {c : Cube}
    (h : w.getCube p = some c) : c.p = p ∧ c ∈ w.cubes := by
  cases hid : w.getCubeId p with
  | none =>
    rw [World.getCube, hid] at h
    cases h
  | some i =>
    have h' : w.cubes.get? i = some c := by
      rw [World.getCube, hid] at h
      exact h
    obtain ⟨c', hget, hp⟩ := getCubeId_some_spec hid
    rw [h'] at hget
    cases hget
    exact ⟨hp, List.get?_mem h'⟩

/-- Occupancy depends only on the position list. -/
theorem hasCube_congr {w w' : World}
    (h : w.cubes.map (fun c => c.p) = w'.cubes.map (fun c => c.p))
    (p : Int × Int) : w.hasCube p = w'.hasCube p := by
  cases h1 : w.hasCube p with
  | true => exact (hasCube_iff_mem.mpr (h ▸ hasCube_iff_mem.mp h1)).symm
  | false =>
    cases h2 : w'.hasCube p with
    | true =>
      rw [← h1]
      exact hasCube_iff_mem.mpr (h ▸ hasCube_iff_mem.mp h2)
    | false => rfl

/-- Every direction is enumerated. -/
theorem mem_allMoveDirections (d : MoveDirection) : d ∈ allMoveDirections := by
  cases d <;> simp [allMoveDirections]

/-- Membership in `validMovesFrom`, unfolded. -/
theorem mem_validMovesFrom {w : World} {p : Int × Int} {m : Move} :
    m ∈ w.validMovesFrom p ↔
      m.position = p ∧ m.isValidIgnoreConnectivity w = true ∧
        w.isConnected (some p) = true := by
  unfold World.validMovesFrom
  by_cases hc : w.isConnected (some p) = true
  · rw [if_neg (by simp [hc])]
    rw [List.mem_filterMap]
    constructor
    · rintro ⟨d, -, hfd⟩
      by_cases hv : (Move.mk p d).isValidIgnoreConnectivity w = true
      · rw [if_pos hv] at hfd
        cases hfd
        exact ⟨rfl, hv, hc⟩
      · rw [if_neg hv] at hfd
        cases hfd
    · rintro ⟨hpos, hivc, -⟩
      obtain ⟨mp, md⟩ := m
      cases hpos
      exact ⟨md, mem_allMoveDirections md, by rw [if_pos hivc]⟩
  · rw [if_pos (by simpa using hc)]
    simp only [List.not_mem_nil, false_iff]
    rintro ⟨-, -, h⟩
    exact hc h

/-- The local legality test agrees with the spec's table (helper shared by
several developments below). -/
theorem ivc_iff_specLegal (w : World) (m : Move) :
    m.isValidIgnoreConnectivity w = true ↔ specLegal w m := by
  obtain ⟨p, d⟩ := m
  cases d <;>
    simp [Move.isValidIgnoreConnectivity, specLegal, specSlideLegal,
      specCornerLegal, World.hasNeighbors, Move.targetPosition,
      targetPositionFromFields, MoveDirection.letters, rotOffset, shiftCell,
      stepCard, cardFlag, sub_eq_add_neg] <;>
    tauto

/-- Claim C4: `isValidIgnoreConnectivity` agrees with the spec's legality
table — for a slide the target must be empty and the cube must be flanked on
one side by a neighbor together with that neighbor's forward-diagonal
companion (the north rule and its three rotations); for a two-letter corner
direction `d1d2` the target must be empty, the `d1` neighbor free and the
`d2` neighbor occupied. -/
theorem C4_isValidIgnoreConnectivity_matches_table (w : World) (m : Move) :
    m.isValidIgnoreConnectivity w = true ↔ specLegal w m :=
  ivc_iff_specLegal w m

/-- Claim C10: `validMovesFrom(p)` returns exactly the `isValid` moves out of
`p`: every returned move is valid and starts at `p`, every valid move out of
`p` is returned, and when removing the cube at `p` disconnects the
configuration the list is empty. -/
theorem C10_validMovesFrom_exactly_valid (w : World) (p : Int × Int)
    (hp : w.hasCube p = true) :
    (∀ m ∈ w.validMovesFrom p, m.isValid w = true ∧ m.position = p) ∧
    (∀ d : MoveDirection, (Move.mk p d).isValid w = true →
        Move.mk p d ∈ w.validMovesFrom p) ∧
    (w.isConnected (some p) = false → w.validMovesFrom p = []) := by
  refine ⟨?_, ?_, ?_⟩
  · intro m hm
    rw [mem_validMovesFrom] at hm
    refine ⟨?_, hm.1⟩
    rw [Move.isValid, Bool.and_eq_true]
    exact ⟨hm.2.1, by rw [hm.1]; exact hm.2.2⟩
  · intro d hv
    rw [Move.isValid, Bool.and_eq_true] at hv
    exact mem_validMovesFrom.mpr ⟨rfl, hv.1, hv.2⟩
  · intro hfalse
    unfold World.validMovesFrom
    rw [if_pos (by simp [hfalse])]

/-- Witness for C10 at a concrete input: the cube at (0,0) of the two-cube
world. -/
theorem C10_validMovesFrom_exactly_valid_witness :
    pairWorld.hasCube (0, 0) = true ∧
    ((∀ m ∈ pairWorld.validMovesFrom (0, 0),
        m.isValid pairWorld = true ∧ m.position = (0, 0)) ∧
     (∀ d : MoveDirection, (Move.mk (0, 0) d).isValid pairWorld = true →
        Move.mk (0, 0) d ∈ pairWorld.validMovesFrom (0, 0)) ∧
     (pairWorld.isConnected (some (0, 0)) = false →
        pairWorld.validMovesFrom (0, 0) = [])) :=
  ⟨by decide, C10_validMovesFrom_exactly_valid pairWorld (0, 0) (by decide)⟩

/-- Counterexample to claim C1: deserializing the disconnected instance S4
does not reject — it constructs a world, and that world is not 4-connected. -/
theorem C1_counterexample :
    (exceptOk (deserialize s4File)).map (fun w => w.isConnected none) =
      some false := by decide

/-- Counterexample to claim C2: for the corner move east-north out of (0,0)
in the two-cube world, the target cell (1,1) is empty and committing the move
leaves the configuration 4-connected, yet `isValid` is false (the east
neighbor obstructs the corner move). -/
theorem C2_counterexample :
    moveEN.isValid pairWorld = false ∧
    pairWorld.hasCube moveEN.targetPosition = false ∧
    (exceptOk (pairWorld.moveCube moveEN.sourcePosition moveEN.targetPosition)).map
        (fun w => w.isConnected none) = some true := by decide

/-- Counterexample to claim C5: in the U-shape, the cube at (1,0) is
classified `LINK_CUT`, not `Connector`. -/
theorem C5_counterexample :
    (uWorld.markComponents.getCube (1, 0)).map (fun c => c.componentStatus) =
        some ComponentStatus.LINK_CUT ∧
    (uWorld.markComponents.getCube (1, 0)).map (fun c => c.componentStatus) ≠
        some ComponentStatus.CONNECTOR := by decide

/-- Amended claim C5: marking components on the U-shape tags the three bottom
cubes (0,0), (1,0), (2,0) as `LinkCut` and the two arm tips (0,1), (2,1) as
`LinkStable`. -/
theorem C5_amended_classification :
    uWorld.markComponents.cubes.map (fun c => (c.p, c.componentStatus)) =
      [((0, 0), ComponentStatus.LINK_CUT), ((1, 0), ComponentStatus.LINK_CUT),
       ((2, 0), ComponentStatus.LINK_CUT), ((0, 1), ComponentStatus.LINK_STABLE),
       ((2, 1), ComponentStatus.LINK_STABLE)] := by decide

/-- Counterexample to claim C9: in `clashWorld` two cubes share the reset
position (0,0), so deserializing its serialization aborts on the occupied
cell instead of yielding a world. -/
theorem C9_counterexample :
    exceptErr (deserialize clashWorld.serialize) = some WErr.occupiedCell := by
  decide

/-! ### Preservation of cube identity by `markComponents` -/

/-- `markComponents` only rewrites classification fields: the position, reset
position and color of every cube are unchanged (and so is the cube order). -/
theorem markComponents_key (w : World) :
    w.markComponents.cubes.map cubeKey = w.cubes.map cubeKey := by
  conv_rhs => rw [← List.enum_map_snd w.cubes]
  unfold World.markComponents
  simp only [List.map_map]
  apply List.map_congr_left
  intro ic _
  simp only [Function.comp_apply]
  split <;> rfl

/-- Positions are preserved by `markComponents`. -/
theorem markComponents_pos (w : World) :
    w.markComponents.cubes.map (fun c => c.p) = w.cubes.map (fun c => c.p) := by
  have h := congrArg (List.map Prod.fst) (markComponents_key w)
  simpa [List.map_map, Function.comp, cubeKey] using h

/-- The step of `deserialize` succeeds on a fresh cell and the cube keys grow
by exactly the new entry; the auxiliary fold processes a whole entry list. -/
theorem deserializeInto_fold :
    ∀ (entries : List SaveCube) (w : World),
      (∀ sc ∈ entries, w.hasCube sc.cell = false) →
      (entries.map SaveCube.cell).Nodup →
      ∃ w', entries.foldlM deserializeStep w = .ok w' ∧
        w'.cubes.map cubeKey = w.cubes.map cubeKey ++
          entries.map (fun sc => (sc.cell, sc.cell, sc.colorD))
  | [], w => by
    intro _ _
    exact ⟨w, rfl, by simp⟩
  | sc :: rest, w => by
    intro hdisj hnd
    have hocc : w.hasCube (sc.x, sc.y) = false := hdisj sc (by simp)
    have hstep : deserializeStep w sc =
        .ok (World.markComponents ⟨w.cubes ++ [Cube.mk' (sc.x, sc.y) sc.colorD]⟩) := by
      unfold deserializeStep World.addCube World.addCubeUnmarked
      rw [if_neg (by simp [hocc])]
    set w1 := World.markComponents ⟨w.cubes ++ [Cube.mk' (sc.x, sc.y) sc.colorD]⟩
      with hw1
    have hkey1 : w1.cubes.map cubeKey =
        w.cubes.map cubeKey ++ [(sc.cell, sc.cell, sc.colorD)] := by
      rw [hw1, markComponents_key]
      simp [Cube.mk', cubeKey, SaveCube.cell]
    have hpos1 : w1.cubes.map (fun c => c.p) =
        w.cubes.map (fun c => c.p) ++ [sc.cell] := by
      have h := congrArg (List.map Prod.fst) hkey1
      simpa [List.map_map, Function.comp, cubeKey] using h
    rw [List.foldlM_cons, hstep]
    have hnd1 : (rest.map SaveCube.cell).Nodup := (List.nodup_cons.mp hnd).2
    have hscnot : sc.cell ∉ rest.map SaveCube.cell := (List.nodup_cons.mp hnd).1
    have hdisj1 : ∀ sc' ∈ rest, w1.hasCube sc'.cell = false := by
      intro sc' hsc'
      have hmem := hasCube_iff_mem (w := w1) (p := sc'.cell)
      rw [hpos1] at hmem
      cases hc : w1.hasCube sc'.cell with
      | false => rfl
      | true =>
        have := hmem.mp hc
        rw [List.mem_append] at this
        rcases this with hin | hin
        · have : w.hasCube sc'.cell = true := hasCube_iff_mem.mpr hin
          rw [hdisj sc' (by simp [hsc'])] at this
          cases this
        · simp only [List.mem_singleton] at hin
          exact absurd (hin ▸ List.mem_map_of_mem SaveCube.cell hsc')
            (hin ▸ hscnot)
    obtain ⟨w', hfold, hw'⟩ := deserializeInto_fold rest w1 hdisj1 hnd1
    refine ⟨w', hfold, ?_⟩
    simp [hw', hkey1]

/-- Amended claim C1: `deserialize` performs no connectivity validation — for
every instance whose version is at most 1 and whose cells are pairwise
distinct it constructs a world occupying exactly those cells, also when the
cell set is not 4-connected (the source has no `Disconnected` rejection). -/
theorem C1_amended_deserialize_accepts (data : SaveFile)
    (hv : data.version ≤ 1)
    (hnd : (data.cubes.map SaveCube.cell).Nodup) :
    ∃ w : World, deserialize data = .ok w ∧
      w.cubes.map (fun c => c.p) = data.cubes.map SaveCube.cell := by
  unfold deserialize deserializeInto
  rw [if_neg (by omega)]
  obtain ⟨w', hfold, hkey⟩ := deserializeInto_fold data.cubes emptyWorld
    (fun _ _ => rfl) hnd
  refine ⟨w', hfold, ?_⟩
  have h := congrArg (List.map Prod.fst) hkey
  simpa [List.map_map, Function.comp, cubeKey, emptyWorld] using h

/-- Witness for the amended claim C1 at the disconnected instance S4. -/
theorem C1_amended_deserialize_accepts_witness :
    s4File.version ≤ 1 ∧ (s4File.cubes.map SaveCube.cell).Nodup ∧
    (∃ w : World, deserialize s4File = .ok w ∧
      w.cubes.map (fun c => c.p) = s4File.cubes.map SaveCube.cell) :=
  ⟨by decide, by decide,
    C1_amended_deserialize_accepts s4File (by decide) (by decide)⟩

/-- Amended claim C9: for every world whose cubes have pairwise-distinct
reset positions, deserializing `serialize(w)` into an empty world succeeds
and yields a world whose cubes carry, in the same order, the reset positions
and colors of the cubes of `w`; each cube is created at its reset position
(so current positions agree with `w` only where cubes have not moved). -/
theorem C9_amended_roundtrip (w : World)
    (hnd : (w.cubes.map (fun c => c.resetPosition)).Nodup) :
    ∃ w', deserialize w.serialize = .ok w' ∧
      w'.cubes.map (fun c => c.resetPosition) =
        w.cubes.map (fun c => c.resetPosition) ∧
      w'.cubes.map (fun c => c.color) = w.cubes.map (fun c => c.color) ∧
      w'.cubes.map (fun c => c.p) = w.cubes.map (fun c => c.resetPosition) := by
  unfold deserialize deserializeInto World.serialize
  rw [if_neg (by simp)]
  have hcells : ((w.cubes.map fun c =>
      (⟨c.resetPosition.1, c.resetPosition.2, some c.color⟩ : SaveCube)).map
        SaveCube.cell) = w.cubes.map (fun c => c.resetPosition) := by
    simp [List.map_map, Function.comp, SaveCube.cell]
  obtain ⟨w', hfold, hkey⟩ := deserializeInto_fold _ emptyWorld
    (fun _ _ => rfl) (by rw [hcells]; exact hnd)
  refine ⟨w', hfold, ?_, ?_, ?_⟩
  · have h := congrArg (List.map (fun e => e.2.1)) hkey
    simpa [List.map_map, Function.comp, cubeKey, emptyWorld, SaveCube.cell]
      using h
  · have h := congrArg (List.map (fun e => e.2.2)) hkey
    simpa [List.map_map, Function.comp, cubeKey, emptyWorld, SaveCube.colorD]
      using h
  · have h := congrArg (List.map Prod.fst) hkey
    simpa [List.map_map, Function.comp, cubeKey, emptyWorld, SaveCube.cell]
      using h

/-! ### Seen-array bookkeeping -/

/-- Setting an in-range entry is read back. -/
theorem getD_set_self : ∀ (l : List Bool) (i : Nat), i < l.length →
    ∀ b : Bool, (l.set i b).getD i false = b
  | [], i, h => by simp at h
  | x :: xs, 0, _ => by intro b; rfl
  | x :: xs, i + 1, h => by
    intro b
    exact getD_set_self xs i (by simpa using h) b

/-- Setting another entry does not change a read. -/
theorem getD_set_ne : ∀ (l : List Bool) (i j : Nat), i ≠ j →
    ∀ b : Bool, (l.set i b).getD j false = l.getD j false
  | [], _, _, _ => by intro b; rfl
  | x :: xs, 0, 0, h => by intro b; exact absurd rfl h
  | x :: xs, 0, j + 1, _ => by intro b; rfl
  | x :: xs, i + 1, 0, _ => by intro b; rfl
  | x :: xs, i + 1, j + 1, h => by
    intro b
    exact getD_set_ne xs i j (by omega) b

/-- A read beyond the length gives the default. -/
theorem getD_eq_false_of_le : ∀ (l : List Bool) (i : Nat), l.length ≤ i →
    l.getD i false = false
  | [], _, _ => rfl
  | x :: xs, 0, h => by simp at h
  | x :: xs, i + 1, h => getD_eq_false_of_le xs i (by simpa using h)

/-- Marking a currently false in-range entry increments the count of trues. -/
theorem count_true_set : ∀ (l : List Bool) (i : Nat), i < l.length →
    l.getD i false = false →
    (l.set i true).count true = l.count true + 1
  | [], i, h, _ => by simp at h
  | x :: xs, 0, _, hf => by
    have hx : x = false := hf
    subst hx
    simp [List.count_cons]
  | x :: xs, i + 1, h, hf => by
    have := count_true_set xs i (by simpa using h) hf
    simp [List.count_cons, this]
    omega

/-- A false in-range entry keeps the count of trues below the length. -/
theorem count_true_lt : ∀ (l : List Bool) (i : Nat), i < l.length →
    l.getD i false = false → l.count true < l.length
  | [], i, h, _ => by simp at h
  | x :: xs, 0, _, hf => by
    have hx : x = false := hf
    subst hx
    have := List.count_le_length true xs
    simp [List.count_cons]
    omega
  | x :: xs, i + 1, h, hf => by
    have := count_true_lt xs i (by simpa using h) hf
    cases x <;> simp [List.count_cons] <;> omega

/-- When the count of trues reaches the length, every in-range entry is
true. -/
theorem all_true_of_count : ∀ (l : List Bool), l.count true = l.length →
    ∀ i, i < l.length → l.getD i false = true
  | [], _, i, h => by simp at h
  | x :: xs, hc, i, h => by
    have hle := List.count_le_length true xs
    cases x with
    | false =>
      exfalso
      simp [List.count_cons] at hc
      omega
    | true =>
      cases i with
      | zero => rfl
      | succ k =>
        have hc' : xs.count true = xs.length := by
          simp [List.count_cons] at hc
          omega
        exact all_true_of_count xs hc' k (by simpa using h)

/-- Conversely, if every in-range entry is true the count equals the
length. -/
theorem count_of_all_true : ∀ (l : List Bool),
    (∀ i, i < l.length → l.getD i false = true) → l.count true = l.length
  | [], _ => rfl
  | x :: xs, h => by
    have hx : x = true := h 0 (by simp)
    subst hx
    have := count_of_all_true xs (fun i hi => h (i + 1) (by simpa using hi))
    simp [List.count_cons, this]

/-- The count of trues of the all-false array is zero. -/
theorem count_true_replicate_false (n : Nat) :
    (List.replicate n false).count true = 0 := by
  induction n with
  | zero => rfl
  | succ k ih => simpa [List.replicate, List.count_cons] using ih

/-- Membership in a `set` of a duplicate-free list, when the overwritten
element is known. -/
theorem mem_set_nodup {α : Type} [DecidableEq α] :
    ∀ (l : List α) (i : Nat) (a b : α), l.Nodup → l.get? i = some a →
      ∀ x, x ∈ l.set i b ↔ (x = b ∨ (x ∈ l ∧ x ≠ a))
  | [], i, a, b, _, hget => by simp at hget
  | y :: ys, 0, a, b, hnd, hget => by
    cases hget
    intro x
    simp only [List.set, List.mem_cons]
    constructor
    · rintro (rfl | hx)
      · exact Or.inl rfl
      · refine Or.inr ⟨Or.inr hx, ?_⟩
        rintro rfl
        exact (List.nodup_cons.mp hnd).1 hx
    · rintro (rfl | ⟨(rfl | hx), hne⟩)
      · exact Or.inl rfl
      · exact absurd rfl hne
      · exact Or.inr hx
  | y :: ys, i + 1, a, b, hnd, hget => by
    intro x
    have hys : ys.get? i = some a := by simpa using hget
    have hih := mem_set_nodup ys i a b (List.nodup_cons.mp hnd).2 hys x
    have hya : y ≠ a := by
      rintro rfl
      exact (List.nodup_cons.mp hnd).1 (List.get?_mem hys)
    simp only [List.set, List.mem_cons, hih]
    constructor
    · rintro (rfl | (rfl | hx))
      · exact Or.inr ⟨Or.inl rfl, hya⟩
      · exact Or.inl rfl
      · exact Or.inr ⟨Or.inr hx.1, hx.2⟩
    · rintro (rfl | ⟨(rfl | hx), hne⟩)
      · exact Or.inr (Or.inl rfl)
      · exact Or.inl rfl
      · exact Or.inr (Or.inr ⟨hx, hne⟩)

/-! ### Characterization of the BFS work loop -/

/-- An entry read as true is in range. -/
theorem seenAt_lt_length {seen : List Bool} {x : Nat} (h : seenAt seen x) :
    x < seen.length := by
  by_contra hge
  rw [seenAt, getD_eq_false_of_le seen x (by omega)] at h
  cases h

/-- Marking an entry preserves every true entry. -/
theorem seenAt_set_mono {seen : List Bool} {i x : Nat} (h : seenAt seen x) :
    seenAt (seen.set i true) x := by
  by_cases hix : i = x
  · subst hix
    rw [seenAt, getD_set_self _ _ (seenAt_lt_length h)]
  · rw [seenAt, getD_set_ne _ _ _ hix]
    exact h

/-- `BfsReach` is monotone in the queue. -/
theorem BfsReach.mono_queue {w : World} {pre : Nat → Prop} {Q Q' : List Nat}
    (hsub : ∀ x ∈ Q, x ∈ Q') {j : Nat} (h : BfsReach w pre Q j) :
    BfsReach w pre Q' j := by
  induction h with
  | base hmem hp => exact .base (hsub _ hmem) hp
  | step hi hn hp ih => exact .step ih hn hp

/-- A reached id is not initially seen. -/
theorem BfsReach.not_pre {w : World} {pre : Nat → Prop} {Q : List Nat} {j : Nat}
    (h : BfsReach w pre Q j) : ¬ pre j := by
  cases h with
  | base hmem hp => exact hp
  | step hi hn hp => exact hp

/-- A cube id returned by the index is in range. -/
theorem getCubeId_lt {w : World} {p : Int × Int} {i : Nat}
    (h : w.getCubeId p = some i) : i < w.cubes.length := by
  obtain ⟨c, hc, -⟩ := getCubeId_some_spec h
  obtain ⟨hlt, -⟩ := List.get?_eq_some.mp hc
  exact hlt

/-- A neighbor lookup hit is a valid id. -/
theorem mem_bfsNeighborIds_lt {w : World} {p : Int × Int} {j : Nat}
    (h : some j ∈ bfsNeighborIds w p) : j < w.cubes.length := by
  rw [bfsNeighborIds] at h
  simp only [List.mem_cons, List.not_mem_nil, or_false] at h
  rcases h with h | h | h | h <;> exact getCubeId_lt h.symm

/-- What the BFS work loop produces, given enough fuel: the final seen array
has unchanged length; the count tracks the trues; every queued id ends up
seen; seen entries persist; the final seen set is closed under neighbor
pushes out of newly seen ids; and every finally seen id was initially seen or
is `BfsReach`-reachable. -/
theorem bfsLoop_spec (w : World) (pushZero : Bool) :
    ∀ (fuel : Nat) (seen : List Bool) (count : Nat) (queue : List Nat),
      seen.length = w.cubes.length →
      count = seen.count true →
      (∀ i ∈ queue, i < w.cubes.length) →
      (pushZero = false → seenAt seen 0 ∨ 0 ∈ queue) →
      queue.length + 5 * (w.cubes.length - seen.count true) < fuel →
      (bfsLoop w pushZero fuel seen count queue).1.length = w.cubes.length ∧
      (bfsLoop w pushZero fuel seen count queue).2 =
        (bfsLoop w pushZero fuel seen count queue).1.count true ∧
      (∀ i ∈ queue, seenAt (bfsLoop w pushZero fuel seen count queue).1 i) ∧
      (∀ i, seenAt seen i →
        seenAt (bfsLoop w pushZero fuel seen count queue).1 i) ∧
      (∀ i j, seenAt (bfsLoop w pushZero fuel seen count queue).1 i →
        ¬ seenAt seen i → idNbr w i j →
        seenAt (bfsLoop w pushZero fuel seen count queue).1 j) ∧
      (∀ j, seenAt (bfsLoop w pushZero fuel seen count queue).1 j →
        seenAt seen j ∨ BfsReach w (seenAt seen) queue j)
  | 0, seen, count, queue => by
    intro _ _ _ _ h5
    exact absurd h5 (by omega)
  | fuel + 1, seen, count, [] => by
    intro h1 h2 _ _ _
    have hr : bfsLoop w pushZero (fuel + 1) seen count [] = (seen, count) := rfl
    rw [hr]
    exact ⟨h1, h2, (by intro x hx; cases hx), fun i h => h,
      fun i j hfin hpre _ => absurd hfin hpre, fun j h => Or.inl h⟩
  | fuel + 1, seen, count, i :: rest => by
    intro h1 h2 h3 h4 h5
    have hi_lt : i < w.cubes.length := h3 i (List.mem_cons_self i rest)
    by_cases hseen : seen.getD i false = true
    · -- stale entry: skip it
      have heq : bfsLoop w pushZero (fuel + 1) seen count (i :: rest) =
          bfsLoop w pushZero fuel seen count rest := by
        simp only [bfsLoop]
        rw [if_pos hseen]
      rw [heq]
      obtain ⟨c1, c2, c3, c4, c5, c6⟩ := bfsLoop_spec w pushZero fuel seen count rest h1 h2
        (fun x hx => h3 x (List.mem_cons_of_mem i hx))
        (fun hpz => by
          rcases h4 hpz with hs | hq
          · exact Or.inl hs
          · rcases List.mem_cons.mp hq with rfl | hq
            · exact Or.inl hseen
            · exact Or.inr hq)
        (by simp at h5 ⊢; omega)
      refine ⟨c1, c2, ?_, c4, c5, ?_⟩
      · intro x hx
        rcases List.mem_cons.mp hx with rfl | hx
        · exact c4 x hseen
        · exact c3 x hx
      · intro j hj
        rcases c6 j hj with hs | hr
        · exact Or.inl hs
        · exact Or.inr (hr.mono_queue (fun x hx => List.mem_cons_of_mem i hx))
    · -- new entry: mark it and push its neighbors
      have hget : w.cubes.get? i = some (w.cubes.get ⟨i, hi_lt⟩) :=
        List.get?_eq_get hi_lt
      set cube := w.cubes.get ⟨i, hi_lt⟩ with hcube
      set pushes : List Nat := (bfsNeighborIds w cube.p).filterMap
        (fun oid =>
          match oid with
          | some k => if pushZero || decide (k ≠ 0) then some k else none
          | none => none) with hpushes
      have heq : bfsLoop w pushZero (fuel + 1) seen count (i :: rest) =
          bfsLoop w pushZero fuel (seen.set i true) (count + 1)
            (rest ++ pushes) := by
        simp only [bfsLoop]
        rw [if_neg hseen, hget]
      have hmem_pushes : ∀ j, j ∈ pushes ↔
          (some j ∈ bfsNeighborIds w cube.p ∧ (pushZero = true ∨ j ≠ 0)) := by
        intro j
        rw [hpushes, List.mem_filterMap]
        constructor
        · rintro ⟨o, ho, hfo⟩
          match o, hfo with
          | some k, hfo =>
            have hfo' : (if (pushZero || decide (k ≠ 0)) = true then some k
                else (none : Option Nat)) = some j := hfo
            by_cases hg : (pushZero || decide (k ≠ 0)) = true
            · rw [if_pos hg] at hfo'
              cases hfo'
              refine ⟨ho, ?_⟩
              simp at hg
              exact hg
            · rw [if_neg hg] at hfo'
              cases hfo'
        · rintro ⟨hmem, hg⟩
          refine ⟨some j, hmem, ?_⟩
          have hgb : (pushZero || decide (j ≠ 0)) = true := by
            rcases hg with h | h
            · simp [h]
            · simp [h]
          show (if (pushZero || decide (j ≠ 0)) = true then some j
              else (none : Option Nat)) = some j
          rw [if_pos hgb]
      have hlen_pushes : pushes.length ≤ 4 := by
        calc pushes.length ≤ (bfsNeighborIds w cube.p).length :=
              List.length_filterMap_le _ _
          _ = 4 := rfl
      have hlen_set : (seen.set i true).length = w.cubes.length := by
        rw [List.length_set]; exact h1
      have hcount' : count + 1 = (seen.set i true).count true := by
        rw [count_true_set seen i (h1 ▸ hi_lt) (by simpa using hseen), h2]
      have hcount_lt : seen.count true < w.cubes.length := by
        have := count_true_lt seen i (h1 ▸ hi_lt) (by simpa using hseen)
        omega
      rw [heq]
      obtain ⟨c1, c2, c3, c4, c5, c6⟩ := bfsLoop_spec w pushZero fuel (seen.set i true)
        (count + 1) (rest ++ pushes) hlen_set hcount'
        (by
          intro x hx
          rcases List.mem_append.mp hx with hx | hx
          · exact h3 x (List.mem_cons_of_mem i hx)
          · exact mem_bfsNeighborIds_lt ((hmem_pushes x).mp hx).1)
        (fun hpz => by
          rcases h4 hpz with hs | hq
          · exact Or.inl (seenAt_set_mono hs)
          · rcases List.mem_cons.mp hq with rfl | hq
            · exact Or.inl (by rw [seenAt, getD_set_self _ _ (h1 ▸ hi_lt)])
            · exact Or.inr (List.mem_append_left _ hq))
        (by
          rw [← hcount']
          have hlr : (rest ++ pushes).length = rest.length + pushes.length :=
            List.length_append _ _
          simp only [List.length_cons] at h5
          omega)
      have hself : seenAt (seen.set i true) i := by
        rw [seenAt, getD_set_self _ _ (h1 ▸ hi_lt)]
      have htrans : ∀ j, BfsReach w (seenAt (seen.set i true)) (rest ++ pushes) j →
          BfsReach w (seenAt seen) (i :: rest) j := by
        intro j hj
        induction hj with
        | @base x hmem hpre =>
          have hnp : ¬ seenAt seen x := fun h => hpre (seenAt_set_mono h)
          rcases List.mem_append.mp hmem with hr | hp
          · exact .base (List.mem_cons_of_mem i hr) hnp
          · refine .step (.base (List.mem_cons_self i rest) hseen) ?_ hnp
            exact ⟨cube, hget, ((hmem_pushes x).mp hp).1⟩
        | @step x y hx hn hpre ih =>
          exact .step ih hn (fun h => hpre (seenAt_set_mono h))
      refine ⟨c1, c2, ?_, ?_, ?_, ?_⟩
      · intro x hx
        rcases List.mem_cons.mp hx with rfl | hx
        · exact c4 x hself
        · exact c3 x (List.mem_append_left _ hx)
      · intro x hx
        exact c4 x (seenAt_set_mono hx)
      · intro i0 j hfin hpre hnbr
        by_cases hii : i0 = i
        · subst hii
          obtain ⟨c', hc', hmemn⟩ := hnbr
          rw [hget] at hc'
          cases hc'
          by_cases hguard : pushZero = true ∨ j ≠ 0
          · exact c3 j (List.mem_append_right _ ((hmem_pushes j).mpr ⟨hmemn, hguard⟩))
          · push_neg at hguard
            obtain ⟨hpz, hj0⟩ := hguard
            subst hj0
            rcases h4 (by simpa using hpz) with hs | hq
            · exact c4 0 (seenAt_set_mono hs)
            · rcases List.mem_cons.mp hq with h0 | hq
              · cases h0
                exact hfin
              · exact c3 0 (List.mem_append_left _ hq)
        · refine c5 i0 j hfin ?_ hnbr
          rw [seenAt, getD_set_ne _ _ _ (fun h => hii h.symm)]
          exact hpre
      · intro j hj
        rcases c6 j hj with hs | hr
        · by_cases hji : j = i
          · subst hji
            exact Or.inr (.base (List.mem_cons_self j rest) hseen)
          · rw [seenAt, getD_set_ne _ _ _ (fun h => hji h.symm)] at hs
            exact Or.inl hs
        · exact Or.inr (htrans j hr)

/-! ### From id reachability to cell reachability and back -/

/-- Under well-formedness, positions determine ids. -/
theorem wf_get?_inj {w : World} (hwf : w.wf) {i j : Nat} {ci cj : Cube}
    (hi : w.cubes.get? i = some ci) (hj : w.cubes.get? j = some cj)
    (hp : ci.p = cj.p) : i = j := by
  have hmi : (w.cubes.map (fun c => c.p)).get? i = some ci.p := by
    rw [List.get?_map, hi]; rfl
  have hmj : (w.cubes.map (fun c => c.p)).get? j = some cj.p := by
    rw [List.get?_map, hj]; rfl
  refine List.get?_inj ?_ hwf (hmi.trans ?_)
  · obtain ⟨hlt, -⟩ := List.get?_eq_some.mp hmi
    exact hlt
  · rw [hp, ← hmj]

/-- Under well-formedness, the index lookup inverts the cube list. -/
theorem wf_getCubeId_get? {w : World} (hwf : w.wf) {i : Nat} {c : Cube}
    (h : w.cubes.get? i = some c) : w.getCubeId c.p = some i := by
  cases hid : w.getCubeId c.p with
  | none =>
    have := findIdxQ_none _ _ _ hid c (List.get?_mem h)
    simp at this
  | some j =>
    obtain ⟨cj, hj, hpj⟩ := getCubeId_some_spec hid
    rw [wf_get?_inj hwf hj h hpj]

/-- Cell adjacency is symmetric. -/
theorem isAdj_symm {a b : Int × Int} (h : isAdj a b) : isAdj b a := by
  obtain ⟨a1, a2⟩ := a
  obtain ⟨b1, b2⟩ := b
  simp only [isAdj, Prod.mk.injEq] at h ⊢
  omega

/-- A step inside a region is symmetric. -/
theorem cellStep_symm {P : Int × Int → Prop} {a b : Int × Int}
    (h : cellStep P a b) : cellStep P b a :=
  ⟨h.2.1, h.1, isAdj_symm h.2.2⟩

/-- Reachability inside a region is symmetric. -/
theorem CellReach.symm {P : Int × Int → Prop} {a b : Int × Int}
    (h : CellReach P a b) : CellReach P b a := by
  induction h with
  | refl => exact .refl
  | tail hab hbc ih =>
    exact Relation.ReflTransGen.trans
      (Relation.ReflTransGen.single (cellStep_symm hbc)) ih

/-- Reachability is monotone in the region. -/
theorem CellReach.mono {P Q : Int × Int → Prop} (hPQ : ∀ x, P x → Q x)
    {a b : Int × Int} (h : CellReach P a b) : CellReach Q a b := by
  induction h with
  | refl => exact .refl
  | tail hab hbc ih =>
    exact ih.tail ⟨hPQ _ hbc.1, hPQ _ hbc.2.1, hbc.2.2⟩

/-- Connectedness respects pointwise equivalence of regions. -/
theorem setConnected_congr {P Q : Int × Int → Prop} (h : ∀ x, P x ↔ Q x) :
    SetConnected P ↔ SetConnected Q := by
  constructor
  · intro hc a b ha hb
    exact (hc a b ((h a).mpr ha) ((h b).mpr hb)).mono (fun x hx => (h x).mp hx)
  · intro hc a b ha hb
    exact (hc a b ((h a).mp ha) ((h b).mp hb)).mono (fun x hx => (h x).mpr hx)

/-- BFS id-reachability from a singleton queue yields cell reachability
inside any region compatible with the initially seen set. -/
theorem bfsReach_to_cellReach {w : World} {pre : Nat → Prop}
    {P : Int × Int → Prop} {start : Nat} {startc : Cube}
    (hstart : w.cubes.get? start = some startc)
    (hcompat : ∀ i c, w.cubes.get? i = some c → ¬ pre i → P c.p) :
    ∀ {j : Nat}, BfsReach w pre [start] j →
      ∀ {cj : Cube}, w.cubes.get? j = some cj → CellReach P startc.p cj.p := by
  intro j h
  induction h with
  | @base x hmem hpre =>
    intro cj hcj
    simp only [List.mem_singleton] at hmem
    subst hmem
    rw [hstart] at hcj
    cases hcj
    exact .refl
  | @step x y hx hn hpre ih =>
    intro cj hcj
    obtain ⟨cx, hcx, hmemn⟩ := hn
    have hadj : isAdj cx.p cj.p := by
      rw [bfsNeighborIds] at hmemn
      simp only [List.mem_cons, List.not_mem_nil, or_false] at hmemn
      rcases hmemn with h | h | h | h <;>
        · obtain ⟨c', hc', hp'⟩ := getCubeId_some_spec h.symm
          rw [hcj] at hc'
          cases hc'
          rw [hp']
          simp [isAdj]
    have hPx : P cx.p := hcompat x cx hcx hx.not_pre
    have hPy : P cj.p := hcompat y cj hcj hpre
    exact (ih hcx).tail ⟨hPx, hPy, hadj⟩

/-- Cell reachability inside a region of occupied, not-initially-seen cells
yields BFS id-reachability from a singleton queue. -/
theorem cellReach_to_bfsReach {w : World} (hwf : w.wf) {pre : Nat → Prop}
    {P : Int × Int → Prop} {start : Nat} {startc : Cube}
    (hstart : w.cubes.get? start = some startc)
    (hstartpre : ¬ pre start)
    (hcompat : ∀ i c, w.cubes.get? i = some c → P c.p → ¬ pre i)
    (hPocc : ∀ x, P x → w.hasCube x = true) :
    ∀ {x : Int × Int}, CellReach P startc.p x →
      ∀ {j : Nat} {cj : Cube}, w.cubes.get? j = some cj → cj.p = x →
        BfsReach w pre [start] j := by
  intro x h
  induction h with
  | refl =>
    intro j cj hj hp
    have hjs : j = start := wf_get?_inj hwf hj hstart hp
    subst hjs
    exact .base (List.mem_singleton.mpr rfl) hstartpre
  | @tail b x hreach hstep ih =>
    intro j cj hj hp
    obtain ⟨hPb, hPx, hadj⟩ := hstep
    have hoccb : w.hasCube b = true := hPocc b hPb
    rw [hasCube_iff_mem] at hoccb
    obtain ⟨cb, hcb_mem, hcbp⟩ := List.mem_map.mp hoccb
    obtain ⟨ib, hib⟩ := List.get?_of_mem hcb_mem
    have hreachb := ih hib hcbp
    have hgid : w.getCubeId x = some j := by
      have hx := wf_getCubeId_get? hwf hj
      rw [hp] at hx
      exact hx
    have hnbr : idNbr w ib j := by
      refine ⟨cb, hib, ?_⟩
      rw [bfsNeighborIds, hcbp]
      rcases hadj with h | h | h | h <;> (subst h; simp [hgid])
    exact .step hreachb hnbr (hcompat j cj hj (hp ▸ hPx))

/-- Completeness of the BFS: reachable ids end up marked, given the
queue-marking and closure facts of `bfsLoop_spec`. -/
theorem bfsReach_marked {w : World} {pre : Nat → Prop} {Q : List Nat}
    {marked : Nat → Prop}
    (hQ : ∀ i ∈ Q, marked i)
    (hclo : ∀ i j, marked i → ¬ pre i → idNbr w i j → marked j) :
    ∀ {j}, BfsReach w pre Q j → marked j := by
  intro j h
  induction h with
  | @base x hmem hpre => exact hQ x hmem
  | @step x y hx hn hpre ih => exact hclo x y ih hx.not_pre hn

/-! ### `isConnected` computes 4-connectedness -/

/-- The all-false array reads false everywhere. -/
theorem replicate_false_getD (n i : Nat) :
    (List.replicate n false).getD i false = false := by
  induction n generalizing i with
  | zero => rfl
  | succ k ih =>
    cases i with
    | zero => rfl
    | succ m => exact ih m

/-- The all-false array marks nothing. -/
theorem not_seenAt_replicate (n i : Nat) :
    ¬ seenAt (List.replicate n false) i := by
  rw [seenAt, replicate_false_getD]
  exact Bool.false_ne_true

/-- Marking one entry of the all-false array marks exactly it. -/
theorem seenAt_replicate_set {n si : Nat} (h : si < n) (i : Nat) :
    seenAt ((List.replicate n false).set si true) i ↔ i = si := by
  constructor
  · intro hs
    by_contra hne
    rw [seenAt, getD_set_ne _ _ _ (fun hh => hne hh.symm),
      replicate_false_getD] at hs
    cases hs
  · rintro rfl
    rw [seenAt, getD_set_self _ _ (by simpa using h)]

/-- The BFS of `isConnected` without a skipped cube counts all cubes exactly
when the occupied region is 4-connected. -/
theorem isConnected_plain_iff (w : World) (hwf : w.wf)
    (hn : w.cubes.length ≠ 0) :
    (decide (w.cubes.length = (bfsLoop w false (5 * w.cubes.length + 2)
        (List.replicate w.cubes.length false) 0 [0]).2) = true ↔
      SetConnected (occP w)) := by
  have h0lt : 0 < w.cubes.length := Nat.pos_of_ne_zero hn
  obtain ⟨c1, c2, c3, c4, c5, c6⟩ := bfsLoop_spec w false
    (5 * w.cubes.length + 2) (List.replicate w.cubes.length false) 0 [0]
    (List.length_replicate _ _)
    (by rw [count_true_replicate_false])
    (by intro i hi; simp at hi; omega)
    (fun _ => Or.inr (by simp))
    (by rw [count_true_replicate_false]; simp only [List.length_singleton]; omega)
  set r := bfsLoop w false (5 * w.cubes.length + 2)
    (List.replicate w.cubes.length false) 0 [0] with hr
  have hstart : w.cubes.get? 0 = some (w.cubes.get ⟨0, h0lt⟩) :=
    List.get?_eq_get h0lt
  set c0 := w.cubes.get ⟨0, h0lt⟩ with hc0
  have hdec : (decide (w.cubes.length = r.2) = true) ↔
      (∀ i, i < w.cubes.length → seenAt r.1 i) := by
    rw [decide_eq_true_iff]
    constructor
    · intro h i hi
      exact all_true_of_count r.1 (by rw [← c2, ← h]; exact c1.symm) i
        (by rw [c1]; exact hi)
    · intro h
      rw [c2, count_of_all_true r.1 (fun i hi => h i (by rw [← c1]; exact hi)),
        c1]
  rw [hdec]
  constructor
  · intro hall a b ha hb
    have hreach : ∀ x, occP w x → CellReach (occP w) c0.p x := by
      intro x hx
      rw [occP, hasCube_iff_mem] at hx
      obtain ⟨cx, hcx_mem, hcxp⟩ := List.mem_map.mp hx
      obtain ⟨ix, hix⟩ := List.get?_of_mem hcx_mem
      obtain ⟨hlt, -⟩ := List.get?_eq_some.mp hix
      rcases c6 ix (hall ix hlt) with hpre | hbfs
      · exact absurd hpre (not_seenAt_replicate _ _)
      · exact hcxp ▸ bfsReach_to_cellReach hstart
          (fun i c hc _ => hasCube_iff_mem.mpr (List.mem_map_of_mem _
            (List.get?_mem hc))) hbfs hix
    exact ((hreach a ha).symm).trans (hreach b hb)
  · intro hconn i hi
    have hci : w.cubes.get? i = some (w.cubes.get ⟨i, hi⟩) :=
      List.get?_eq_get hi
    have hocc : ∀ x : Int × Int, occP w x → w.hasCube x = true := fun _ h => h
    have hP0 : occP w c0.p :=
      hasCube_iff_mem.mpr (List.mem_map_of_mem _ (List.get?_mem hstart))
    have hPi : occP w (w.cubes.get ⟨i, hi⟩).p :=
      hasCube_iff_mem.mpr (List.mem_map_of_mem _ (List.get?_mem hci))
    have hcr : CellReach (occP w) c0.p (w.cubes.get ⟨i, hi⟩).p :=
      hconn _ _ hP0 hPi
    have hbfs := cellReach_to_bfsReach hwf hstart
      (not_seenAt_replicate w.cubes.length 0)
      (fun i _ _ _ => not_seenAt_replicate w.cubes.length i)
      hocc hcr hci rfl
    exact bfsReach_marked (fun x hx => by
        simp at hx
        exact hx ▸ c3 0 (by simp))
      (fun x y hx hnx hn => c5 x y hx hnx hn) hbfs

/-- The BFS of `isConnected` with a skipped cube present at id `si` counts
all cubes exactly when the occupied region minus the skipped cell is
4-connected (for a start id distinct from `si`). -/
theorem isConnected_skip_iff_aux (w : World) (hwf : w.wf) {sp : Int × Int}
    {si start : Nat} (hsi : w.getCubeId sp = some si)
    (hstart_lt : start < w.cubes.length) (hne : start ≠ si)
    (hz : si = 0 ∨ start = 0) :
    (decide (w.cubes.length = (bfsLoop w false (5 * w.cubes.length + 2)
        ((List.replicate w.cubes.length false).set si true) 1 [start]).2) = true
      ↔ SetConnected (fun p => occP w p ∧ p ≠ sp)) := by
  have hsi_lt : si < w.cubes.length := getCubeId_lt hsi
  obtain ⟨csi, hcsi, hcsip⟩ := getCubeId_some_spec hsi
  have hpre_iff : ∀ i, seenAt ((List.replicate w.cubes.length false).set si true) i
      ↔ i = si := seenAt_replicate_set hsi_lt
  have hid_ne_si : ∀ {i : Nat} {c : Cube}, w.cubes.get? i = some c →
      (c.p ≠ sp ↔ i ≠ si) := by
    intro i c hc
    constructor
    · intro hp hisi
      subst hisi
      rw [hc] at hcsi
      cases hcsi
      exact hp hcsip
    · intro hisi hp
      exact hisi (wf_get?_inj hwf hc hcsi (hp.trans hcsip.symm))
  obtain ⟨c1, c2, c3, c4, c5, c6⟩ := bfsLoop_spec w false
    (5 * w.cubes.length + 2) ((List.replicate w.cubes.length false).set si true)
    1 [start]
    (by rw [List.length_set, List.length_replicate])
    (by rw [count_true_set _ _ (by simpa using hsi_lt) (replicate_false_getD _ _),
      count_true_replicate_false])
    (by intro i hi; simp at hi; omega)
    (fun _ => by
      rcases hz with h | h
      · exact Or.inl ((hpre_iff 0).mpr h.symm)
      · exact Or.inr (by simp [h]))
    (by rw [count_true_set _ _ (by simpa using hsi_lt) (replicate_false_getD _ _),
      count_true_replicate_false]
        simp only [List.length_singleton]
        omega)
  set r := bfsLoop w false (5 * w.cubes.length + 2)
    ((List.replicate w.cubes.length false).set si true) 1 [start] with hr
  have hstart : w.cubes.get? start = some (w.cubes.get ⟨start, hstart_lt⟩) :=
    List.get?_eq_get hstart_lt
  set cs := w.cubes.get ⟨start, hstart_lt⟩ with hcs
  have hPs : occP w cs.p ∧ cs.p ≠ sp :=
    ⟨hasCube_iff_mem.mpr (List.mem_map_of_mem _ (List.get?_mem hstart)),
      (hid_ne_si hstart).mpr hne⟩
  have hdec : (decide (w.cubes.length = r.2) = true) ↔
      (∀ i, i < w.cubes.length → seenAt r.1 i) := by
    rw [decide_eq_true_iff]
    constructor
    · intro h i hi
      exact all_true_of_count r.1 (by rw [← c2, ← h]; exact c1.symm) i
        (by rw [c1]; exact hi)
    · intro h
      rw [c2, count_of_all_true r.1 (fun i hi => h i (by rw [← c1]; exact hi)),
        c1]
  rw [hdec]
  constructor
  · intro hall a b ha hb
    have hreach : ∀ x, occP w x ∧ x ≠ sp →
        CellReach (fun p => occP w p ∧ p ≠ sp) cs.p x := by
      rintro x ⟨hx, hxs⟩
      rw [occP, hasCube_iff_mem] at hx
      obtain ⟨cx, hcx_mem, hcxp⟩ := List.mem_map.mp hx
      obtain ⟨ix, hix⟩ := List.get?_of_mem hcx_mem
      obtain ⟨hlt, -⟩ := List.get?_eq_some.mp hix
      rcases c6 ix (hall ix hlt) with hpre | hbfs
      · rw [hpre_iff] at hpre
        exact absurd ((hid_ne_si hix).mp (hcxp ▸ hxs)) (fun h => h hpre)
      · exact hcxp ▸ bfsReach_to_cellReach hstart
          (fun i c hc hnp =>
            ⟨hasCube_iff_mem.mpr (List.mem_map_of_mem _ (List.get?_mem hc)),
              (hid_ne_si hc).mpr (fun h => hnp ((hpre_iff i).mpr h))⟩)
          hbfs hix
    exact ((hreach a ⟨ha.1, ha.2⟩).symm).trans (hreach b ⟨hb.1, hb.2⟩)
  · intro hconn i hi
    by_cases hii : i = si
    · exact c4 i ((hpre_iff i).mpr hii)
    · have hci : w.cubes.get? i = some (w.cubes.get ⟨i, hi⟩) :=
        List.get?_eq_get hi
      have hPi : occP w (w.cubes.get ⟨i, hi⟩).p ∧
          (w.cubes.get ⟨i, hi⟩).p ≠ sp :=
        ⟨hasCube_iff_mem.mpr (List.mem_map_of_mem _ (List.get?_mem hci)),
          (hid_ne_si hci).mpr hii⟩
      have hcr := hconn _ _ hPs hPi
      have hbfs := cellReach_to_bfsReach hwf hstart
        (fun h => hne ((hpre_iff start).mp h))
        (fun j c hc hPc => fun h => ((hid_ne_si hc).mp hPc.2) ((hpre_iff j).mp h))
        (fun x hx => hx.1) hcr hci rfl
      exact bfsReach_marked (fun x hx => by
          simp at hx
          exact hx ▸ c3 start (by simp))
        (fun x y hx hnx hn => c5 x y hx hnx hn) hbfs

/-- Claim-level characterization: `isConnected` is true exactly when the
occupied region (minus the optional skipped cell) is 4-connected. -/
theorem isConnected_true_iff (w : World) (hwf : w.wf)
    (skip : Option (Int × Int)) :
    (w.isConnected skip = true ↔ SetConnected (occMinus w skip)) := by
  by_cases hn : w.cubes.length = 0
  · rw [World.isConnected, if_pos hn]
    simp only [true_iff]
    intro a b ha hb
    exfalso
    have hocc : w.hasCube a = true := by
      cases skip with
      | none => exact ha
      | some sp => exact ha.1
    rw [hasCube_iff_mem, List.length_eq_zero.mp hn] at hocc
    cases hocc
  · rw [World.isConnected, if_neg hn]
    cases skip with
    | none => exact isConnected_plain_iff w hwf hn
    | some sp =>
      cases hsi : w.getCubeId sp with
      | none =>
        have hsp_free : ∀ p : Int × Int, occMinus w (some sp) p ↔ occP w p := by
          intro p
          constructor
          · exact fun h => h.1
          · intro h
            refine ⟨h, ?_⟩
            rintro rfl
            rw [occP, hasCube_iff_mem] at h
            obtain ⟨c, hc_mem, hcp⟩ := List.mem_map.mp h
            obtain ⟨ic, hic⟩ := List.get?_of_mem hc_mem
            have := wf_getCubeId_get? hwf hic
            rw [hcp, hsi] at this
            cases this
        rw [setConnected_congr hsp_free]
        simp only [hsi]
        exact isConnected_plain_iff w hwf hn
      | some si =>
        simp only [hsi]
        by_cases hcase : si = 0 ∧ 1 < w.cubes.length
        · rw [if_pos hcase]
          exact isConnected_skip_iff_aux w hwf hsi (by omega) (by omega)
            (Or.inl hcase.1)
        · rw [if_neg hcase]
          by_cases h0 : si = 0
          · -- start would collide with the skipped cube: the configuration
            -- has exactly one cube, which is skipped
            have hn1 : w.cubes.length = 1 := by
              have := getCubeId_lt hsi
              omega
            obtain ⟨c, hc⟩ := List.length_eq_one.mp hn1
            subst h0
            have hcsp : c.p = sp := by
              obtain ⟨c', hc', hp'⟩ := getCubeId_some_spec hsi
              rw [hc] at hc'
              cases hc'
              exact hp'
            constructor
            · intro _ a b ha hb
              exfalso
              have hmem := hasCube_iff_mem.mp ha.1
              rw [hc] at hmem
              simp at hmem
              exact ha.2 (hmem ▸ hcsp ▸ rfl)
            · intro _
              rw [hn1]
              rfl
          · exact isConnected_skip_iff_aux w hwf hsi
              (Nat.pos_of_ne_zero hn) (fun h => h0 h.symm) (Or.inr rfl)

/-! ### The amended claim C2 -/

/-- Every element of a `set` is the new element or an old one. -/
theorem mem_of_mem_set {α : Type} : ∀ (l : List α) (i : Nat) (b x : α),
    x ∈ l.set i b → x = b ∨ x ∈ l
  | [], _, _, _, h => by cases h
  | y :: ys, 0, b, x, h => by
    rcases List.mem_cons.mp h with rfl | h
    · exact Or.inl rfl
    · exact Or.inr (List.mem_cons_of_mem _ h)
  | y :: ys, i + 1, b, x, h => by
    rcases List.mem_cons.mp h with rfl | h
    · exact Or.inr (List.mem_cons_self _ _)
    · rcases mem_of_mem_set ys i b x h with h | h
      · exact Or.inl h
      · exact Or.inr (List.mem_cons_of_mem _ h)

/-- Setting a fresh element preserves duplicate freedom. -/
theorem nodup_set {α : Type} [DecidableEq α] : ∀ (l : List α) (i : Nat) (b : α),
    l.Nodup → b ∉ l → (l.set i b).Nodup
  | [], _, _, _, _ => List.nodup_nil
  | x :: xs, 0, b, hnd, hb => by
    rw [List.set]
    rw [List.nodup_cons] at hnd ⊢
    exact ⟨fun h => hb (List.mem_cons_of_mem _ h), hnd.2⟩
  | x :: xs, i + 1, b, hnd, hb => by
    rw [List.set]
    rw [List.nodup_cons] at hnd ⊢
    refine ⟨?_, nodup_set xs i b hnd.2 (fun h => hb (List.mem_cons_of_mem _ h))⟩
    intro hx
    rcases mem_of_mem_set xs i b x hx with rfl | hmem
    · exact hb (List.mem_cons_self _ _)
    · exact hnd.1 hmem

/-- A locally legal move has a supporting cube: an occupied cell other than
the source that is orthogonally adjacent to the target. -/
theorem ivc_support {w : World} {m : Move}
    (h : m.isValidIgnoreConnectivity w = true) :
    ∃ s : Int × Int, w.hasCube s = true ∧ s ≠ m.position ∧
      isAdj m.targetPosition s := by
  rw [ivc_iff_specLegal] at h
  obtain ⟨⟨x, y⟩, d⟩ := m
  cases d <;>
    simp only [specLegal, specSlideLegal, specCornerLegal, rotOffset,
      shiftCell, stepCard, Move.targetPosition, targetPositionFromFields,
      MoveDirection.letters, List.foldl] at h ⊢ <;>
    first
    | (obtain ⟨ht, ⟨h1, h2⟩ | ⟨h1, h2⟩⟩ := h <;>
       exact ⟨_, h2, by simp [Prod.ext_iff] <;> omega,
         by simp [isAdj, Prod.ext_iff] <;> omega⟩)
    | (obtain ⟨ht, h1, h2⟩ := h
       exact ⟨_, h2, by simp [Prod.ext_iff] <;> omega,
         by simp [isAdj, Prod.ext_iff] <;> omega⟩)

/-- A successful unmarked move, with its underlying index update. -/
theorem moveCubeUnmarked_ok {w : World} {src dst : Int × Int}
    (hs : w.hasCube src = true) (hd : w.hasCube dst = false) :
    ∃ id c, w.getCubeId src = some id ∧ w.cubes.get? id = some c ∧
      c.p = src ∧
      w.moveCubeUnmarked src dst = .ok ⟨w.cubes.set id { c with p := dst }⟩ := by
  cases hid : w.getCubeId src with
  | none =>
    exfalso
    rw [World.hasCube, World.getCube, hid] at hs
    cases hs
  | some id =>
    obtain ⟨c, hc, hcp⟩ := getCubeId_some_spec hid
    refine ⟨id, c, rfl, hc, hcp, ?_⟩
    rw [World.moveCubeUnmarked, if_neg (by simp [hs]), if_neg (by simp [hd]),
      hid]
    show (match w.cubes.get? id with
      | none => (Except.error WErr.emptyCell : Except WErr World)
      | some c => .ok ⟨w.cubes.set id { c with p := dst }⟩) = _
    rw [hc]

/-- Occupancy of the world after an unmarked move. -/
theorem moved_hasCube {w : World} (hwf : w.wf) {src dst : Int × Int}
    {id : Nat} {c : Cube}
    (hid : w.getCubeId src = some id) (hc : w.cubes.get? id = some c) :
    ∀ x, (World.mk (w.cubes.set id { c with p := dst })).hasCube x = true ↔
      (x = dst ∨ (w.hasCube x = true ∧ x ≠ src)) := by
  intro x
  have hcp : c.p = src := by
    obtain ⟨c', hc', hp'⟩ := getCubeId_some_spec hid
    rw [hc] at hc'
    cases hc'
    exact hp'
  have hmap : (w.cubes.set id { c with p := dst }).map (fun c => c.p)
      = (w.cubes.map (fun c => c.p)).set id dst := by
    rw [List.map_set]
  have hget : (w.cubes.map (fun c => c.p)).get? id = some src := by
    rw [List.get?_map, hc]
    simpa using hcp
  rw [hasCube_iff_mem, hmap,
    mem_set_nodup (w.cubes.map (fun c => c.p)) id src dst
      (show (w.cubes.map (fun c => c.p)).Nodup from hwf) hget x,
    hasCube_iff_mem]

/-- Well-formedness of the world after an unmarked move to a free cell. -/
theorem moved_wf {w : World} (hwf : w.wf) {src dst : Int × Int}
    {id : Nat} {c : Cube}
    (hid : w.getCubeId src = some id) (hc : w.cubes.get? id = some c)
    (hd : w.hasCube dst = false) :
    (World.mk (w.cubes.set id { c with p := dst })).wf := by
  rw [World.wf]
  have hmap : (w.cubes.set id { c with p := dst }).map (fun c => c.p)
      = (w.cubes.map (fun c => c.p)).set id dst := by
    rw [List.map_set]
  rw [hmap]
  refine nodup_set _ _ _ (show (w.cubes.map (fun c => c.p)).Nodup from hwf) ?_
  intro hmem
  rw [← hasCube_iff_mem] at hmem
  rw [hmem] at hd
  cases hd

/-- Gluing a cell adjacent to a connected region keeps it connected. -/
theorem setConnected_insert {P : Int × Int → Prop} {t s : Int × Int}
    (hconn : SetConnected P) (hs : P s) (hadj : isAdj t s) :
    SetConnected (fun x => x = t ∨ P x) := by
  have hts : CellReach (fun x => x = t ∨ P x) t s :=
    Relation.ReflTransGen.single ⟨Or.inl rfl, Or.inr hs, hadj⟩
  have key : ∀ x, (x = t ∨ P x) → CellReach (fun x => x = t ∨ P x) t x := by
    rintro x (rfl | hx)
    · exact .refl
    · exact hts.trans ((hconn s x hs hx).mono (fun y hy => Or.inr hy))
  intro a b ha hb
  exact (key a ha).symm.trans (key b hb)

/-- Amended claim C2: a valid move has an empty target cell and committing it
leaves the configuration 4-connected.  (The converse fails, see the
counterexample: `isValid` additionally demands the local support pattern and
connectivity with the source cube removed.) -/
theorem C2_amended_isValid_implies (w : World) (m : Move) (hwf : w.wf)
    (hsrc : w.hasCube m.position = true) (hv : m.isValid w = true) :
    w.hasCube m.targetPosition = false ∧
    ∃ w', w.moveCube m.sourcePosition m.targetPosition = .ok w' ∧
      w'.isConnected none = true := by
  rw [Move.isValid, Bool.and_eq_true] at hv
  obtain ⟨hivc, hconn⟩ := hv
  have htgt : w.hasCube m.targetPosition = false := by
    cases ht : w.hasCube m.targetPosition with
    | false => rfl
    | true =>
      rw [Move.isValidIgnoreConnectivity, if_pos ht] at hivc
      cases hivc
  refine ⟨htgt, ?_⟩
  obtain ⟨id, c, hid, hc, hcp, hok⟩ := moveCubeUnmarked_ok hsrc htgt
  set w1 : World := ⟨w.cubes.set id { c with p := m.targetPosition }⟩ with hw1
  have hsc : SetConnected (occMinus w (some m.position)) :=
    (isConnected_true_iff w hwf (some m.position)).mp hconn
  obtain ⟨s, hs_occ, hs_ne, hs_adj⟩ := ivc_support hivc
  have h1 : SetConnected
      (fun x => x = m.targetPosition ∨ occMinus w (some m.position) x) :=
    setConnected_insert hsc ⟨hs_occ, hs_ne⟩ hs_adj
  have hocc1 : ∀ x, (x = m.targetPosition ∨ occMinus w (some m.position) x)
      ↔ occP w1 x := by
    intro x
    rw [occP, hw1, moved_hasCube hwf hid hc x]
    rfl
  have hconn1 : SetConnected (occP w1) := (setConnected_congr hocc1).mp h1
  have hwf1 : w1.wf := moved_wf hwf hid hc htgt
  refine ⟨w1.markComponents, ?_, ?_⟩
  · rw [World.moveCube, Move.sourcePosition, hok]
  · have hwf2 : w1.markComponents.wf := by
      rw [World.wf, markComponents_pos]
      exact hwf1
    rw [isConnected_true_iff w1.markComponents hwf2 none]
    have : ∀ x, occP w1 x ↔ occMinus w1.markComponents none x := by
      intro x
      rw [occMinus, occP, occP, hasCube_congr (markComponents_pos w1) x]
    exact (setConnected_congr this).mp hconn1

/-- Witness for the amended claim C2: the corner move north-east out of
(0,0) in the two-cube world is valid; its target is empty and committing it
keeps the configuration connected. -/
theorem C2_amended_isValid_implies_witness :
    pairWorld.wf ∧ pairWorld.hasCube (Move.mk (0, 0) .NE).position = true ∧
    (Move.mk (0, 0) .NE).isValid pairWorld = true ∧
    (pairWorld.hasCube (Move.mk (0, 0) .NE).targetPosition = false ∧
      ∃ w', pairWorld.moveCube (Move.mk (0, 0) .NE).sourcePosition
          (Move.mk (0, 0) .NE).targetPosition = .ok w' ∧
        w'.isConnected none = true) :=
  ⟨by unfold World.wf; decide, by decide, by decide,
    C2_amended_isValid_implies pairWorld (Move.mk (0, 0) .NE)
      (by unfold World.wf; decide) (by decide) (by decide)⟩

/-! ### The claim C6: bridge capacity -/

/-- Reached ids are valid cube ids. -/
theorem bfsReach_lt {w : World} {pre : Nat → Prop} {Q : List Nat}
    (hQ : ∀ i ∈ Q, i < w.cubes.length) {j : Nat}
    (h : BfsReach w pre Q j) : j < w.cubes.length := by
  induction h with
  | @base x hmem _ => exact hQ x hmem
  | @step x y _ hn _ ih =>
    obtain ⟨c, hc, hm⟩ := hn
    exact mem_bfsNeighborIds_lt hm

/-- Nothing is reached from a singleton queue whose element is initially
seen. -/
theorem bfsReach_empty_of_pre {w : World} {pre : Nat → Prop} {s : Nat}
    (hs : pre s) {j : Nat} (h : BfsReach w pre [s] j) : False := by
  induction h with
  | @base x hmem hp =>
    simp only [List.mem_singleton] at hmem
    exact hp (hmem ▸ hs)
  | @step x y hx hn hp ih => exact ih

/-- Counting the trues of a boolean array as the cardinality of its set of
true indices. -/
theorem count_true_eq_ncard : ∀ l : List Bool,
    l.count true = Set.ncard {i : Nat | i < l.length ∧ l.getD i false = true}
  | [] => by
    have : {i : Nat | i < ([] : List Bool).length ∧
        ([] : List Bool).getD i false = true} = ∅ := by
      ext i
      simp
    rw [this]
    simp
  | x :: xs => by
    have ih := count_true_eq_ncard xs
    have hfin : {i : Nat | i < xs.length ∧ xs.getD i false = true}.Finite :=
      (Set.finite_Iio xs.length).subset (fun i hi => hi.1)
    cases x with
    | true =>
      have himg : {i : Nat | i < (true :: xs).length ∧
            (true :: xs).getD i false = true} =
          insert 0 ((fun i => i + 1) ''
            {i : Nat | i < xs.length ∧ xs.getD i false = true}) := by
        ext i
        cases i with
        | zero => simp
        | succ k =>
          simp only [Set.mem_setOf_eq, List.length_cons, Set.mem_insert_iff,
            Set.mem_image]
          constructor
          · rintro ⟨hk, hg⟩
            exact Or.inr ⟨k, ⟨by omega, hg⟩, rfl⟩
          · rintro (h | ⟨m, ⟨hm, hg⟩, hmk⟩)
            · cases h
            · have : m = k := by omega
              subst this
              exact ⟨by omega, hg⟩
      rw [List.count_cons, himg,
        Set.ncard_insert_of_not_mem (by simp) (hfin.image _),
        Set.ncard_image_of_injective _ (add_left_injective 1), ← ih]
      simp
    | false =>
      have himg : {i : Nat | i < (false :: xs).length ∧
            (false :: xs).getD i false = true} =
          (fun i => i + 1) ''
            {i : Nat | i < xs.length ∧ xs.getD i false = true} := by
        ext i
        cases i with
        | zero => simp
        | succ k =>
          simp only [Set.mem_setOf_eq, List.length_cons, Set.mem_image]
          constructor
          · rintro ⟨hk, hg⟩
            exact ⟨k, ⟨by omega, hg⟩, rfl⟩
          · rintro ⟨m, ⟨hm, hg⟩, hmk⟩
            have : m = k := by omega
            subst this
            exact ⟨by omega, hg⟩
      rw [List.count_cons, himg,
        Set.ncard_image_of_injective _ (add_left_injective 1), ← ih]
      simp

/-- Amended claim C6: `bridgeCapacity(b)` is the number of cubes other than
`b` that are *not* reachable from the downmost-leftmost root once `b` is
deleted — the cubes cut off by `b` — i.e. the cube count minus one minus the
number of reachable cubes. -/
theorem C6_amended_bridgeCapacity (w : World) (hwf : w.wf)
    (hconn : w.isConnected none = true) (bp : Int × Int)
    (hb : w.hasCube bp = true) {origin : Cube}
    (horig : w.downmostLeftmost = some origin) :
    w.bridgeCapacity bp = w.cubes.length - 1 -
      Set.ncard {x : Int × Int | occP w x ∧ x ≠ bp ∧
        CellReach (fun p => occP w p ∧ p ≠ bp) origin.p x} := by
  have hn : w.cubes.length ≠ 0 := by
    intro h0
    rw [hasCube_iff_mem] at hb
    rw [List.length_eq_zero.mp h0] at hb
    cases hb
  cases hbid : w.getCubeId bp with
  | none =>
    exfalso
    rw [World.hasCube, World.getCube, hbid] at hb
    cases hb
  | some bId =>
    obtain ⟨cb, hcb, hcbp⟩ := getCubeId_some_spec hbid
    have hbId_lt : bId < w.cubes.length := getCubeId_lt hbid
    have horigin_mem : origin ∈ w.cubes := by
      rw [World.downmostLeftmost, if_neg (by simpa using hn)] at horig
      exact (getCube_some_spec horig).2
    obtain ⟨originId, horigid0⟩ := List.get?_of_mem horigin_mem
    have horigid : w.getCubeId origin.p = some originId :=
      wf_getCubeId_get? hwf horigid0
    have horig_lt : originId < w.cubes.length := getCubeId_lt horigid
    have hbc : w.bridgeCapacity bp = w.cubes.length -
        (bfsLoop w true (5 * w.cubes.length + 2)
          ((List.replicate w.cubes.length false).set bId true) 1 [originId]).2 := by
      simp only [World.bridgeCapacity, hbid, horig, horigid]
    have hpre_iff : ∀ i,
        seenAt ((List.replicate w.cubes.length false).set bId true) i ↔
          i = bId := seenAt_replicate_set hbId_lt
    have hid_ne : ∀ {i : Nat} {c : Cube}, w.cubes.get? i = some c →
        (c.p ≠ bp ↔ i ≠ bId) := by
      intro i c hc
      constructor
      · intro hp hibi
        subst hibi
        rw [hc] at hcb
        cases hcb
        exact hp hcbp
      · intro hibi hp
        exact hibi (wf_get?_inj hwf hc hcb (hp.trans hcbp.symm))
    obtain ⟨c1, c2, c3, c4, c5, c6⟩ := bfsLoop_spec w true
      (5 * w.cubes.length + 2)
      ((List.replicate w.cubes.length false).set bId true) 1 [originId]
      (by rw [List.length_set, List.length_replicate])
      (by rw [count_true_set _ _ (by simpa using hbId_lt)
          (replicate_false_getD _ _), count_true_replicate_false])
      (by intro i hi; simp at hi; omega)
      (fun h => by simp at h)
      (by rw [count_true_set _ _ (by simpa using hbId_lt)
          (replicate_false_getD _ _), count_true_replicate_false]
          simp only [List.length_singleton]
          omega)
    set r := bfsLoop w true (5 * w.cubes.length + 2)
      ((List.replicate w.cubes.length false).set bId true) 1 [originId] with hr
    set pre := seenAt ((List.replicate w.cubes.length false).set bId true)
      with hpre
    -- the marked ids are exactly `bId` plus the reached ids
    have hmarked : {i : Nat | i < r.1.length ∧ r.1.getD i false = true} =
        insert bId {i : Nat | BfsReach w pre [originId] i} := by
      ext i
      simp only [Set.mem_setOf_eq, Set.mem_insert_iff]
      constructor
      · rintro ⟨hi, hg⟩
        rcases c6 i hg with hp | hrch
        · exact Or.inl ((hpre_iff i).mp hp)
        · exact Or.inr hrch
      · rintro (rfl | hrch)
        · refine ⟨by rw [c1]; exact hbId_lt, c4 i ((hpre_iff i).mpr rfl)⟩
        · refine ⟨by rw [c1]; exact bfsReach_lt (by intro x hx; simp at hx; omega) hrch, ?_⟩
          exact bfsReach_marked (fun x hx => by
              simp only [List.mem_singleton] at hx
              exact hx ▸ c3 originId (by simp))
            (fun x y hx hnx hnn => c5 x y hx hnx hnn) hrch
    -- the reached ids map bijectively onto the reachable cells
    have hIfin : {i : Nat | BfsReach w pre [originId] i}.Finite :=
      (Set.finite_Iio w.cubes.length).subset
        (fun i hi => bfsReach_lt (by intro x hx; simp at hx; omega) hi)
    have himage : posAt w '' {i : Nat | BfsReach w pre [originId] i} =
        {x : Int × Int | occP w x ∧ x ≠ bp ∧
          CellReach (fun p => occP w p ∧ p ≠ bp) origin.p x} := by
      by_cases hdeg : originId = bId
      · -- the root itself is deleted: both sides are empty
        have hbpo : origin.p = bp := by
          rw [hdeg] at horigid0
          rw [horigid0] at hcb
          cases hcb
          exact hcbp
        have hleft : {i : Nat | BfsReach w pre [originId] i} = ∅ := by
          ext i
          simp only [Set.mem_setOf_eq, Set.mem_empty_iff_false, iff_false]
          intro h
          exact bfsReach_empty_of_pre ((hpre_iff originId).mpr hdeg) h
        have hright : {x : Int × Int | occP w x ∧ x ≠ bp ∧
            CellReach (fun p => occP w p ∧ p ≠ bp) origin.p x} = ∅ := by
          ext x
          simp only [Set.mem_setOf_eq, Set.mem_empty_iff_false, iff_false]
          rintro ⟨hocc, hne, hreach⟩
          rw [hbpo] at hreach
          rcases hreach.cases_head with h | ⟨b', hstep, -⟩
          · exact hne h.symm
          · exact hstep.1.2 rfl
        rw [hleft, hright]
        simp
      · ext x
        simp only [Set.mem_image, Set.mem_setOf_eq]
        constructor
        · rintro ⟨i, hrch, rfl⟩
          have hi_lt : i < w.cubes.length :=
            bfsReach_lt (by intro y hy; simp at hy; omega) hrch
          have hci : w.cubes.get? i = some (w.cubes.get ⟨i, hi_lt⟩) :=
            List.get?_eq_get hi_lt
          have hpos : posAt w i = (w.cubes.get ⟨i, hi_lt⟩).p := by
            rw [posAt, hci]
          have hine : i ≠ bId := fun h => hrch.not_pre ((hpre_iff i).mpr h)
          refine ⟨?_, ?_, ?_⟩
          · rw [hpos, occP]
            exact hasCube_iff_mem.mpr (List.mem_map_of_mem _ (List.get?_mem hci))
          · rw [hpos]
            exact (hid_ne hci).mpr hine
          · rw [hpos]
            exact bfsReach_to_cellReach horigid0
              (fun k c hc hnp =>
                ⟨hasCube_iff_mem.mpr (List.mem_map_of_mem _ (List.get?_mem hc)),
                  (hid_ne hc).mpr (fun h => hnp ((hpre_iff k).mpr h))⟩)
              hrch hci
        · rintro ⟨hocc, hne, hreach⟩
          rw [occP, hasCube_iff_mem] at hocc
          obtain ⟨cx, hcx_mem, hcxp⟩ := List.mem_map.mp hocc
          obtain ⟨ix, hix⟩ := List.get?_of_mem hcx_mem
          have hrch := cellReach_to_bfsReach hwf horigid0
            (fun h => hdeg ((hpre_iff originId).mp h))
            (fun k c hc hPc => fun h => ((hid_ne hc).mp hPc.2) ((hpre_iff k).mp h))
            (fun y hy => hy.1) hreach hix hcxp
          refine ⟨ix, hrch, ?_⟩
          rw [posAt, hix]
          exact hcxp
    have hinj : Set.InjOn (posAt w) {i : Nat | BfsReach w pre [originId] i} := by
      intro i hi j hj heq
      have hi_lt : i < w.cubes.length :=
        bfsReach_lt (by intro y hy; simp at hy; omega) hi
      have hj_lt : j < w.cubes.length :=
        bfsReach_lt (by intro y hy; simp at hy; omega) hj
      have hci : w.cubes.get? i = some (w.cubes.get ⟨i, hi_lt⟩) :=
        List.get?_eq_get hi_lt
      have hcj : w.cubes.get? j = some (w.cubes.get ⟨j, hj_lt⟩) :=
        List.get?_eq_get hj_lt
      refine wf_get?_inj hwf hci hcj ?_
      rw [posAt, hci, posAt, hcj] at heq
      exact heq
    have hcount : r.2 = 1 + Set.ncard {x : Int × Int | occP w x ∧ x ≠ bp ∧
        CellReach (fun p => occP w p ∧ p ≠ bp) origin.p x} := by
      rw [c2, count_true_eq_ncard, hmarked,
        Set.ncard_insert_of_not_mem
          (fun h => (Set.mem_setOf_eq ▸ h).not_pre ((hpre_iff bId).mpr rfl))
          hIfin,
        ← himage, Set.ncard_image_of_injOn hinj]
      omega
    rw [hbc, hcount]
    have hle : 1 + Set.ncard {x : Int × Int | occP w x ∧ x ≠ bp ∧
        CellReach (fun p => occP w p ∧ p ≠ bp) origin.p x} ≤ w.cubes.length := by
      have h1 : Set.ncard (insert bId {i : Nat | BfsReach w pre [originId] i}) ≤
          Set.ncard (Set.Iio w.cubes.length) := by
        refine Set.ncard_le_ncard ?_ (Set.finite_Iio _)
        rintro i (rfl | hi)
        · exact hbId_lt
        · exact bfsReach_lt (by intro y hy; simp at hy; omega) hi
      rw [Set.ncard_insert_of_not_mem
          (fun h => (Set.mem_setOf_eq ▸ h).not_pre ((hpre_iff bId).mpr rfl))
          hIfin, ← Set.ncard_image_of_injOn hinj, himage] at h1
      have h2 : Set.ncard (Set.Iio w.cubes.length) = w.cubes.length := by
        rw [← Finset.coe_Iio, Set.ncard_coe_Finset, Nat.card_Iio]
      omega
    omega

/-- Counterexample to claim C6: in the three-cube line with b the middle
cube, the code returns 1 (the cube cut off behind b), while the number of
cubes reachable from the root (0,0) with b deleted, minus one, is 0. -/
theorem C6_counterexample :
    (line3.downmostLeftmost).map (fun c => c.p) = some (0, 0) ∧
    line3.bridgeCapacity (1, 0) ≠
      Set.ncard {x : Int × Int | occP line3 x ∧ x ≠ (1, 0) ∧
        CellReach (fun p => occP line3 p ∧ p ≠ (1, 0)) (0, 0) x} - 1 := by
  refine ⟨by decide, ?_⟩
  have hset : {x : Int × Int | occP line3 x ∧ x ≠ (1, 0) ∧
      CellReach (fun p => occP line3 p ∧ p ≠ (1, 0)) (0, 0) x} = {(0, 0)} := by
    ext x
    simp only [Set.mem_setOf_eq, Set.mem_singleton_iff]
    constructor
    · rintro ⟨hocc, hne, hreach⟩
      clear hocc hne
      induction hreach with
      | refl => rfl
      | tail hr hs ih =>
        rw [ih] at hs
        obtain ⟨hPb, hPx, hadj⟩ := hs
        rcases hadj with h | h | h | h <;> subst h <;> revert hPx <;>
          simp only [occP] <;> decide
    · rintro rfl
      exact ⟨(by decide : line3.hasCube (0, 0) = true), by decide, .refl⟩
  have hbc : line3.bridgeCapacity (1, 0) = 1 := by decide
  rw [hbc, hset, Set.ncard_singleton]
  decide

/-- Witness for the amended claim C6: the three-cube line with b the east
end cube (0 cubes are cut off). -/
theorem C6_amended_bridgeCapacity_witness :
    line3.wf ∧ line3.isConnected none = true ∧
    line3.hasCube (2, 0) = true ∧
    line3.downmostLeftmost = some (Cube.mk' (0, 0) Color.BLUE) ∧
    line3.bridgeCapacity (2, 0) = line3.cubes.length - 1 -
      Set.ncard {x : Int × Int | occP line3 x ∧ x ≠ (2, 0) ∧
        CellReach (fun p => occP line3 p ∧ p ≠ (2, 0))
          (Cube.mk' (0, 0) Color.BLUE).p x} :=
  ⟨by unfold World.wf; decide, by decide, by decide, by decide,
    C6_amended_bridgeCapacity line3 (by unfold World.wf; decide) (by decide)
      (2, 0) (by decide) (by decide)⟩

/-! ### The claim C7: the outside walk -/

/-- Undoing a cardinal step. -/
theorem stepCard_rev (p : Int × Int) (c : Card) :
    stepCard (stepCard p c) (revCard c) = p := by
  cases c <;> simp [stepCard, revCard]

/-- A cardinal step determines its direction. -/
theorem stepCard_inj {p : Int × Int} {c1 c2 : Card}
    (h : stepCard p c1 = stepCard p c2) : c1 = c2 := by
  cases c1 <;> cases c2 <;> first
    | rfl
    | (exfalso
       simp only [stepCard, Prod.mk.injEq] at h
       omega)

/-- The neighbor flag of a cardinal direction is occupancy of the stepped
cell. -/
theorem cardFlag_hasNeighbors (w : World) (p : Int × Int) (c : Card) :
    cardFlag (w.hasNeighbors p) c = w.hasCube (stepCard p c) := by
  cases c <;> rfl

/-- `nextOnOutside` only looks at the four cardinal flags. -/
theorem nextOnOutside_eq_nextFlags (w : World) (p : Int × Int) (d : Card) :
    w.nextOnOutside p d =
      nextFlags (w.hasCube (stepCard p .N)) (w.hasCube (stepCard p .E))
        (w.hasCube (stepCard p .S)) (w.hasCube (stepCard p .W)) d := by
  rw [World.nextOnOutside, nextFlags]
  cases d <;>
    simp only [bends, List.find?] <;>
    rw [cardFlag_hasNeighbors, cardFlag_hasNeighbors, cardFlag_hasNeighbors,
      cardFlag_hasNeighbors]

/-- The bend lookup is injective in the incoming direction for incoming
directions whose reverse flag is set (a finite check). -/
theorem nextFlags_inj : ∀ (bn be bs bw : Bool) (d1 d2 d' : Card),
    (match revCard d1 with
      | Card.N => bn | Card.E => be | Card.S => bs | Card.W => bw) = true →
    (match revCard d2 with
      | Card.N => bn | Card.E => be | Card.S => bs | Card.W => bw) = true →
    nextFlags bn be bs bw d1 = some d' → nextFlags bn be bs bw d2 = some d' →
    d1 = d2 := by decide

/-- A cardinal step determines its start. -/
theorem stepCard_left_inj {p p' : Int × Int} {c : Card}
    (h : stepCard p c = stepCard p' c) : p = p' := by
  obtain ⟨p1, p2⟩ := p
  obtain ⟨q1, q2⟩ := p'
  cases c <;>
    (simp only [stepCard, Prod.mk.injEq] at h ⊢; omega)

/-- Reading the four-flag match at a direction. -/
theorem matchFlag_eq (w : World) (q : Int × Int) (c : Card) :
    (match c with
      | Card.N => w.hasCube (stepCard q .N)
      | Card.E => w.hasCube (stepCard q .E)
      | Card.S => w.hasCube (stepCard q .S)
      | Card.W => w.hasCube (stepCard q .W)) =
    w.hasCube (stepCard q c) := by
  cases c <;> rfl

/-- The walk step is injective on valid edges. -/
theorem walkStep_inj {w : World} {e1 e2 e : (Int × Int) × Card}
    (h1 : validEdge w e1) (h2 : validEdge w e2)
    (hs1 : walkStep w e1 = some e) (hs2 : walkStep w e2 = some e) :
    e1 = e2 := by
  rw [walkStep] at hs1 hs2
  cases hn1 : w.nextOnOutside (stepCard e1.1 e1.2) e1.2 with
  | none => rw [hn1] at hs1; cases hs1
  | some d1 =>
    cases hn2 : w.nextOnOutside (stepCard e2.1 e2.2) e2.2 with
    | none => rw [hn2] at hs2; cases hs2
    | some d2 =>
      rw [hn1] at hs1
      rw [hn2] at hs2
      have he : (stepCard e1.1 e1.2, d1) = (stepCard e2.1 e2.2, d2) := by
        rw [Option.some.inj hs1, ← Option.some.inj hs2]
      have hq : stepCard e1.1 e1.2 = stepCard e2.1 e2.2 := congrArg Prod.fst he
      have hd : d1 = d2 := congrArg Prod.snd he
      have hrev1 : w.hasCube (stepCard (stepCard e1.1 e1.2) (revCard e1.2)) =
          true := by
        rw [stepCard_rev]
        exact h1.1
      have hrev2 : w.hasCube (stepCard (stepCard e1.1 e1.2) (revCard e2.2)) =
          true := by
        rw [hq, stepCard_rev]
        exact h2.1
      have hn1' := hn1
      have hn2' := hn2
      rw [nextOnOutside_eq_nextFlags] at hn1' hn2'
      rw [← hq] at hn2'
      rw [hd] at hn1'
      have hdir : e1.2 = e2.2 :=
        nextFlags_inj _ _ _ _ e1.2 e2.2 d2
          (by rw [matchFlag_eq]; exact hrev1)
          (by rw [matchFlag_eq]; exact hrev2) hn1' hn2'
      have hpos : e1.1 = e2.1 := by
        rw [hdir] at hq
        exact stepCard_left_inj hq
      exact Prod.ext hpos hdir

/-- The far endpoint of a walk step. -/
theorem walkStep_fst {w : World} {a b : (Int × Int) × Card}
    (h : walkStep w a = some b) : b.1 = stepCard a.1 a.2 := by
  rw [walkStep] at h
  cases hn : w.nextOnOutside (stepCard a.1 a.2) a.2 with
  | none => rw [hn] at h; cases h
  | some d => rw [hn] at h; cases h; rfl

/-- A found bend direction points to a cube. -/
theorem nextOnOutside_some_hasCube {w : World} {p : Int × Int} {din d : Card}
    (h : w.nextOnOutside p din = some d) :
    w.hasCube (stepCard p d) = true := by
  rw [World.nextOnOutside] at h
  have := List.find?_some h
  rw [← cardFlag_hasNeighbors]
  exact this

/-- When no bend direction is found, the cell has no cardinal neighbor. -/
theorem nextOnOutside_none {w : World} {p : Int × Int} {din : Card}
    (h : w.nextOnOutside p din = none) :
    ∀ c : Card, w.hasCube (stepCard p c) = false := by
  intro c
  rw [World.nextOnOutside] at h
  have hall := List.find?_eq_none.mp h
  have hc : c ∈ bends din := by cases din <;> cases c <;> simp [bends]
  have := hall c hc
  rw [← cardFlag_hasNeighbors]
  simpa using this

/-- A duplicate-free list of valid edges has at most four edges per cube. -/
theorem validEdges_length_le (w : World) (l : List ((Int × Int) × Card))
    (hnd : l.Nodup) (hval : ∀ e ∈ l, validEdge w e) :
    l.length ≤ 4 * w.cubes.length := by
  have hsub : l.toFinset ⊆
      (w.cubes.map (fun c => c.p)).toFinset ×ˢ (Finset.univ : Finset Card) := by
    intro e he
    rw [List.mem_toFinset] at he
    rw [Finset.mem_product]
    exact ⟨List.mem_toFinset.mpr (hasCube_iff_mem.mp (hval e he).1),
      Finset.mem_univ _⟩
  calc l.length = l.toFinset.card := (List.toFinset_card_of_nodup hnd).symm
    _ ≤ ((w.cubes.map (fun c => c.p)).toFinset ×ˢ
          (Finset.univ : Finset Card)).card := Finset.card_le_card hsub
    _ = (w.cubes.map (fun c => c.p)).toFinset.card * 4 := by
        rw [Finset.card_product]
        rfl
    _ ≤ (w.cubes.map (fun c => c.p)).length * 4 :=
        Nat.mul_le_mul_right 4 (List.toFinset_card_le _)
    _ = 4 * w.cubes.length := by rw [List.length_map]; ring

/-- In a duplicate-free walk chain, a repeat of the successor of the last
edge can only be the first edge. -/
theorem chain_repeat_head {w : World} :
    ∀ (E : List ((Int × Int) × Card)) (elast enew : (Int × Int) × Card),
      E.Nodup → (∀ e ∈ E, validEdge w e) →
      List.Chain' (fun a b => walkStep w a = some b) E →
      E.getLast? = some elast → walkStep w elast = some enew → enew ∈ E →
      E.head? = some enew
  | [], _, _, _, _, _, hlast, _, _ => by cases hlast
  | [x], elast, enew, hnd, hval, hchain, hlast, hstep, hmem => by
    simp only [List.mem_singleton] at hmem
    rw [hmem]
    rfl
  | x :: y :: rest, elast, enew, hnd, hval, hchain, hlast, hstep, hmem => by
    by_cases hx : enew = x
    · rw [hx]; rfl
    · have hmem' : enew ∈ y :: rest := by
        rcases List.mem_cons.mp hmem with h | h
        · exact absurd h hx
        · exact h
      have hlast' : (y :: rest).getLast? = some elast := by
        rw [← hlast]
        exact List.getLast?_cons_cons.symm
      have hchain' : List.Chain' (fun a b => walkStep w a = some b) (y :: rest) :=
        hchain.tail
      have hstepxy : walkStep w x = some y :=
        (List.chain'_cons.mp hchain).1
      by_cases hy : enew = y
      · have helast_mem : elast ∈ y :: rest :=
          List.mem_of_mem_getLast? (Option.mem_def.mpr hlast')
        have hinj : x = elast :=
          walkStep_inj (hval x (List.mem_cons_self _ _))
            (hval elast (List.mem_cons_of_mem _ helast_mem))
            (by rw [hstepxy, hy]) hstep
        rw [← hinj] at helast_mem
        exact absurd helast_mem (List.nodup_cons.mp hnd).1
      · have ih := chain_repeat_head (y :: rest) elast enew
          (List.nodup_cons.mp hnd).2
          (fun e he => hval e (List.mem_cons_of_mem _ he)) hchain' hlast'
          hstep hmem'
        rw [List.head?_cons] at ih
        exact absurd (Option.some.inj ih).symm hy

/-- The consecutive cell pairs of the walk's cell trace are the traversed
edges. -/
theorem consecPairs_of_chain {w : World} :
    ∀ (E : List ((Int × Int) × Card)) (endPos : Int × Int),
      List.Chain' (fun a b => walkStep w a = some b) E →
      (match E.getLast? with
        | none => True
        | some e => endPos = stepCard e.1 e.2) →
      consecPairs (E.map (fun e => e.1) ++ [endPos]) = E.map edgePair
  | [], endPos, _, _ => by simp [consecPairs]
  | [e], endPos, _, hlast => by
    simp only [List.getLast?_singleton] at hlast
    simp [consecPairs, edgePair, hlast]
  | e1 :: e2 :: rest, endPos, hchain, hlast => by
    have hstep : walkStep w e1 = some e2 := (List.chain'_cons.mp hchain).1
    have hfst : e2.1 = stepCard e1.1 e1.2 := walkStep_fst hstep
    have hlast' : (match (e2 :: rest).getLast? with
        | none => True
        | some e => endPos = stepCard e.1 e.2) := by
      rw [@List.getLast?_cons_cons _ e1 e2 rest] at hlast
      exact hlast
    have ih := consecPairs_of_chain (e2 :: rest) endPos
      (List.chain'_cons.mp hchain).2 hlast'
    show (e1.1, e2.1) :: consecPairs ((e2 :: rest).map (fun e => e.1) ++ [endPos])
      = (e1.1, stepCard e1.1 e1.2) :: (e2 :: rest).map edgePair
    rw [ih, hfst]

/-- The walk position after one more traversed edge. -/
theorem walkPos_concat (startp : Int × Int) (l : List ((Int × Int) × Card))
    (x : (Int × Int) × Card) :
    walkPos startp (l ++ [x]) = stepCard x.1 x.2 := by
  simp [walkPos, List.getLast?_concat]

/-- The walk direction after one more traversed edge. -/
theorem lastDir_concat (l : List ((Int × Int) × Card))
    (x : (Int × Int) × Card) : lastDir (l ++ [x]) = x.2 := by
  simp [lastDir, List.getLast?_concat]

/-- Invariant characterization of the outside-walk loop: from a consistent
intermediate state it emits the cubes along a duplicate-free chain of valid
edges starting at `startp`, plus the cube of the final cell, and stops
either at a dead end or when the next edge would repeat a traversed one. -/
theorem outsideLoop_spec (w : World) (startp : Int × Int) :
    ∀ (fuel : Nat) (position : Int × Int) (direction : Card)
      (edgesSeen : List ((Int × Int) × Card)) (outside : List Cube),
      w.hasCube position = true →
      edgesSeen.Nodup →
      (∀ e ∈ edgesSeen, validEdge w e) →
      List.Chain' (fun a b => walkStep w a = some b) edgesSeen →
      position = walkPos startp edgesSeen →
      direction = lastDir edgesSeen →
      (∀ e, edgesSeen.head? = some e → e.1 = startp) →
      outside.map (fun c => c.p) = edgesSeen.map (fun e => e.1) →
      (∀ c ∈ outside, w.getCube c.p = some c) →
      4 * w.cubes.length + 1 ≤ fuel + edgesSeen.length →
      ∃ E endPos,
        (outsideLoop w fuel position direction edgesSeen outside).map
            (fun c => c.p) = (edgesSeen ++ E).map (fun e => e.1) ++ [endPos] ∧
        (∀ c ∈ outsideLoop w fuel position direction edgesSeen outside,
            w.getCube c.p = some c) ∧
        (edgesSeen ++ E).Nodup ∧
        (∀ e ∈ edgesSeen ++ E, validEdge w e) ∧
        List.Chain' (fun a b => walkStep w a = some b) (edgesSeen ++ E) ∧
        (∀ e, (edgesSeen ++ E).head? = some e → e.1 = startp) ∧
        endPos = walkPos startp (edgesSeen ++ E) ∧
        (w.nextOnOutside endPos (lastDir (edgesSeen ++ E)) = none ∨
         ∃ d, w.nextOnOutside endPos (lastDir (edgesSeen ++ E)) = some d ∧
           (endPos, d) ∈ edgesSeen ++ E)
  | 0, position, direction, edgesSeen, outside => by
    intro _ hnd hval _ _ _ _ _ _ hfuel
    exfalso
    have hlen := validEdges_length_le w edgesSeen hnd hval
    omega
  | fuel + 1, position, direction, edgesSeen, outside => by
    intro hpos hnd hval hchain hwp hld hhead hmap hself hfuel
    rw [World.hasCube] at hpos
    obtain ⟨cube, hget⟩ := Option.isSome_iff_exists.mp hpos
    have hcubep : cube.p = position := (getCube_some_spec hget).1
    have hselfcube : w.getCube cube.p = some cube := by rw [hcubep]; exact hget
    cases hnext : w.nextOnOutside position direction with
    | none =>
      have hres : outsideLoop w (fuel + 1) position direction edgesSeen outside
          = outside ++ [cube] := by
        simp only [outsideLoop, hget, hnext]
      refine ⟨[], position, ?_, ?_, ?_, ?_, ?_, ?_, ?_, ?_⟩
      · rw [hres, List.append_nil, List.map_append, hmap, List.map_singleton,
          hcubep]
      · intro c hc
        rw [hres] at hc
        rcases List.mem_append.mp hc with h | h
        · exact hself c h
        · rw [List.mem_singleton] at h; rw [h]; exact hselfcube
      · rw [List.append_nil]; exact hnd
      · rw [List.append_nil]; exact hval
      · rw [List.append_nil]; exact hchain
      · rw [List.append_nil]; exact hhead
      · rw [List.append_nil]; exact hwp
      · rw [List.append_nil, ← hld]
        exact Or.inl hnext
    | some dir =>
      by_cases hseen : (position, dir) ∈ edgesSeen
      · have hres : outsideLoop w (fuel + 1) position direction edgesSeen
            outside = outside ++ [cube] := by
          simp only [outsideLoop, hget, hnext, hcubep, if_pos hseen]
        refine ⟨[], position, ?_, ?_, ?_, ?_, ?_, ?_, ?_, ?_⟩
        · rw [hres, List.append_nil, List.map_append, hmap, List.map_singleton,
            hcubep]
        · intro c hc
          rw [hres] at hc
          rcases List.mem_append.mp hc with h | h
          · exact hself c h
          · rw [List.mem_singleton] at h; rw [h]; exact hselfcube
        · rw [List.append_nil]; exact hnd
        · rw [List.append_nil]; exact hval
        · rw [List.append_nil]; exact hchain
        · rw [List.append_nil]; exact hhead
        · rw [List.append_nil]; exact hwp
        · rw [List.append_nil, ← hld]
          exact Or.inr ⟨dir, hnext, hseen⟩
      · have hres : outsideLoop w (fuel + 1) position direction edgesSeen
            outside = outsideLoop w fuel (stepCard position dir) dir
              (edgesSeen ++ [(position, dir)]) (outside ++ [cube]) := by
          simp only [outsideLoop, hget, hnext, hcubep, if_neg hseen]
        have hstep' : w.hasCube (stepCard position dir) = true :=
          nextOnOutside_some_hasCube hnext
        have hposT : w.hasCube position = true := by
          rw [World.hasCube, hget]; rfl
        have hnd' : (edgesSeen ++ [(position, dir)]).Nodup := by
          rw [List.nodup_append]
          refine ⟨hnd, List.nodup_singleton _, ?_⟩
          intro a ha hmem
          rw [List.mem_singleton] at hmem
          rw [hmem] at ha
          exact hseen ha
        have hval' : ∀ e ∈ edgesSeen ++ [(position, dir)], validEdge w e := by
          intro e he
          rcases List.mem_append.mp he with h | h
          · exact hval e h
          · rw [List.mem_singleton] at h; rw [h]; exact ⟨hposT, hstep'⟩
        have hchain' : List.Chain' (fun a b => walkStep w a = some b)
            (edgesSeen ++ [(position, dir)]) := by
          rw [List.chain'_append]
          refine ⟨hchain, List.chain'_singleton _, ?_⟩
          intro x hx y hy
          have hx' : edgesSeen.getLast? = some x := Option.mem_def.mp hx
          have hy' : y = (position, dir) := by
            have h := Option.mem_def.mp hy
            rw [List.head?_cons] at h
            exact (Option.some.inj h).symm
          have h1 : walkPos startp edgesSeen = stepCard x.1 x.2 := by
            simp [walkPos, hx']
          have h2 : lastDir edgesSeen = x.2 := by
            simp [lastDir, hx']
          rw [hy', walkStep, ← h1, ← hwp, ← h2, ← hld, hnext]
        have hwp' : stepCard position dir
            = walkPos startp (edgesSeen ++ [(position, dir)]) := by
          rw [walkPos_concat]
        have hld' : dir = lastDir (edgesSeen ++ [(position, dir)]) := by
          rw [lastDir_concat]
        have hhead' : ∀ e0, (edgesSeen ++ [(position, dir)]).head? = some e0 →
            e0.1 = startp := by
          intro e0 he0
          cases hE : edgesSeen with
          | nil =>
            rw [hE, List.nil_append, List.head?_cons] at he0
            cases he0
            rw [hE] at hwp
            exact hwp
          | cons a t =>
            rw [hE, List.cons_append, List.head?_cons] at he0
            have ha : e0 = a := (Option.some.inj he0).symm
            rw [ha]
            exact hhead a (by rw [hE, List.head?_cons])
        have hmap' : (outside ++ [cube]).map (fun c => c.p)
            = (edgesSeen ++ [(position, dir)]).map (fun e => e.1) := by
          rw [List.map_append, List.map_append, hmap, List.map_singleton,
            List.map_singleton, hcubep]
        have hself' : ∀ c ∈ outside ++ [cube], w.getCube c.p = some c := by
          intro c hc
          rcases List.mem_append.mp hc with h | h
          · exact hself c h
          · rw [List.mem_singleton] at h; rw [h]; exact hselfcube
        have hfuel' : 4 * w.cubes.length + 1
            ≤ fuel + (edgesSeen ++ [(position, dir)]).length := by
          rw [List.length_append, List.length_singleton]
          omega
        obtain ⟨E', endPos, ih1, ih2, ih3, ih4, ih5, ih6, ih7, ih8⟩ :=
          outsideLoop_spec w startp fuel (stepCard position dir) dir
            (edgesSeen ++ [(position, dir)]) (outside ++ [cube])
            hstep' hnd' hval' hchain' hwp' hld' hhead' hmap' hself' hfuel'
        have hassoc : edgesSeen ++ (position, dir) :: E'
            = (edgesSeen ++ [(position, dir)]) ++ E' := by
          rw [List.append_assoc, List.singleton_append]
        refine ⟨(position, dir) :: E', endPos, ?_, ?_, ?_, ?_, ?_, ?_, ?_, ?_⟩
        · rw [hres, hassoc]; exact ih1
        · intro c hc
          rw [hres] at hc
          exact ih2 c hc
        · rw [hassoc]; exact ih3
        · rw [hassoc]; exact ih4
        · rw [hassoc]; exact ih5
        · rw [hassoc]; exact ih6
        · rw [hassoc]; exact ih7
        · rw [hassoc]; exact ih8

/-- Traversed cell pairs determine the traversed edges. -/
theorem edgePair_injective : Function.Injective edgePair := by
  rintro ⟨p, c⟩ ⟨p', c'⟩ h
  rw [edgePair, edgePair, Prod.mk.injEq] at h
  obtain ⟨h1, h2⟩ := h
  subst h1
  exact Prod.ext rfl (stepCard_inj h2)

/-- A left fold by `min` stays in the list (with the seed). -/
theorem foldl_min_mem : ∀ (xs : List Int) (x : Int), xs.foldl min x ∈ x :: xs
  | [], x => by simp
  | y :: ys, x => by
    have ih := foldl_min_mem ys (min x y)
    rw [List.foldl_cons]
    rcases List.mem_cons.mp ih with h | h
    · rw [h]
      rcases min_choice x y with hm | hm <;> rw [hm] <;> simp
    · exact List.mem_cons_of_mem _ (List.mem_cons_of_mem _ h)

/-- The minimum of a non-empty integer list is attained. -/
theorem intListMin_mem {l : List Int} (h : l ≠ []) : intListMin l ∈ l := by
  cases l with
  | nil => exact absurd rfl h
  | cons x xs => exact foldl_min_mem xs x

/-- A non-empty world has a downmost-leftmost cube. -/
theorem downmostLeftmost_isSome (w : World) (hne : w.cubes ≠ []) :
    ∃ dlm, w.downmostLeftmost = some dlm := by
  have hlen : ¬ w.cubes.length = 0 := by
    simpa [List.length_eq_zero] using hne
  rw [World.downmostLeftmost, if_neg hlen]
  show ∃ dlm, w.getCube
      (intListMin ((w.cubes.filter
        (fun c => decide (c.p.2 = intListMin (w.cubes.map (fun c => c.p.2))))).map
        (fun c => c.p.1)),
       intListMin (w.cubes.map (fun c => c.p.2))) = some dlm
  set lY := intListMin (w.cubes.map (fun c => c.p.2)) with hlY
  set lX := intListMin ((w.cubes.filter
    (fun c => decide (c.p.2 = lY))).map (fun c => c.p.1)) with hlX
  have hYmem : lY ∈ w.cubes.map (fun c => c.p.2) := by
    rw [hlY]
    exact intListMin_mem (by simpa using hne)
  obtain ⟨c0, hc0, hc0y⟩ := List.mem_map.mp hYmem
  have hfil : c0 ∈ w.cubes.filter (fun c => decide (c.p.2 = lY)) :=
    List.mem_filter.mpr ⟨hc0, by simp [hc0y]⟩
  have hfilne : (w.cubes.filter (fun c => decide (c.p.2 = lY))).map
      (fun c => c.p.1) ≠ [] := by
    intro hcontra
    rw [List.map_eq_nil] at hcontra
    rw [hcontra] at hfil
    simp at hfil
  have hXmem : lX ∈ (w.cubes.filter (fun c => decide (c.p.2 = lY))).map
      (fun c => c.p.1) := by
    rw [hlX]
    exact intListMin_mem hfilne
  obtain ⟨c1, hc1, hc1x⟩ := List.mem_map.mp hXmem
  obtain ⟨hc1m, hc1y'⟩ := List.mem_filter.mp hc1
  have hc1y : c1.p.2 = lY := by simpa using hc1y'
  have hcell : (lX, lY) ∈ w.cubes.map (fun c => c.p) := by
    refine List.mem_map.mpr ⟨c1, hc1m, ?_⟩
    rw [← hc1x, ← hc1y]
  have hhas := hasCube_iff_mem.mpr hcell
  rw [World.hasCube] at hhas
  exact Option.isSome_iff_exists.mp hhas

/-- The downmost-leftmost cube sits at its own cell. -/
theorem downmostLeftmost_self {w : World} {dlm : Cube}
    (h : w.downmostLeftmost = some dlm) : w.getCube dlm.p = some dlm := by
  rw [World.downmostLeftmost] at h
  by_cases hlen : w.cubes.length = 0
  · rw [if_pos hlen] at h
    cases h
  · rw [if_neg hlen] at h
    have h' : w.getCube
        (intListMin ((w.cubes.filter
          (fun c => decide (c.p.2 = intListMin (w.cubes.map (fun c => c.p.2))))).map
          (fun c => c.p.1)),
         intListMin (w.cubes.map (fun c => c.p.2))) = some dlm := h
    have hp := (getCube_some_spec h').1
    rw [hp]
    exact h'

/-- Witness for the amended claim C9 at the two-cube world. -/
theorem C9_amended_roundtrip_witness :
    (pairWorld.cubes.map (fun c => c.resetPosition)).Nodup ∧
    (∃ w', deserialize pairWorld.serialize = .ok w' ∧
      w'.cubes.map (fun c => c.resetPosition) =
        pairWorld.cubes.map (fun c => c.resetPosition) ∧
      w'.cubes.map (fun c => c.color) = pairWorld.cubes.map (fun c => c.color) ∧
      w'.cubes.map (fun c => c.p) =
        pairWorld.cubes.map (fun c => c.resetPosition)) :=
  ⟨by decide, C9_amended_roundtrip pairWorld (by decide)⟩

/-- Removing the element `a` from a duplicate-free list and appending it
again is a permutation of the list. -/
theorem filter_ne_append_perm {α : Type} [DecidableEq α] :
    ∀ (l : List α) (a : α), l.Nodup → a ∈ l →
      (l.filter (fun x => decide (x ≠ a)) ++ [a]).Perm l
  | [], a, _, ha => by simp at ha
  | x :: t, a, hnd, ha => by
    by_cases hxa : x = a
    · have hat : a ∉ t := by
        rw [← hxa]
        exact (List.nodup_cons.mp hnd).1
      have hft : t.filter (fun x => decide (x ≠ a)) = t := by
        apply List.filter_eq_self.mpr
        intro b hb
        exact decide_eq_true (fun hba => hat (hba ▸ hb))
      rw [List.filter_cons, if_neg (by simp [hxa]), hft, hxa]
      exact List.perm_append_comm
    · have hat : a ∈ t := by
        rcases List.mem_cons.mp ha with h | h
        · exact absurd h.symm hxa
        · exact h
      have ih := filter_ne_append_perm t a (List.nodup_cons.mp hnd).2 hat
      rw [List.filter_cons, if_pos (decide_eq_true hxa)]
      exact List.Perm.cons x ih

/-- Deleting the cubes of a cell leaves the cell unoccupied. -/
theorem hasCube_filter_self (w : World) (p : Int × Int) :
    (⟨w.cubes.filter (fun c => decide (c.p ≠ p))⟩ : World).hasCube p
      = false := by
  by_contra hcon
  rw [Bool.not_eq_false] at hcon
  have hmem := hasCube_iff_mem.mp hcon
  obtain ⟨c, hc, hcp⟩ := List.mem_map.mp hmem
  have hne := (List.mem_filter.mp hc).2
  exact (of_decide_eq_true hne) hcp

/-- An empty configuration admits no move edges. -/
theorem moveEdge_empty (a b : Int × Int) :
    ¬ moveEdge (⟨[]⟩ : World) a b := by
  rintro ⟨mv, hmem, _⟩
  rw [World.validMovesFrom] at hmem
  by_cases hc : ¬ ((⟨[]⟩ : World).isConnected (some a) = true)
  · rw [if_pos hc] at hmem
    simp at hmem
  · rw [if_neg hc] at hmem
    obtain ⟨d, _, hmv⟩ := List.mem_filterMap.mp hmem
    by_cases hivc : (Move.mk a d).isValidIgnoreConnectivity ⟨[]⟩ = true
    · obtain ⟨s, hs, _, _⟩ := ivc_support hivc
      rw [show (⟨[]⟩ : World).hasCube s = false from rfl] at hs
      cases hs
    · rw [if_neg hivc] at hmv
      cases hmv

/-- In an empty configuration every cell reaches only itself. -/
theorem moveReach_empty {a b : Int × Int}
    (h : MoveReach (⟨[]⟩ : World) a b) : a = b := by
  induction h with
  | refl => rfl
  | tail _ he _ => exact absurd he (moveEdge_empty _ _)

/-- Soundness of the seen map of the move-path BFS: every recorded cell is
reachable from the source in the move graph. -/
theorem movePathBfs_sound (w1 : World) (dst src : Int × Int) :
    ∀ (fuel : Nat) (seen : SeenMap) (queue : List ((Int × Int) × Option Move)),
      (∀ e ∈ seen, MoveReach w1 src e.1) →
      (∀ e ∈ queue, MoveReach w1 src e.1) →
      ∀ e ∈ movePathBfs w1 dst fuel seen queue, MoveReach w1 src e.1
  | 0, seen, queue => by
    intro hseen _ e he
    rw [movePathBfs] at he
    exact hseen e he
  | fuel + 1, seen, [] => by
    intro hseen _ e he
    rw [movePathBfs] at he
    exact hseen e he
  | fuel + 1, seen, (c, m) :: rest => by
    intro hseen hqueue e he
    simp only [movePathBfs] at he
    by_cases hl : (seenLookup seen c).isSome = true
    · rw [if_pos hl] at he
      exact movePathBfs_sound w1 dst src fuel seen rest hseen
        (fun e' he' => hqueue e' (List.mem_cons_of_mem _ he')) e he
    · rw [if_neg hl] at he
      have hseenc : ∀ e' ∈ seen ++ [(c, m)], MoveReach w1 src e'.1 := by
        intro e' he'
        rcases List.mem_append.mp he' with h | h
        · exact hseen e' h
        · rw [List.mem_singleton] at h
          rw [h]
          exact hqueue (c, m) (List.mem_cons_self _ _)
      by_cases hcd : c = dst
      · rw [if_pos hcd] at he
        exact hseenc e he
      · rw [if_neg hcd] at he
        refine movePathBfs_sound w1 dst src fuel _ _ hseenc ?_ e he
        intro e' he'
        rcases List.mem_append.mp he' with h | h
        · exact hqueue e' (List.mem_cons_of_mem _ h)
        · obtain ⟨mv, hmv, hmveq⟩ := List.mem_map.mp h
          rw [← hmveq]
          exact Relation.ReflTransGen.tail
            (hqueue (c, m) (List.mem_cons_self _ _)) ⟨mv, hmv, rfl⟩

/-- Reading a replicated list. -/
theorem repl_get? {α : Type} (n : Nat) (x : α) (i : Nat) :
    (List.replicate n x).get? i = if i < n then some x else none := by
  rw [List.get?_eq_getElem?, List.getElem?_replicate]

/-- Reading a two-block label list. -/
theorem repl2_get? (a b f i : Nat) :
    (List.replicate a f ++ List.replicate b (f + 1)).get? i
      = if i < a then some f
        else if i < a + b then some (f + 1) else none := by
  by_cases h1 : i < a
  · rw [List.get?_append (by rw [List.length_replicate]; exact h1), repl_get?,
      if_pos h1, if_pos h1]
  · rw [List.get?_append_right (by rw [List.length_replicate]; omega),
      List.length_replicate, repl_get?, if_neg h1]
    by_cases h2 : i < a + b
    · rw [if_pos (by omega), if_pos h2]
    · rw [if_neg (by omega), if_neg h2]

/-- A label list with a front block of `f`s can be normalized so that the
front block is non-empty. -/
theorem sorted_norm {qL : List Nat} {f : Nat}
    (hs : ∃ a b f0, qL = List.replicate a f0 ++ List.replicate b (f0 + 1))
    (hh : qL.head? = some f) :
    ∃ a b, qL = List.replicate (a + 1) f ++ List.replicate b (f + 1) := by
  obtain ⟨a, b, f0, rfl⟩ := hs
  rw [← List.get?_zero, repl2_get?] at hh
  by_cases h1 : 0 < a
  · rw [if_pos h1] at hh
    obtain ⟨a1, rfl⟩ : ∃ a1, a = a1 + 1 := ⟨a - 1, by omega⟩
    refine ⟨a1, b, ?_⟩
    rw [Option.some.inj hh]
  · rw [if_neg h1] at hh
    by_cases h2 : 0 < a + b
    · rw [if_pos h2] at hh
      have hf : f0 + 1 = f := Option.some.inj hh
      have ha : a = 0 := by omega
      obtain ⟨b1, rfl⟩ : ∃ b1, b = b1 + 1 := ⟨b - 1, by omega⟩
      refine ⟨b1, 0, ?_⟩
      subst ha
      rw [← hf]
      simp
    · rw [if_neg h2] at hh
      cases hh

/-- A missed lookup means no entry carries the key. -/
theorem seenLookup_none_iff {seen : SeenMap} {c : Int × Int} :
    seenLookup seen c = none ↔ ∀ e ∈ seen, e.1 ≠ c := by
  rw [seenLookup]
  cases hf : List.find? (fun e => decide (e.1 = c)) seen with
  | none =>
    simp only [true_iff]
    intro e he
    have := List.find?_eq_none.mp hf e he
    simpa using this
  | some en =>
    simp only
    constructor
    · intro h
      cases h
    · intro hall
      exfalso
      have hp := List.find?_some hf
      exact hall en (List.mem_of_find?_eq_some hf) (of_decide_eq_true hp)

/-- A hit lookup yields an entry with the key. -/
theorem seenLookup_isSome {seen : SeenMap} {c : Int × Int}
    (h : (seenLookup seen c).isSome = true) : ∃ e ∈ seen, e.1 = c := by
  rw [seenLookup] at h
  cases hf : List.find? (fun e => decide (e.1 = c)) seen with
  | none => rw [hf] at h; cases h
  | some en =>
    have hp := List.find?_some hf
    exact ⟨en, List.mem_of_find?_eq_some hf, of_decide_eq_true hp⟩

/-- With pairwise-distinct keys, the lookup of an entry's key returns that
entry's move. -/
theorem seenLookup_nodup {seen : SeenMap} {i : Nat}
    {e : (Int × Int) × Option Move}
    (hnd : (seen.map (fun e => e.1)).Nodup) (hget : seen.get? i = some e) :
    seenLookup seen e.1 = some e.2 := by
  have hmem_e : e ∈ seen := List.mem_iff_get?.mpr ⟨i, hget⟩
  rw [seenLookup]
  cases hf : List.find? (fun x => decide (x.1 = e.1)) seen with
  | none =>
    exfalso
    have := List.find?_eq_none.mp hf e hmem_e
    simp at this
  | some en =>
    have hp := List.find?_some hf
    have hkey : en.1 = e.1 := of_decide_eq_true hp
    have hen : en = e := List.inj_on_of_nodup_map hnd
      (List.mem_of_find?_eq_some hf) hmem_e hkey
    rw [hen]

/-- A locally valid move has an empty target. -/
theorem ivc_target_free {w : World} {m : Move}
    (h : m.isValidIgnoreConnectivity w = true) :
    w.hasCube m.targetPosition = false := by
  rw [Move.isValidIgnoreConnectivity] at h
  cases hb : w.hasCube m.targetPosition with
  | false => rfl
  | true =>
    rw [if_pos hb] at h
    cases h

/-- Appending a mover does not change other cells. -/
theorem hasCube_append_mover (w1 : World) (mov : Cube) {q : Int × Int}
    (hq : q ≠ mov.p) :
    (⟨w1.cubes ++ [mov]⟩ : World).hasCube q = w1.hasCube q := by
  cases hb : w1.hasCube q with
  | true =>
    rw [hasCube_iff_mem] at hb ⊢
    rw [List.map_append]
    exact List.mem_append.mpr (Or.inl hb)
  | false =>
    cases hb2 : (⟨w1.cubes ++ [mov]⟩ : World).hasCube q with
    | false => rfl
    | true =>
      exfalso
      rw [hasCube_iff_mem, List.map_append] at hb2
      rcases List.mem_append.mp hb2 with h | h
      · have := hasCube_iff_mem.mpr h
        rw [hb] at this
        cases this
      · rw [List.map_singleton, List.mem_singleton] at h
        exact hq h

/-- The appended mover's own cell is occupied. -/
theorem occP_append_mover (w1 : World) (mov : Cube) (q : Int × Int) :
    occP (⟨w1.cubes ++ [mov]⟩ : World) q ↔ (occP w1 q ∨ q = mov.p) := by
  rw [occP, occP, hasCube_iff_mem, hasCube_iff_mem, List.map_append,
    List.mem_append, List.map_singleton, List.mem_singleton]

/-- Filtering the cube list preserves well-formedness. -/
theorem wf_filter (w : World) (hwf : w.wf) (pred : Cube → Bool) :
    (⟨w.cubes.filter pred⟩ : World).wf := by
  rw [World.wf]
  exact List.Nodup.sublist (List.Sublist.map _ (List.filter_sublist _)) hwf

/-- Appending a mover at a free cell preserves well-formedness. -/
theorem wf_append_mover {w1 : World} (hwf : w1.wf) {mov : Cube}
    (hfree : w1.hasCube mov.p = false) :
    (⟨w1.cubes ++ [mov]⟩ : World).wf := by
  rw [World.wf, List.map_append, List.nodup_append]
  refine ⟨hwf, by simp, ?_⟩
  intro a ha hmem
  rw [List.map_singleton, List.mem_singleton] at hmem
  rw [hmem] at ha
  have := hasCube_iff_mem.mpr ha
  rw [hfree] at this
  cases this

/-- Local move validity only reads the eight cells around the source, so it
is invariant under changes of the source cell itself. -/
theorem ivc_congr {w w' : World} {p : Int × Int} {d : MoveDirection}
    (h : ∀ q, q ≠ p → w'.hasCube q = w.hasCube q) :
    (Move.mk p d).isValidIgnoreConnectivity w'
      = (Move.mk p d).isValidIgnoreConnectivity w := by
  obtain ⟨x, y⟩ := p
  have hN : w'.hasCube (x, y + 1) = w.hasCube (x, y + 1) :=
    h _ (by intro he; rw [Prod.mk.injEq] at he; omega)
  have hNE : w'.hasCube (x + 1, y + 1) = w.hasCube (x + 1, y + 1) :=
    h _ (by intro he; rw [Prod.mk.injEq] at he; omega)
  have hE : w'.hasCube (x + 1, y) = w.hasCube (x + 1, y) :=
    h _ (by intro he; rw [Prod.mk.injEq] at he; omega)
  have hSE : w'.hasCube (x + 1, y - 1) = w.hasCube (x + 1, y - 1) :=
    h _ (by intro he; rw [Prod.mk.injEq] at he; omega)
  have hS : w'.hasCube (x, y - 1) = w.hasCube (x, y - 1) :=
    h _ (by intro he; rw [Prod.mk.injEq] at he; omega)
  have hSW : w'.hasCube (x - 1, y - 1) = w.hasCube (x - 1, y - 1) :=
    h _ (by intro he; rw [Prod.mk.injEq] at he; omega)
  have hW : w'.hasCube (x - 1, y) = w.hasCube (x - 1, y) :=
    h _ (by intro he; rw [Prod.mk.injEq] at he; omega)
  have hNW : w'.hasCube (x - 1, y + 1) = w.hasCube (x - 1, y + 1) :=
    h _ (by intro he; rw [Prod.mk.injEq] at he; omega)
  have hflags : w'.hasNeighbors (x, y) = w.hasNeighbors (x, y) := by
    rw [World.hasNeighbors, World.hasNeighbors]
    simp only [hN, hNE, hE, hSE, hS, hSW, hW, hNW]
  cases d <;>
    simp only [Move.isValidIgnoreConnectivity, Move.targetPosition,
      targetPositionFromFields, MoveDirection.letters, List.foldl, stepCard,
      hflags, hN, hNE, hE, hSE, hS, hSW, hW, hNW]

/-- A move drawn from `validMovesFrom` of the scaffold is `isValid` in the
configuration that has the mover standing on the move's source cell. -/
theorem exec_isValid {w1 : World} {cube : Cube} {mv : Move}
    (hwf1 : w1.wf)
    (hmem : mv ∈ w1.validMovesFrom mv.sourcePosition)
    (hfree : w1.hasCube mv.sourcePosition = false) :
    mv.isValid ⟨w1.cubes ++ [{ cube with p := mv.sourcePosition }]⟩
      = true := by
  obtain ⟨hpos, hivc, hconn⟩ := mem_validMovesFrom.mp hmem
  have hagree : ∀ q, q ≠ mv.position →
      (⟨w1.cubes ++ [{ cube with p := mv.sourcePosition }]⟩ : World).hasCube q
        = w1.hasCube q := by
    intro q hq
    exact hasCube_append_mover w1 _ hq
  rw [Move.isValid]
  have hivc' : mv.isValidIgnoreConnectivity
      ⟨w1.cubes ++ [{ cube with p := mv.sourcePosition }]⟩ = true := by
    have hcong : mv.isValidIgnoreConnectivity
        ⟨w1.cubes ++ [{ cube with p := mv.sourcePosition }]⟩
        = mv.isValidIgnoreConnectivity w1 := ivc_congr hagree
    rw [hcong]
    exact hivc
  rw [hivc', Bool.true_and]
  have hWwf : (⟨w1.cubes ++ [{ cube with p := mv.sourcePosition }]⟩
      : World).wf := wf_append_mover hwf1 hfree
  rw [isConnected_true_iff _ hWwf]
  have hiff : ∀ q,
      occMinus ⟨w1.cubes ++ [{ cube with p := mv.sourcePosition }]⟩
        (some mv.position) q ↔ occMinus w1 (some mv.position) q := by
    intro q
    show (occP _ q ∧ q ≠ mv.position) ↔ (occP w1 q ∧ q ≠ mv.position)
    constructor
    · rintro ⟨hq, hne⟩
      refine ⟨?_, hne⟩
      rcases (occP_append_mover w1 _ q).mp hq with h | h
      · exact h
      · exact absurd h hne
    · rintro ⟨hq, hne⟩
      exact ⟨(occP_append_mover w1 _ q).mpr (Or.inl hq), hne⟩
  rw [setConnected_congr hiff, ← isConnected_true_iff w1 hwf1]
  exact hconn

/-- Extending a chain of moves by one move. -/
theorem movesChain_snoc : ∀ (moves : List Move) (a c : Int × Int) (mv : Move),
    movesChain a c moves → mv.sourcePosition = c →
    movesChain a mv.targetPosition (moves ++ [mv])
  | [], a, c, mv, hch, hsrc => by
    rw [movesChain] at hch
    rw [List.nil_append, movesChain]
    exact ⟨by rw [hsrc, hch], rfl⟩
  | mv0 :: rest, a, c, mv, hch, hsrc => by
    rw [movesChain] at hch
    rw [List.cons_append, movesChain]
    exact ⟨hch.1, movesChain_snoc rest _ c mv hch.2 hsrc⟩

/-- The keys recorded by the move-path BFS number at most one more than
four per cube: each is the source or is adjacent to a cube. -/
theorem seenKeys_length_le (w1 : World) (src : Int × Int) (seen : SeenMap)
    (hnd : (seen.map (fun e => e.1)).Nodup)
    (hbd : ∀ e ∈ seen, e.1 = src ∨ ∃ q, w1.hasCube q = true ∧ isAdj e.1 q) :
    seen.length ≤ 4 * w1.cubes.length + 1 := by
  have hsub : (seen.map (fun e => e.1)).toFinset ⊆
      insert src (((w1.cubes.map (fun c => c.p)).toFinset ×ˢ
        (Finset.univ : Finset Card)).image (fun pc => stepCard pc.1 pc.2)) := by
    intro k hk
    rw [List.mem_toFinset] at hk
    obtain ⟨e, he, hkey⟩ := List.mem_map.mp hk
    rw [Finset.mem_insert]
    rcases hbd e he with h | ⟨q, hq, hadj⟩
    · left
      rw [← hkey, h]
    · right
      rw [Finset.mem_image]
      have hqmem : q ∈ (w1.cubes.map (fun c => c.p)).toFinset :=
        List.mem_toFinset.mpr (hasCube_iff_mem.mp hq)
      rw [← hkey]
      rcases hadj with h | h | h | h
      · exact ⟨(q, Card.W), Finset.mem_product.mpr ⟨hqmem, Finset.mem_univ _⟩,
          by rw [h]; simp only [stepCard]; exact Prod.ext (by omega) rfl⟩
      · exact ⟨(q, Card.E), Finset.mem_product.mpr ⟨hqmem, Finset.mem_univ _⟩,
          by rw [h]; simp only [stepCard]; exact Prod.ext (by omega) rfl⟩
      · exact ⟨(q, Card.S), Finset.mem_product.mpr ⟨hqmem, Finset.mem_univ _⟩,
          by rw [h]; simp only [stepCard]; exact Prod.ext rfl (by omega)⟩
      · exact ⟨(q, Card.N), Finset.mem_product.mpr ⟨hqmem, Finset.mem_univ _⟩,
          by rw [h]; simp only [stepCard]; exact Prod.ext rfl (by omega)⟩
  have hcard := Finset.card_le_card hsub
  rw [List.toFinset_card_of_nodup hnd, List.length_map] at hcard
  calc seen.length ≤ _ := hcard
    _ ≤ (((w1.cubes.map (fun c => c.p)).toFinset ×ˢ
          (Finset.univ : Finset Card)).image
          (fun pc => stepCard pc.1 pc.2)).card + 1 := Finset.card_insert_le _ _
    _ ≤ ((w1.cubes.map (fun c => c.p)).toFinset ×ˢ
          (Finset.univ : Finset Card)).card + 1 :=
        Nat.add_le_add_right Finset.card_image_le 1
    _ = (w1.cubes.map (fun c => c.p)).toFinset.card * 4 + 1 := by
        rw [Finset.card_product]
        rfl
    _ ≤ (w1.cubes.map (fun c => c.p)).length * 4 + 1 :=
        Nat.add_le_add_right
          (Nat.mul_le_mul_right 4 (List.toFinset_card_le _)) 1
    _ = 4 * w1.cubes.length + 1 := by
        rw [List.length_map]
        ring

/-- At most twelve moves leave any cell. -/
theorem validMovesFrom_length_le (w : World) (p : Int × Int) :
    (w.validMovesFrom p).length ≤ 12 := by
  rw [World.validMovesFrom]
  by_cases hc : ¬ (w.isConnected (some p) = true)
  · rw [if_pos hc]
    exact Nat.zero_le _
  · rw [if_neg hc]
    calc (allMoveDirections.filterMap _).length ≤ allMoveDirections.length :=
          List.length_filterMap_le _ _
      _ = 12 := rfl

/-- Indexing into a singleton list. -/
theorem get?_singleton {α : Type} {x e : α} {i : Nat}
    (h : ([x] : List α).get? i = some e) : i = 0 ∧ e = x := by
  cases i with
  | zero => exact ⟨rfl, (Option.some.inj h).symm⟩
  | succ j => simp at h

/-- In-bounds indexing yields a value. -/
theorem get?_isSome_of_lt {α : Type} {l : List α} {i : Nat}
    (h : i < l.length) : ∃ x, l.get? i = some x := by
  cases hq : l.get? i with
  | none =>
    rw [List.get?_eq_none] at hq
    omega
  | some x => exact ⟨x, rfl⟩

/-- When the BFS pops the only queue entry, every reachable cell lies in any
key set that contains the recorded keys, the popped key, and (in the
recording case) the targets of the popped key's moves. -/
theorem emptyDone_step {w1 : World} {src : Int × Int} {seen : SeenMap}
    {sL : List Nat} {c : Int × Int} {m : Option Move} {f : Nat}
    (hP : PathInv w1 src seen sL)
    (hQ : QueueInv w1 src seen sL [(c, m)] [f])
    (S2 : List (Int × Int))
    (hS1 : ∀ x, x ∈ seen.map (fun e => e.1) → x ∈ S2)
    (hSc : ∀ x, x ∈ S2 → x ∈ seen.map (fun e => e.1) ∨ x = c)
    (hc : c ∈ S2)
    (hmoves : ∀ mv, mv ∈ w1.validMovesFrom c → mv.targetPosition ∈ S2) :
    ∀ n cc, reachN w1 src n cc → cc ∈ S2 := by
  intro n
  induction n with
  | zero =>
    intro cc hr
    rw [reachN] at hr
    subst hr
    rcases hQ.q5 f rfl cc 0 rfl (Nat.zero_le f) with h |
        ⟨i, e, lab, hgi, _, hkey, _⟩
    · exact hS1 _ h
    · obtain ⟨_, he⟩ := get?_singleton hgi
      rw [← hkey, he]
      exact hc
  | succ k ih =>
    intro cc hr
    rw [reachN] at hr
    obtain ⟨b, hb, mv, hmv, htgt⟩ := hr
    have hbS := ih b hb
    rcases hSc b hbS with hbseen | hbc
    · obtain ⟨eb, hebmem, hebkey⟩ := List.mem_map.mp hbseen
      obtain ⟨i, hgi⟩ := List.mem_iff_get?.mp hebmem
      obtain ⟨hlt, _⟩ := List.get?_eq_some.mp hgi
      obtain ⟨lab, hgl⟩ := get?_isSome_of_lt (l := sL)
        (by rw [hP.len]; exact hlt)
      have hq6 := hQ.q6 i eb lab hgi hgl mv (by rw [hebkey]; exact hmv)
      rcases hq6 with h | ⟨kk, ep, labp, hgk, _, hkeyp, _⟩
      · rw [htgt] at h
        exact hS1 _ h
      · obtain ⟨_, hep⟩ := get?_singleton hgk
        rw [← htgt, ← hkeyp, hep]
        exact hc
    · rw [← htgt]
      exact hmoves mv (hbc ▸ hmv)

/-- Popping an already-recorded entry preserves the queue invariant. -/
theorem bfs_step_drop {w1 : World} {src : Int × Int} {seen : SeenMap}
    {sL : List Nat} {c : Int × Int} {m : Option Move}
    {rest : List ((Int × Int) × Option Move)} {f : Nat} {qLrest : List Nat}
    (hP : PathInv w1 src seen sL)
    (hQ : QueueInv w1 src seen sL ((c, m) :: rest) (f :: qLrest))
    (hseenc : (seenLookup seen c).isSome = true) :
    QueueInv w1 src seen sL rest qLrest := by
  obtain ⟨e0, he0, hkey0⟩ := seenLookup_isSome hseenc
  have hckey : c ∈ seen.map (fun e => e.1) :=
    List.mem_map.mpr ⟨e0, he0, hkey0⟩
  obtain ⟨a, b, hnorm⟩ := sorted_norm hQ.sorted rfl
  have hrest : qLrest = List.replicate a f ++ List.replicate b (f + 1) := by
    have h1 := hnorm
    rw [List.replicate_succ, List.cons_append] at h1
    exact (List.cons_eq_cons.mp h1).2
  have hq4new : ∀ f2, qLrest.head? = some f2 → ∀ c2 n,
      reachN w1 src n c2 → n < f2 → c2 ∈ seen.map (fun e => e.1) := by
    intro f2 hf2 c2 n hr hlt
    rw [hrest, ← List.get?_zero, repl2_get?] at hf2
    by_cases ha : 0 < a
    · rw [if_pos ha] at hf2
      have hf2e : f2 = f := (Option.some.inj hf2).symm
      exact hQ.q4 f rfl c2 n hr (by omega)
    · rw [if_neg ha] at hf2
      by_cases hb : 0 < a + b
      · rw [if_pos hb] at hf2
        have hf2e : f2 = f + 1 := (Option.some.inj hf2).symm
        by_cases hnf : n < f
        · exact hQ.q4 f rfl c2 n hr hnf
        · rcases hQ.q5 f rfl c2 n hr (by omega) with h |
              ⟨i, e, lab, hgi, hgl, hkey, hlab⟩
          · exact h
          · cases i with
            | zero =>
              have he : e = (c, m) := (Option.some.inj hgi).symm
              rw [← hkey, he]
              exact hckey
            | succ j =>
              exfalso
              have hlj : qLrest.get? j = some lab := hgl
              rw [hrest, repl2_get?] at hlj
              rw [if_neg (by omega)] at hlj
              by_cases hjb : j < a + b
              · rw [if_pos hjb] at hlj
                have : lab = f + 1 := (Option.some.inj hlj).symm
                omega
              · rw [if_neg hjb] at hlj
                cases hlj
      · rw [if_neg hb] at hf2
        cases hf2
  refine ⟨?_, ?_, ?_, ?_, ?_, ?_, ?_, ?_⟩
  · have := hQ.len
    simpa using this
  · intro i e lab hgi hgl
    exact hQ.entries (i + 1) e lab hgi hgl
  · intro i e lab hgi hgl
    exact hQ.reach (i + 1) e lab hgi hgl
  · exact ⟨a, b, f, hrest⟩
  · exact hq4new
  · intro f2 hf2 c2 n hr hle
    have hf2' := hf2
    rw [hrest, ← List.get?_zero, repl2_get?] at hf2'
    by_cases ha : 0 < a
    · rw [if_pos ha] at hf2'
      have hf2e : f2 = f := (Option.some.inj hf2').symm
      rcases hQ.q5 f rfl c2 n hr (by omega) with h |
          ⟨i, e, lab, hgi, hgl, hkey, hlab⟩
      · exact Or.inl h
      · cases i with
        | zero =>
          left
          have he : e = (c, m) := (Option.some.inj hgi).symm
          rw [← hkey, he]
          exact hckey
        | succ j =>
          exact Or.inr ⟨j, e, lab, hgi, hgl, hkey, hlab⟩
    · rw [if_neg ha] at hf2'
      by_cases hb : 0 < a + b
      · rw [if_pos hb] at hf2'
        have hf2e : f2 = f + 1 := (Option.some.inj hf2').symm
        by_cases hnf : n ≤ f
        · exact Or.inl (hq4new f2 hf2 c2 n hr (by omega))
        · have hn : n = f + 1 := by omega
          rw [hn, reachN] at hr
          obtain ⟨b2, hb2, mv, hmv, htgt⟩ := hr
          have hb2seen : b2 ∈ seen.map (fun e => e.1) :=
            hq4new f2 hf2 b2 f hb2 (by omega)
          obtain ⟨eb, hebmem, hebkey⟩ := List.mem_map.mp hb2seen
          obtain ⟨i2, hgi2⟩ := List.mem_iff_get?.mp hebmem
          obtain ⟨hlt2, _⟩ := List.get?_eq_some.mp hgi2
          obtain ⟨labb, hgl2⟩ := get?_isSome_of_lt (l := sL)
            (by rw [hP.len]; exact hlt2)
          have hminb : labb ≤ f := hP.minimal i2 eb labb hgi2 hgl2 f
            (by rw [hebkey]; exact hb2)
          rcases hQ.q6 i2 eb labb hgi2 hgl2 mv (by rw [hebkey]; exact hmv)
            with h | ⟨kk, ep, labp, hgk, hglk, hkeyp, hlabp⟩
          · left
            rw [← htgt]
            exact h
          · cases kk with
            | zero =>
              left
              have hep : ep = (c, m) := (Option.some.inj hgk).symm
              rw [← htgt, ← hkeyp, hep]
              exact hckey
            | succ j =>
              right
              exact ⟨j, ep, labp, hgk, hglk, by rw [hkeyp, htgt],
                by omega⟩
      · rw [if_neg hb] at hf2'
        cases hf2'
  · intro i e1 lab1 hgi hgl mv hmv
    rcases hQ.q6 i e1 lab1 hgi hgl mv hmv with h |
        ⟨kk, ep, labp, hgk, hglk, hkeyp, hlabp⟩
    · exact Or.inl h
    · cases kk with
      | zero =>
        left
        have hep : ep = (c, m) := (Option.some.inj hgk).symm
        rw [← hkeyp, hep]
        exact hckey
      | succ j => exact Or.inr ⟨j, ep, labp, hgk, hglk, hkeyp, hlabp⟩
  · intro hrnil c2 n hr
    subst hrnil
    have hql : qLrest = [] := by
      have := hQ.len
      simp at this
      exact this
    subst hql
    refine emptyDone_step hP hQ (seen.map (fun e => e.1)) (fun x hx => hx)
      (fun x hx => Or.inl hx) hckey ?_ n c2 hr
    intro mv2 hmv2
    obtain ⟨i0, hgi0⟩ := List.mem_iff_get?.mp he0
    obtain ⟨hlt0, _⟩ := List.get?_eq_some.mp hgi0
    obtain ⟨lab0, hgl0⟩ := get?_isSome_of_lt (l := sL)
      (by rw [hP.len]; exact hlt0)
    rcases hQ.q6 i0 e0 lab0 hgi0 hgl0 mv2 (by rw [hkey0]; exact hmv2)
      with h | ⟨kk, ep, labp, hgk, _, hkeyp, _⟩
    · exact h
    · obtain ⟨_, hep⟩ := get?_singleton hgk
      rw [← hkeyp, hep]
      exact hckey

/-- Splitting an index into a one-longer list. -/
theorem get?_concat_cases {α : Type} {l : List α} {x e : α} {i : Nat}
    (h : (l ++ [x]).get? i = some e) :
    (i < l.length ∧ l.get? i = some e) ∨ (i = l.length ∧ e = x) := by
  by_cases hi : i < l.length
  · rw [List.get?_append hi] at h
    exact Or.inl ⟨hi, h⟩
  · rw [List.get?_append_right (by omega)] at h
    obtain ⟨h0, he⟩ := get?_singleton h
    exact Or.inr ⟨by omega, he⟩

/-- Recording the unseen front entry of the queue preserves both BFS
invariants: the entry joins the recorded list at the front label, and every
move out of it is queued one level deeper. -/
theorem bfs_step_record {w1 : World} {src : Int × Int} {seen : SeenMap}
    {sL : List Nat} {c : Int × Int} {m : Option Move}
    {rest : List ((Int × Int) × Option Move)} {f : Nat} {qLrest : List Nat}
    (hsrcfree : w1.hasCube src = false)
    (hP : PathInv w1 src seen sL)
    (hQ : QueueInv w1 src seen sL ((c, m) :: rest) (f :: qLrest))
    (hunseen : seenLookup seen c = none) :
    PathInv w1 src (seen ++ [(c, m)]) (sL ++ [f]) ∧
    QueueInv w1 src (seen ++ [(c, m)]) (sL ++ [f])
      (rest ++ (w1.validMovesFrom c).map (fun mv => (mv.targetPosition, some mv)))
      (qLrest ++ List.replicate (w1.validMovesFrom c).length (f + 1)) := by
  have hnotin := seenLookup_none_iff.mp hunseen
  have hcnotkey : c ∉ seen.map (fun e => e.1) := by
    intro hmem
    obtain ⟨e, he, hkey⟩ := List.mem_map.mp hmem
    exact hnotin e he hkey
  obtain ⟨a, b, hnorm⟩ := sorted_norm hQ.sorted rfl
  have hrest : qLrest = List.replicate a f ++ List.replicate b (f + 1) := by
    have h1 := hnorm
    rw [List.replicate_succ, List.cons_append] at h1
    exact (List.cons_eq_cons.mp h1).2
  have hqlen : qLrest.length = rest.length := by
    have := hQ.len
    simpa using this
  have hfront := hQ.entries 0 (c, m) f rfl rfl
  have hreachf : reachN w1 src f c := hQ.reach 0 (c, m) f rfl rfl
  have hminf : ∀ n, reachN w1 src n c → f ≤ n := by
    intro n hr
    by_contra hlt
    exact absurd (hQ.q4 f rfl c n hr (by omega)) hcnotkey
  have hcfree : w1.hasCube c = false := by
    cases hm : m with
    | none =>
      obtain ⟨hsrc2, _⟩ := hfront.1 hm
      have hsrc3 : c = src := hsrc2
      rw [hsrc3]
      exact hsrcfree
    | some mv =>
      obtain ⟨hmvmem, htgt, _⟩ := hfront.2 mv hm
      have := ivc_target_free (mem_validMovesFrom.mp hmvmem).2.1
      rw [htgt] at this
      exact this
  have hcbound : c = src ∨ ∃ q, w1.hasCube q = true ∧ isAdj c q := by
    cases hm : m with
    | none =>
      obtain ⟨hsrc2, _⟩ := hfront.1 hm
      exact Or.inl hsrc2
    | some mv =>
      obtain ⟨hmvmem, htgt, _⟩ := hfront.2 mv hm
      obtain ⟨s, hs, _, hadj⟩ := ivc_support (mem_validMovesFrom.mp hmvmem).2.1
      rw [htgt] at hadj
      exact Or.inr ⟨s, hs, hadj⟩
  have hsg : ∀ {i : Nat} {e : (Int × Int) × Option Move},
      seen.get? i = some e → (seen ++ [(c, m)]).get? i = some e := by
    intro i e h
    obtain ⟨hlt, _⟩ := List.get?_eq_some.mp h
    rw [List.get?_append hlt]
    exact h
  have hlg : ∀ {i : Nat} {lab : Nat},
      sL.get? i = some lab → (sL ++ [f]).get? i = some lab := by
    intro i lab h
    obtain ⟨hlt, _⟩ := List.get?_eq_some.mp h
    rw [List.get?_append hlt]
    exact h
  have hsg2 : (seen ++ [(c, m)]).get? seen.length = some (c, m) :=
    List.get?_concat_length _ _
  have hlg2 : (sL ++ [f]).get? seen.length = some f := by
    rw [← hP.len]
    exact List.get?_concat_length _ _
  have hkeys2 : (seen ++ [(c, m)]).map (fun e => e.1)
      = seen.map (fun e => e.1) ++ [c] := by
    rw [List.map_append]
    rfl
  have hckey2 : c ∈ (seen ++ [(c, m)]).map (fun e => e.1) := by
    rw [hkeys2]
    exact List.mem_append.mpr (Or.inr (List.mem_singleton.mpr rfl))
  have hqL2 : qLrest ++ List.replicate (w1.validMovesFrom c).length (f + 1)
      = List.replicate a f ++
        List.replicate (b + (w1.validMovesFrom c).length) (f + 1) := by
    rw [hrest, List.append_assoc, List.append_replicate_replicate]
  have hqcases : ∀ {i : Nat} {e : (Int × Int) × Option Move},
      (rest ++ (w1.validMovesFrom c).map
        (fun mv => (mv.targetPosition, some mv))).get? i = some e →
      (i < rest.length ∧ rest.get? i = some e) ∨
      (∃ j, i = rest.length + j ∧
        ((w1.validMovesFrom c).map
          (fun mv => (mv.targetPosition, some mv))).get? j = some e) := by
    intro i e h
    by_cases hi : i < rest.length
    · rw [List.get?_append hi] at h
      exact Or.inl ⟨hi, h⟩
    · rw [List.get?_append_right (by omega)] at h
      exact Or.inr ⟨i - rest.length, by omega, h⟩
  have hlcases : ∀ {i lab : Nat},
      (qLrest ++ List.replicate (w1.validMovesFrom c).length (f + 1)).get? i
        = some lab →
      (i < rest.length ∧ qLrest.get? i = some lab) ∨
      (rest.length ≤ i ∧ i < rest.length + (w1.validMovesFrom c).length ∧
        lab = f + 1) := by
    intro i lab h
    by_cases hi : i < rest.length
    · rw [List.get?_append (by rw [hqlen]; exact hi)] at h
      exact Or.inl ⟨hi, h⟩
    · rw [List.get?_append_right (by rw [hqlen]; omega), hqlen, repl_get?] at h
      by_cases hj : i - rest.length < (w1.validMovesFrom c).length
      · rw [if_pos hj] at h
        exact Or.inr ⟨by omega, by omega, (Option.some.inj h).symm⟩
      · rw [if_neg hj] at h
        cases h
  have hpushget : ∀ {j : Nat} {e : (Int × Int) × Option Move},
      ((w1.validMovesFrom c).map
        (fun mv => (mv.targetPosition, some mv))).get? j = some e →
      ∃ mv, (w1.validMovesFrom c).get? j = some mv ∧
        e = (mv.targetPosition, some mv) := by
    intro j e h
    rw [List.get?_map] at h
    cases hm2 : (w1.validMovesFrom c).get? j with
    | none =>
      rw [hm2] at h
      cases h
    | some mv =>
      rw [hm2] at h
      exact ⟨mv, rfl, (Option.some.inj h).symm⟩
  have hpushentry : ∀ {mv : Move}, mv ∈ w1.validMovesFrom c →
      ∃ k, (rest ++ (w1.validMovesFrom c).map
          (fun mv => (mv.targetPosition, some mv))).get? k
          = some (mv.targetPosition, some mv) ∧
        (qLrest ++ List.replicate (w1.validMovesFrom c).length (f + 1)).get? k
          = some (f + 1) := by
    intro mv hmv
    obtain ⟨j, hj⟩ := List.mem_iff_get?.mp hmv
    have hjlt : j < (w1.validMovesFrom c).length := (List.get?_eq_some.mp hj).1
    refine ⟨rest.length + j, ?_, ?_⟩
    · rw [List.get?_append_right (by omega)]
      have hje : rest.length + j - rest.length = j := by omega
      rw [hje, List.get?_map, hj]
      rfl
    · rw [List.get?_append_right (by rw [hqlen]; omega), hqlen]
      have hje : rest.length + j - rest.length = j := by omega
      rw [hje, repl_get?, if_pos hjlt]
  have hq4new : ∀ f2,
      (qLrest ++ List.replicate (w1.validMovesFrom c).length (f + 1)).head?
        = some f2 →
      ∀ c2 n, reachN w1 src n c2 → n < f2 →
        c2 ∈ (seen ++ [(c, m)]).map (fun e => e.1) := by
    intro f2 hf2 c2 n hr hlt
    rw [hqL2, ← List.get?_zero, repl2_get?] at hf2
    rw [hkeys2]
    by_cases ha : 0 < a
    · rw [if_pos ha] at hf2
      have hf2e : f2 = f := (Option.some.inj hf2).symm
      exact List.mem_append.mpr (Or.inl (hQ.q4 f rfl c2 n hr (by omega)))
    · rw [if_neg ha] at hf2
      by_cases hb : 0 < a + (b + (w1.validMovesFrom c).length)
      · rw [if_pos hb] at hf2
        have hf2e : f2 = f + 1 := (Option.some.inj hf2).symm
        by_cases hnf : n < f
        · exact List.mem_append.mpr (Or.inl (hQ.q4 f rfl c2 n hr hnf))
        · rcases hQ.q5 f rfl c2 n hr (by omega) with h |
              ⟨i, e, lab, hgi, hgl, hkey, hlab⟩
          · exact List.mem_append.mpr (Or.inl h)
          · cases i with
            | zero =>
              have he : e = (c, m) := (Option.some.inj hgi).symm
              refine List.mem_append.mpr (Or.inr ?_)
              rw [List.mem_singleton, ← hkey, he]
            | succ j =>
              exfalso
              have hlj : qLrest.get? j = some lab := hgl
              rw [hrest, repl2_get?] at hlj
              rw [if_neg (by omega)] at hlj
              by_cases hjb : j < a + b
              · rw [if_pos hjb] at hlj
                have : lab = f + 1 := (Option.some.inj hlj).symm
                omega
              · rw [if_neg hjb] at hlj
                cases hlj
      · rw [if_neg hb] at hf2
        cases hf2
  constructor
  · -- PathInv for the extended recorded list
    refine ⟨?_, ?_, ?_, ?_, ?_, ?_, ?_⟩
    · simp only [List.length_append, List.length_singleton, hP.len]
    · rw [hkeys2, List.nodup_append]
      refine ⟨hP.keysNodup, by simp, ?_⟩
      intro x hx hxc
      rw [List.mem_singleton] at hxc
      rw [hxc] at hx
      exact hcnotkey hx
    · intro e he
      rcases List.mem_append.mp he with h | h
      · exact hP.keysFree e h
      · rw [List.mem_singleton] at h
        rw [h]
        exact hcfree
    · intro e he
      rcases List.mem_append.mp he with h | h
      · exact hP.keysBound e h
      · rw [List.mem_singleton] at h
        rw [h]
        exact hcbound
    · intro i e lab hgi hgl
      rcases get?_concat_cases hgi with ⟨hilt, hgi'⟩ | ⟨hieq, hee⟩
      · rcases get?_concat_cases hgl with ⟨hlt2, hgl'⟩ | ⟨hieq2, _⟩
        · have hold := hP.entries i e lab hgi' hgl'
          refine ⟨hold.1, ?_⟩
          intro mv hmv
          obtain ⟨h1, h2, j2, ep, labp, hj2, hg1, hg2, h3, h4⟩ :=
            hold.2 mv hmv
          exact ⟨h1, h2, j2, ep, labp, hj2, hsg hg1, hlg hg2, h3, h4⟩
        · rw [hP.len] at hieq2
          omega
      · rcases get?_concat_cases hgl with ⟨hlt2, _⟩ | ⟨_, hlab⟩
        · rw [hP.len] at hlt2
          omega
        · subst hee
          subst hlab
          constructor
          · intro hm
            obtain ⟨h1, h2⟩ := hfront.1 hm
            exact ⟨h1, h2⟩
          · intro mv hmv
            obtain ⟨h1, h2, j2, ep, labp, hg1, hg2, h3, h4⟩ :=
              hfront.2 mv hmv
            have hj2lt : j2 < seen.length := (List.get?_eq_some.mp hg1).1
            exact ⟨h1, h2, j2, ep, labp, by omega, hsg hg1, hlg hg2, h3, h4⟩
    · intro i e lab hgi hgl
      rcases get?_concat_cases hgi with ⟨hilt, hgi'⟩ | ⟨hieq, hee⟩
      · rcases get?_concat_cases hgl with ⟨hlt2, hgl'⟩ | ⟨hieq2, _⟩
        · exact hP.reach i e lab hgi' hgl'
        · rw [hP.len] at hieq2
          omega
      · rcases get?_concat_cases hgl with ⟨hlt2, _⟩ | ⟨_, hlab⟩
        · rw [hP.len] at hlt2
          omega
        · subst hee
          subst hlab
          exact hreachf
    · intro i e lab hgi hgl
      rcases get?_concat_cases hgi with ⟨hilt, hgi'⟩ | ⟨hieq, hee⟩
      · rcases get?_concat_cases hgl with ⟨hlt2, hgl'⟩ | ⟨hieq2, _⟩
        · exact hP.minimal i e lab hgi' hgl'
        · rw [hP.len] at hieq2
          omega
      · rcases get?_concat_cases hgl with ⟨hlt2, _⟩ | ⟨_, hlab⟩
        · rw [hP.len] at hlt2
          omega
        · subst hee
          subst hlab
          exact hminf
  · -- QueueInv for the extended queue
    refine ⟨?_, ?_, ?_, ?_, ?_, ?_, ?_, ?_⟩
    · simp only [List.length_append, List.length_replicate, List.length_map,
        hqlen]
    · intro i e lab hgi hgl
      rcases hqcases hgi with ⟨hilt, hgi'⟩ | ⟨j, hieq, hgp⟩
      · rcases hlcases hgl with ⟨_, hgl'⟩ | ⟨hge, _, _⟩
        · have hold := hQ.entries (i + 1) e lab hgi' hgl'
          refine ⟨hold.1, ?_⟩
          intro mv hmv
          obtain ⟨h1, h2, j2, ep, labp, hg1, hg2, h3, h4⟩ := hold.2 mv hmv
          exact ⟨h1, h2, j2, ep, labp, hsg hg1, hlg hg2, h3, h4⟩
        · omega
      · obtain ⟨mv, hmvget, he⟩ := hpushget hgp
        have hmvmem : mv ∈ w1.validMovesFrom c :=
          List.mem_iff_get?.mpr ⟨j, hmvget⟩
        rcases hlcases hgl with ⟨hlt2, _⟩ | ⟨_, _, hlab⟩
        · omega
        · subst he
          constructor
          · intro hn
            cases hn
          · intro mv2 hmv2
            have hmm : mv = mv2 := Option.some.inj hmv2
            subst hmm
            have hpos := (mem_validMovesFrom.mp hmvmem).1
            refine ⟨?_, rfl, seen.length, (c, m), f, hsg2, hlg2, ?_, by omega⟩
            · rw [Move.sourcePosition, hpos]
              exact hmvmem
            · rw [Move.sourcePosition, hpos]
    · intro i e lab hgi hgl
      rcases hqcases hgi with ⟨hilt, hgi'⟩ | ⟨j, hieq, hgp⟩
      · rcases hlcases hgl with ⟨_, hgl'⟩ | ⟨hge, _, _⟩
        · exact hQ.reach (i + 1) e lab hgi' hgl'
        · omega
      · obtain ⟨mv, hmvget, he⟩ := hpushget hgp
        rcases hlcases hgl with ⟨hlt2, _⟩ | ⟨_, _, hlab⟩
        · omega
        · subst he
          subst hlab
          show reachN w1 src (f + 1) mv.targetPosition
          exact ⟨c, hreachf, mv, List.mem_iff_get?.mpr ⟨j, hmvget⟩, rfl⟩
    · exact ⟨a, b + (w1.validMovesFrom c).length, f, hqL2⟩
    · exact hq4new
    · intro f2 hf2 c2 n hr hle
      have hf2' := hf2
      rw [hqL2, ← List.get?_zero, repl2_get?] at hf2'
      by_cases ha : 0 < a
      · rw [if_pos ha] at hf2'
        have hf2e : f2 = f := (Option.some.inj hf2').symm
        rcases hQ.q5 f rfl c2 n hr (by omega) with h |
            ⟨i, e, lab, hgi, hgl, hkey, hlab⟩
        · left
          rw [hkeys2]
          exact List.mem_append.mpr (Or.inl h)
        · cases i with
          | zero =>
            left
            have he : e = (c, m) := (Option.some.inj hgi).symm
            rw [hkeys2]
            refine List.mem_append.mpr (Or.inr ?_)
            rw [List.mem_singleton, ← hkey, he]
          | succ j =>
            right
            have hjlt : j < rest.length := by
              have := (List.get?_eq_some.mp hgi).1
              simpa using this
            refine ⟨j, e, lab, ?_, ?_, hkey, hlab⟩
            · rw [List.get?_append hjlt]
              exact hgi
            · rw [List.get?_append (by rw [hqlen]; exact hjlt)]
              exact hgl
      · rw [if_neg ha] at hf2'
        by_cases hb : 0 < a + (b + (w1.validMovesFrom c).length)
        · rw [if_pos hb] at hf2'
          have hf2e : f2 = f + 1 := (Option.some.inj hf2').symm
          by_cases hnf : n ≤ f
          · exact Or.inl (hq4new f2 hf2 c2 n hr (by omega))
          · have hn : n = f + 1 := by omega
            rw [hn, reachN] at hr
            obtain ⟨b2, hb2, mv, hmv, htgt⟩ := hr
            have hb2seen := hq4new f2 hf2 b2 f hb2 (by omega)
            rw [hkeys2] at hb2seen
            rcases List.mem_append.mp hb2seen with hb2old | hb2c
            · obtain ⟨eb, hebmem, hebkey⟩ := List.mem_map.mp hb2old
              obtain ⟨i2, hgi2⟩ := List.mem_iff_get?.mp hebmem
              obtain ⟨hlt2, _⟩ := List.get?_eq_some.mp hgi2
              obtain ⟨labb, hgl2⟩ := get?_isSome_of_lt (l := sL)
                (by rw [hP.len]; exact hlt2)
              have hminb : labb ≤ f := hP.minimal i2 eb labb hgi2 hgl2 f
                (by rw [hebkey]; exact hb2)
              rcases hQ.q6 i2 eb labb hgi2 hgl2 mv
                  (by rw [hebkey]; exact hmv) with h |
                  ⟨kk, ep, labp, hgk, hglk, hkeyp, hlabp⟩
              · left
                rw [hkeys2, ← htgt]
                exact List.mem_append.mpr (Or.inl h)
              · cases kk with
                | zero =>
                  left
                  have hep : ep = (c, m) := (Option.some.inj hgk).symm
                  rw [hkeys2]
                  refine List.mem_append.mpr (Or.inr ?_)
                  rw [List.mem_singleton, ← htgt, ← hkeyp, hep]
                | succ j =>
                  right
                  have hjlt : j < rest.length := by
                    have := (List.get?_eq_some.mp hgk).1
                    simpa using this
                  refine ⟨j, ep, labp, ?_, ?_, by rw [hkeyp, htgt], by omega⟩
                  · rw [List.get?_append hjlt]
                    exact hgk
                  · rw [List.get?_append (by rw [hqlen]; exact hjlt)]
                    exact hglk
            · rw [List.mem_singleton] at hb2c
              right
              rw [hb2c] at hmv
              obtain ⟨k, hk1, hk2⟩ := hpushentry hmv
              exact ⟨k, (mv.targetPosition, some mv), f + 1, hk1, hk2, htgt,
                by omega⟩
        · rw [if_neg hb] at hf2'
          cases hf2'
    · intro i e1 lab1 hgi hgl mv hmv
      rcases get?_concat_cases hgi with ⟨hilt, hgi'⟩ | ⟨hieq, hee⟩
      · rcases get?_concat_cases hgl with ⟨hlt2, hgl'⟩ | ⟨hieq2, _⟩
        · rcases hQ.q6 i e1 lab1 hgi' hgl' mv hmv with h |
              ⟨kk, ep, labp, hgk, hglk, hkeyp, hlabp⟩
          · left
            rw [hkeys2]
            exact List.mem_append.mpr (Or.inl h)
          · cases kk with
            | zero =>
              left
              have hep : ep = (c, m) := (Option.some.inj hgk).symm
              rw [hkeys2]
              refine List.mem_append.mpr (Or.inr ?_)
              rw [List.mem_singleton, ← hkeyp, hep]
            | succ j =>
              right
              have hjlt : j < rest.length := by
                have := (List.get?_eq_some.mp hgk).1
                simpa using this
              refine ⟨j, ep, labp, ?_, ?_, hkeyp, hlabp⟩
              · rw [List.get?_append hjlt]
                exact hgk
              · rw [List.get?_append (by rw [hqlen]; exact hjlt)]
                exact hglk
        · rw [hP.len] at hieq2
          omega
      · rcases get?_concat_cases hgl with ⟨hlt2, _⟩ | ⟨_, hlab1⟩
        · rw [hP.len] at hlt2
          omega
        · subst hee
          right
          obtain ⟨k, hk1, hk2⟩ := hpushentry hmv
          exact ⟨k, (mv.targetPosition, some mv), f + 1, hk1, hk2, rfl,
            by omega⟩
    · intro hq2nil c2 n hr
      obtain ⟨hrnil, hpnil'⟩ := List.append_eq_nil.mp hq2nil
      have hpnil : w1.validMovesFrom c = [] := List.map_eq_nil.mp hpnil'
      subst hrnil
      have hql : qLrest = [] := by
        have := hQ.len
        simp at this
        exact this
      subst hql
      refine emptyDone_step hP hQ ((seen ++ [(c, m)]).map (fun e => e.1))
        ?_ ?_ hckey2 ?_ n c2 hr
      · intro x hx
        rw [hkeys2]
        exact List.mem_append.mpr (Or.inl hx)
      · intro x hx
        rw [hkeys2] at hx
        rcases List.mem_append.mp hx with h | h
        · exact Or.inl h
        · exact Or.inr (List.mem_singleton.mp h)
      · intro mv2 hmv2
        rw [hpnil] at hmv2
        simp at hmv2

/-- Full characterization of the move-path BFS: from an invariant state
with sufficient fuel it produces a recorded list satisfying the path
invariant, and either records every reachable cell or records the target. -/
theorem movePathBfs_spec (w1 : World) (src dst : Int × Int)
    (hsrcfree : w1.hasCube src = false) :
    ∀ (fuel : Nat) (seen : SeenMap) (sL : List Nat)
      (queue : List ((Int × Int) × Option Move)) (qL : List Nat),
      PathInv w1 src seen sL →
      QueueInv w1 src seen sL queue qL →
      queue.length + 13 * (4 * w1.cubes.length + 1 - seen.length) + 1 ≤ fuel →
      ∃ sF, PathInv w1 src (movePathBfs w1 dst fuel seen queue) sF ∧
        ((∀ c2 n, reachN w1 src n c2 →
            c2 ∈ (movePathBfs w1 dst fuel seen queue).map (fun e => e.1)) ∨
          dst ∈ (movePathBfs w1 dst fuel seen queue).map (fun e => e.1))
  | 0, seen, sL, queue, qL => by
    intro hP hQ hfuel
    exact absurd hfuel (by omega)
  | fuel + 1, seen, sL, [], qL => by
    intro hP hQ hfuel
    rw [movePathBfs]
    exact ⟨sL, hP, Or.inl (hQ.emptyDone rfl)⟩
  | fuel + 1, seen, sL, (c, m) :: rest, qL => by
    intro hP hQ hfuel
    cases qL with
    | nil =>
      exfalso
      have := hQ.len
      simp at this
    | cons f qLrest =>
      simp only [movePathBfs]
      by_cases hl : (seenLookup seen c).isSome = true
      · rw [if_pos hl]
        refine movePathBfs_spec w1 src dst hsrcfree fuel seen sL rest qLrest
          hP (bfs_step_drop hP hQ hl) ?_
        simp only [List.length_cons] at hfuel
        omega
      · rw [if_neg hl]
        have hunseen : seenLookup seen c = none :=
          Option.not_isSome_iff_eq_none.mp hl
        obtain ⟨hP', hQ'⟩ := bfs_step_record hsrcfree hP hQ hunseen
        by_cases hcd : c = dst
        · rw [if_pos hcd]
          refine ⟨sL ++ [f], hP', Or.inr ?_⟩
          rw [List.map_append]
          refine List.mem_append.mpr (Or.inr ?_)
          rw [← hcd]
          simp
        · rw [if_neg hcd]
          have hs1 : (seen ++ [(c, m)]).length ≤ 4 * w1.cubes.length + 1 :=
            seenKeys_length_le w1 src _ hP'.keysNodup hP'.keysBound
          have hp12 : (w1.validMovesFrom c).length ≤ 12 :=
            validMovesFrom_length_le w1 c
          refine movePathBfs_spec w1 src dst hsrcfree fuel (seen ++ [(c, m)])
            (sL ++ [f]) _ _ hP' hQ' ?_
          simp only [List.length_append, List.length_map,
            List.length_singleton, List.length_cons] at hs1 hfuel ⊢
          omega

/-- A recorded entry's label never exceeds its index. -/
theorem pathInv_label_le_index {w1 : World} {src : Int × Int} {seen : SeenMap}
    {sL : List Nat} (hP : PathInv w1 src seen sL) :
    ∀ i e lab, seen.get? i = some e → sL.get? i = some lab → lab ≤ i := by
  intro i
  induction i using Nat.strong_induction_on with
  | _ i ih =>
    intro e lab hgi hgl
    cases hm : e.2 with
    | none =>
      have := (hP.entries i e lab hgi hgl).1 hm
      omega
    | some mv =>
      obtain ⟨_, _, j, ep, labp, hjlt, hgj, hglj, _, hlabp⟩ :=
        (hP.entries i e lab hgi hgl).2 mv hm
      have := ih j hjlt ep labp hgj hglj
      omega

/-- Path reconstruction: following the recorded parent moves from a
recorded cell yields a chain of moves from the source to that cell whose
length is the cell's label, each move valid in the scaffold and leaving an
unoccupied cell. -/
theorem reconstructPath_spec {w1 : World} {src : Int × Int} {seen : SeenMap}
    {sL : List Nat} (hP : PathInv w1 src seen sL) :
    ∀ lab i e, seen.get? i = some e → sL.get? i = some lab →
      ∀ fuel path, lab < fuel →
        ∃ moves, reconstructPath seen src fuel e.1 path = moves ++ path ∧
          moves.length = lab ∧ movesChain src e.1 moves ∧
          (∀ mv ∈ moves, mv ∈ w1.validMovesFrom mv.sourcePosition ∧
            w1.hasCube mv.sourcePosition = false) := by
  intro lab
  induction lab using Nat.strong_induction_on with
  | _ lab ih =>
    intro i e hgi hgl fuel path hflt
    cases fuel with
    | zero => omega
    | succ fuel =>
      rw [reconstructPath]
      by_cases hsrc : e.1 = src
      · rw [if_pos hsrc]
        have hlab0 : lab = 0 :=
          Nat.le_zero.mp (hP.minimal i e lab hgi hgl 0 hsrc)
        refine ⟨[], rfl, by rw [hlab0]; rfl, ?_, ?_⟩
        · rw [movesChain]
          exact hsrc.symm
        · intro mv hmv
          simp at hmv
      · rw [if_neg hsrc]
        have hlook : seenLookup seen e.1 = some e.2 :=
          seenLookup_nodup hP.keysNodup hgi
        cases hm : e.2 with
        | none =>
          exact absurd ((hP.entries i e lab hgi hgl).1 hm).1 hsrc
        | some mv =>
          rw [hlook, hm]
          obtain ⟨h1, h2, j, ep, labp, hjlt, hgj, hglj, hkeyp, hlabp⟩ :=
            (hP.entries i e lab hgi hgl).2 mv hm
          obtain ⟨moves2, hrec, hlen2, hchain2, hvalid2⟩ :=
            ih labp (by omega) j ep hgj hglj fuel (mv :: path) (by omega)
          refine ⟨moves2 ++ [mv], ?_, ?_, ?_, ?_⟩
          · show reconstructPath seen src fuel mv.sourcePosition (mv :: path)
              = (moves2 ++ [mv]) ++ path
            rw [← hkeyp, hrec, List.append_assoc, List.singleton_append]
          · rw [List.length_append, hlen2, List.length_singleton]
            omega
          · rw [← h2]
            exact movesChain_snoc moves2 src ep.1 mv hchain2 hkeyp.symm
          · intro mv2 hmv2
            rcases List.mem_append.mp hmv2 with h | h
            · exact hvalid2 mv2 h
            · rw [List.mem_singleton] at h
              subst h
              refine ⟨h1, ?_⟩
              have hepmem : ep ∈ seen := List.mem_iff_get?.mpr ⟨j, hgj⟩
              have := hP.keysFree ep hepmem
              rw [hkeyp] at this
              exact this

/-- The path invariant of the empty initial state. -/
theorem pathInv_init (w1 : World) (src : Int × Int) :
    PathInv w1 src [] [] := by
  refine ⟨rfl, by simp, ?_, ?_, ?_, ?_, ?_⟩ <;>
    first
      | (intro e he; simp at he)
      | (intro i e lab hgi; simp at hgi)

/-- The queue invariant of the initial state: the source is enqueued with
label zero. -/
theorem queueInv_init (w1 : World) (src : Int × Int) :
    QueueInv w1 src [] [] [(src, none)] [0] := by
  refine ⟨rfl, ?_, ?_, ⟨1, 0, 0, rfl⟩, ?_, ?_, ?_, ?_⟩
  · intro i e lab hgi hgl
    obtain ⟨_, he⟩ := get?_singleton hgi
    obtain ⟨_, hl0⟩ := get?_singleton hgl
    subst he
    subst hl0
    constructor
    · intro _
      exact ⟨rfl, rfl⟩
    · intro mv hmv
      cases hmv
  · intro i e lab hgi hgl
    obtain ⟨_, he⟩ := get?_singleton hgi
    obtain ⟨_, hl0⟩ := get?_singleton hgl
    subst he
    subst hl0
    exact rfl
  · intro f hf c2 n hr hlt
    have hf0 : f = 0 := (Option.some.inj hf).symm
    omega
  · intro f hf c2 n hr hle
    have hf0 : f = 0 := (Option.some.inj hf).symm
    have hn0 : n = 0 := by omega
    right
    rw [hn0, reachN] at hr
    exact ⟨0, (src, none), 0, rfl, rfl, hr.symm, by omega⟩
  · intro i e1 lab1 hgi
    simp at hgi
  · intro h
    cases h

/-- Claim C3: for every well-formed connected configuration with a cube at
`src` and an empty target `dst` reachable in the move graph of the scaffold
(the configuration with the mover removed), `shortestMovePath` succeeds
with a chain of moves from `src` to `dst` whose length equals the
move-graph BFS distance, each move being a valid move of the scaffold and
`isValid` in the configuration that has the mover standing on the move's
source cell. -/
theorem C3_shortestMovePath_correct (w : World) (src dst : Int × Int)
    {cube : Cube} (hwf : w.wf) (hsrc : w.getCube src = some cube)
    (hconn : w.isConnected none = true)
    (hdstfree : w.hasCube dst = false)
    (hreach : ∃ n, reachN
      (⟨w.cubes.filter (fun c => decide (c.p ≠ src))⟩ : World) src n dst) :
    ∃ path w2,
      w.shortestMovePath src dst = (.ok path, w2) ∧
      movesChain src dst path ∧
      reachN (⟨w.cubes.filter (fun c => decide (c.p ≠ src))⟩ : World) src
        path.length dst ∧
      (∀ n, reachN (⟨w.cubes.filter (fun c => decide (c.p ≠ src))⟩ : World)
        src n dst → path.length ≤ n) ∧
      (∀ mv ∈ path, mv ∈ World.validMovesFrom
        (⟨w.cubes.filter (fun c => decide (c.p ≠ src))⟩ : World)
        mv.sourcePosition) ∧
      (∀ mv ∈ path, mv.isValid
        ⟨(w.cubes.filter (fun c => decide (c.p ≠ src))) ++
          [{ cube with p := mv.sourcePosition }]⟩ = true) := by
  have hhas : w.hasCube src = true := by
    rw [World.hasCube, hsrc]
    rfl
  have hcubep : cube.p = src := (getCube_some_spec hsrc).1
  have hrem : w.removeCubeUnmarked src
      = .ok ⟨w.cubes.filter (fun c => decide (c.p ≠ src))⟩ := by
    rw [World.removeCubeUnmarked, if_neg (fun hcon => hcon hhas)]
  have hsrcfree : (⟨w.cubes.filter (fun c => decide (c.p ≠ src))⟩
      : World).hasCube src = false := hasCube_filter_self w src
  have hadd : World.addCubeUnmarked
      (⟨w.cubes.filter (fun c => decide (c.p ≠ src))⟩ : World)
      src cube.color
      = .ok (⟨(w.cubes.filter (fun c => decide (c.p ≠ src)))
            ++ [Cube.mk' src cube.color]⟩,
          Cube.mk' src cube.color) := by
    rw [World.addCubeUnmarked, if_neg]
    intro hcon
    rw [hsrcfree] at hcon
    cases hcon
  have hw1wf : (⟨w.cubes.filter (fun c => decide (c.p ≠ src))⟩ : World).wf :=
    wf_filter w hwf _
  obtain ⟨sF, hPF, hcomp⟩ := movePathBfs_spec
    (⟨w.cubes.filter (fun c => decide (c.p ≠ src))⟩ : World) src dst hsrcfree
    (13 * (4 * (List.filter (fun c => decide (c.p ≠ src)) w.cubes).length + 2))
    [] [] [(src, none)] [0] (pathInv_init _ _) (queueInv_init _ _)
    (by simp only [List.length_singleton, List.length_nil]; omega)
  set F := movePathBfs
    (⟨w.cubes.filter (fun c => decide (c.p ≠ src))⟩ : World) dst
    (13 * (4 * (List.filter (fun c => decide (c.p ≠ src)) w.cubes).length + 2))
    [] [(src, none)] with hFdef
  obtain ⟨n0, hn0⟩ := hreach
  have hdstkey : dst ∈ F.map (fun e => e.1) := by
    rcases hcomp with h | h
    · exact h dst n0 hn0
    · exact h
  obtain ⟨e, hemem, hekey⟩ := List.mem_map.mp hdstkey
  obtain ⟨i, hgi⟩ := List.mem_iff_get?.mp hemem
  obtain ⟨hilt, _⟩ := List.get?_eq_some.mp hgi
  obtain ⟨labd, hgl⟩ := get?_isSome_of_lt (l := sF)
    (by rw [hPF.len]; exact hilt)
  have hlook : seenLookup F dst = some e.2 := by
    have := seenLookup_nodup hPF.keysNodup hgi
    rw [hekey] at this
    exact this
  have hreachd : reachN
      (⟨w.cubes.filter (fun c => decide (c.p ≠ src))⟩ : World) src labd dst := by
    have := hPF.reach i e labd hgi hgl
    rw [hekey] at this
    exact this
  have hmind : ∀ n, reachN
      (⟨w.cubes.filter (fun c => decide (c.p ≠ src))⟩ : World) src n dst →
      labd ≤ n := by
    intro n hn
    exact hPF.minimal i e labd hgi hgl n (by rw [hekey]; exact hn)
  have hlabi : labd ≤ i := pathInv_label_le_index hPF i e labd hgi hgl
  obtain ⟨moves, hrec, hlen, hchain, hvalid⟩ :=
    reconstructPath_spec hPF labd i e hgi hgl (F.length + 1) [] (by omega)
  rw [hekey, List.append_nil] at hrec
  rw [hekey] at hchain
  refine ⟨moves, ⟨w.cubes.filter (fun c => decide (c.p ≠ src)) ++
    [⟨src, src, cube.color, cube.componentStatus, -1, false⟩]⟩,
    ?_, ?_, ?_, ?_, ?_, ?_⟩
  · simp only [World.shortestMovePath, hsrc, hrem, hcubep, hadd,
      List.dropLast_concat, Cube.mk']
    rw [← hFdef, hlook, hrec]
  · exact hchain
  · rw [hlen]
    exact hreachd
  · intro n hn
    rw [hlen]
    exact hmind n hn
  · intro mv hmv
    exact (hvalid mv hmv).1
  · intro mv hmv
    exact exec_isValid hw1wf (hvalid mv hmv).1 (hvalid mv hmv).2

/-- Witness for claim C3: in the two-cube world the left cube reaches the
cell diagonally above the right cube in one corner move. -/
theorem C3_shortestMovePath_correct_witness :
    pairWorld.wf ∧
    pairWorld.getCube (0, 0) = some (Cube.mk' (0, 0) Color.BLUE) ∧
    pairWorld.isConnected none = true ∧
    pairWorld.hasCube (1, 1) = false ∧
    (∃ n, reachN
      (⟨pairWorld.cubes.filter (fun c => decide (c.p ≠ (0, 0)))⟩ : World)
      (0, 0) n (1, 1)) ∧
    ∃ path w2,
      pairWorld.shortestMovePath (0, 0) (1, 1) = (.ok path, w2) ∧
      movesChain (0, 0) (1, 1) path ∧
      reachN (⟨pairWorld.cubes.filter (fun c => decide (c.p ≠ (0, 0)))⟩
        : World) (0, 0) path.length (1, 1) ∧
      (∀ n, reachN
        (⟨pairWorld.cubes.filter (fun c => decide (c.p ≠ (0, 0)))⟩ : World)
        (0, 0) n (1, 1) → path.length ≤ n) ∧
      (∀ mv ∈ path, mv ∈ World.validMovesFrom
        (⟨pairWorld.cubes.filter (fun c => decide (c.p ≠ (0, 0)))⟩ : World)
        mv.sourcePosition) ∧
      (∀ mv ∈ path, mv.isValid
        ⟨(pairWorld.cubes.filter (fun c => decide (c.p ≠ (0, 0)))) ++
          [{ Cube.mk' (0, 0) Color.BLUE with p := mv.sourcePosition }]⟩
          = true) :=
  ⟨by unfold World.wf; decide, by decide, by decide, by decide,
   ⟨1, (0, 0), rfl, Move.mk (0, 0) MoveDirection.NE, by decide, by decide⟩,
   C3_shortestMovePath_correct pairWorld (0, 0) (1, 1)
     (by unfold World.wf; decide) (by decide) (by decide) (by decide)
     ⟨1, (0, 0), rfl, Move.mk (0, 0) MoveDirection.NE, by decide, by decide⟩⟩

/-- Claim C8: for every well-formed configuration with a cube at `src`
whose target is unreachable in the move graph of the mover-free
configuration, `shortestMovePath` fails with `noMovePath`, the mover is
restored at its original cell with its original color and classification,
and the occupied-cell multiset is as before the call. -/
theorem C8_noMovePath_restores (w : World) (src dst : Int × Int) {cube : Cube}
    (hwf : w.wf) (hsrc : w.getCube src = some cube)
    (hunreach : ¬ MoveReach
      (⟨w.cubes.filter (fun c => decide (c.p ≠ src))⟩ : World) src dst) :
    ∃ rc : Cube,
      w.shortestMovePath src dst = (.error .noMovePath,
        ⟨w.cubes.filter (fun c => decide (c.p ≠ src)) ++ [rc]⟩) ∧
      rc.p = src ∧ rc.color = cube.color ∧
      rc.componentStatus = cube.componentStatus ∧
      ((w.cubes.filter (fun c => decide (c.p ≠ src)) ++ [rc]).map
          (fun c => c.p)).Perm (w.cubes.map (fun c => c.p)) := by
  have hhas : w.hasCube src = true := by
    rw [World.hasCube, hsrc]
    rfl
  have hcubep : cube.p = src := (getCube_some_spec hsrc).1
  have hrem : w.removeCubeUnmarked src
      = .ok ⟨w.cubes.filter (fun c => decide (c.p ≠ src))⟩ := by
    rw [World.removeCubeUnmarked, if_neg (fun hcon => hcon hhas)]
  have hadd : World.addCubeUnmarked
      (⟨w.cubes.filter (fun c => decide (c.p ≠ src))⟩ : World)
      src cube.color
      = .ok (⟨(w.cubes.filter (fun c => decide (c.p ≠ src)))
            ++ [Cube.mk' src cube.color]⟩,
          Cube.mk' src cube.color) := by
    rw [World.addCubeUnmarked, if_neg]
    intro hcon
    rw [hasCube_filter_self] at hcon
    cases hcon
  have hseenNone : seenLookup
      (movePathBfs ⟨w.cubes.filter (fun c => decide (c.p ≠ src))⟩ dst
        (13 * (4 * (List.filter (fun c => decide (c.p ≠ src)) w.cubes).length
          + 2)) [] [(src, none)]) dst = none := by
    cases hsl : seenLookup
        (movePathBfs ⟨w.cubes.filter (fun c => decide (c.p ≠ src))⟩ dst
          (13 * (4 * (List.filter (fun c => decide (c.p ≠ src)) w.cubes).length
            + 2)) [] [(src, none)]) dst with
    | none => rfl
    | some x =>
      exfalso
      rw [seenLookup] at hsl
      cases hfind : List.find? (fun e => decide (e.1 = dst))
          (movePathBfs ⟨w.cubes.filter (fun c => decide (c.p ≠ src))⟩ dst
            (13 * (4 * (List.filter (fun c => decide (c.p ≠ src)) w.cubes).length
              + 2)) [] [(src, none)]) with
      | none => rw [hfind] at hsl; cases hsl
      | some en =>
        have hmem := List.mem_of_find?_eq_some hfind
        have hpred := List.find?_some hfind
        have hdst : en.1 = dst := of_decide_eq_true hpred
        have hreach := movePathBfs_sound
          ⟨w.cubes.filter (fun c => decide (c.p ≠ src))⟩ dst src _ []
          [(src, none)] (by intro e' he'; simp at he')
          (by
            intro e' he'
            rw [List.mem_singleton] at he'
            rw [he']
            exact Relation.ReflTransGen.refl)
          en hmem
        rw [hdst] at hreach
        exact hunreach hreach
  refine ⟨⟨src, src, cube.color, cube.componentStatus, -1, false⟩,
    ?_, rfl, rfl, rfl, ?_⟩
  · simp only [World.shortestMovePath, hsrc, hrem, hcubep, hadd, hseenNone,
      List.dropLast_concat, Cube.mk']
  · have hmf : List.map (fun c : Cube => c.p)
        (List.filter (fun c => decide (c.p ≠ src)) w.cubes)
        = List.filter (fun x => decide (x ≠ src))
          (List.map (fun c : Cube => c.p) w.cubes) := by
      rw [List.filter_map]
      rfl
    rw [List.map_append, hmf]
    exact filter_ne_append_perm (w.cubes.map (fun c => c.p)) src
      (show (w.cubes.map (fun c => c.p)).Nodup from hwf)
      (hasCube_iff_mem.mp hhas)

/-- Witness for claim C8: a single cube cannot reach a distant cell once it
is removed, so the search fails and the cube is restored. -/
theorem C8_noMovePath_restores_witness :
    singletonWorld.wf ∧
    singletonWorld.getCube (0, 0) = some (Cube.mk' (0, 0) Color.BLUE) ∧
    (¬ MoveReach
      (⟨singletonWorld.cubes.filter (fun c => decide (c.p ≠ (0, 0)))⟩ : World)
      (0, 0) (3, 3)) ∧
    ∃ rc : Cube,
      singletonWorld.shortestMovePath (0, 0) (3, 3) = (.error .noMovePath,
        ⟨singletonWorld.cubes.filter (fun c => decide (c.p ≠ (0, 0)))
          ++ [rc]⟩) ∧
      rc.p = (0, 0) ∧ rc.color = (Cube.mk' (0, 0) Color.BLUE).color ∧
      rc.componentStatus = (Cube.mk' (0, 0) Color.BLUE).componentStatus ∧
      ((singletonWorld.cubes.filter (fun c => decide (c.p ≠ (0, 0)))
          ++ [rc]).map (fun c => c.p)).Perm
        (singletonWorld.cubes.map (fun c => c.p)) :=
  ⟨by unfold World.wf; decide, by decide,
   fun h => absurd (moveReach_empty h) (by decide),
   C8_noMovePath_restores singletonWorld (0, 0) (3, 3)
     (by unfold World.wf; decide) (by decide)
     (fun h => absurd (moveReach_empty h) (by decide))⟩

/-- Claim C7: for every non-empty connected configuration, `outsideCubes`
returns a list whose first and last elements are the downmost-leftmost cube,
and no (cell, outgoing direction) edge is traversed twice during the walk
(the consecutive cell pairs of the returned walk are pairwise distinct). -/
theorem C7_outsideCubes_cyclic (w : World)
    (hne : w.cubes ≠ []) (hconn : w.isConnected none = true) :
    ∃ dlm : Cube, w.downmostLeftmost = some dlm ∧
      (w.outsideCubes).head? = some dlm ∧
      (w.outsideCubes).getLast? = some dlm ∧
      (consecPairs (w.outsideCubes.map (fun c => c.p))).Nodup := by
  obtain ⟨dlm, hdlm⟩ := downmostLeftmost_isSome w hne
  have hdself : w.getCube dlm.p = some dlm := downmostLeftmost_self hdlm
  have hhasd : w.hasCube dlm.p = true := by
    rw [World.hasCube, hdself]
    rfl
  have hoc : w.outsideCubes
      = outsideLoop w (4 * w.cubes.length + 2) dlm.p Card.S [] [] := by
    rw [World.outsideCubes, hdlm]
  obtain ⟨E, endPos, h1, h2, h3, h4, h5, h6, h7, h8⟩ :=
    outsideLoop_spec w dlm.p (4 * w.cubes.length + 2) dlm.p Card.S [] []
      hhasd List.nodup_nil (by intro e he; simp at he) List.chain'_nil rfl rfl
      (by intro e he; simp at he) rfl (by intro c hc; simp at hc) (by omega)
  rw [List.nil_append] at h1 h3 h4 h5 h6 h7 h8
  have hend : endPos = dlm.p := by
    cases hE : E.getLast? with
    | none =>
      have hEnil : E = [] := List.getLast?_eq_none_iff.mp hE
      rw [hEnil] at h7
      exact h7
    | some elast =>
      have helastmem : elast ∈ E :=
        List.mem_of_mem_getLast? (Option.mem_def.mpr hE)
      have h7' : endPos = stepCard elast.1 elast.2 := by
        rw [h7, walkPos, hE]
      have hlastd : lastDir E = elast.2 := by
        rw [lastDir, hE]
      rcases h8 with hnone | ⟨d, hd, hdm⟩
      · exfalso
        rw [hlastd] at hnone
        have hall := nextOnOutside_none hnone (revCard elast.2)
        rw [h7', stepCard_rev] at hall
        have hv := (h4 elast helastmem).1
        rw [hall] at hv
        cases hv
      · rw [hlastd] at hd
        have hstep : walkStep w elast = some (endPos, d) := by
          rw [walkStep, ← h7', hd]
        have hhd := chain_repeat_head E elast (endPos, d) h3 h4 h5 hE hstep hdm
        exact h6 (endPos, d) hhd
  have hlen_res : (w.outsideCubes).map (fun c => c.p)
      = E.map (fun e => e.1) ++ [endPos] := by
    rw [hoc]
    exact h1
  have hne_res : w.outsideCubes ≠ [] := by
    intro hcontra
    rw [hcontra] at hlen_res
    simp at hlen_res
  have h2' : ∀ c ∈ w.outsideCubes, w.getCube c.p = some c := by
    rw [hoc]
    exact h2
  have hheadcell : (w.outsideCubes).head?.map (fun c => c.p) = some dlm.p := by
    rw [← List.head?_map, hlen_res]
    cases hEc : E with
    | nil => simp [hend]
    | cons a t =>
      have ha := h6 a (by rw [hEc, List.head?_cons])
      rw [List.map_cons, List.cons_append, List.head?_cons, ha]
  have hlastcell : (w.outsideCubes).getLast?.map (fun c => c.p)
      = some dlm.p := by
    rw [← List.getLast?_map, hlen_res, List.getLast?_concat, hend]
  have hhead_res : (w.outsideCubes).head? = some dlm := by
    cases hch : (w.outsideCubes).head? with
    | none => exact absurd (List.head?_eq_none_iff.mp hch) hne_res
    | some c =>
      rw [hch] at hheadcell
      have hcp : c.p = dlm.p := Option.some.inj hheadcell
      have hcmem : c ∈ w.outsideCubes :=
        List.mem_of_mem_head? (Option.mem_def.mpr hch)
      have hcg := h2' c hcmem
      rw [hcp, hdself] at hcg
      rw [Option.some.inj hcg]
  have hlast_res : (w.outsideCubes).getLast? = some dlm := by
    cases hcl : (w.outsideCubes).getLast? with
    | none => exact absurd (List.getLast?_eq_none_iff.mp hcl) hne_res
    | some c =>
      rw [hcl] at hlastcell
      have hcp : c.p = dlm.p := Option.some.inj hlastcell
      have hcmem : c ∈ w.outsideCubes :=
        List.mem_of_mem_getLast? (Option.mem_def.mpr hcl)
      have hcg := h2' c hcmem
      rw [hcp, hdself] at hcg
      rw [Option.some.inj hcg]
  have hpairs : consecPairs ((w.outsideCubes).map (fun c => c.p))
      = E.map edgePair := by
    rw [hlen_res]
    refine consecPairs_of_chain E endPos h5 ?_
    cases hE2 : E.getLast? with
    | none => exact True.intro
    | some e2 =>
      show endPos = stepCard e2.1 e2.2
      rw [h7, walkPos, hE2]
  refine ⟨dlm, hdlm, hhead_res, hlast_res, ?_⟩
  rw [hpairs]
  exact h3.map edgePair_injective

/-- Witness for claim C7 at the two-cube world. -/
theorem C7_outsideCubes_cyclic_witness :
    pairWorld.cubes ≠ [] ∧ pairWorld.isConnected none = true ∧
    ∃ dlm : Cube, pairWorld.downmostLeftmost = some dlm ∧
      (pairWorld.outsideCubes).head? = some dlm ∧
      (pairWorld.outsideCubes).getLast? = some dlm ∧
      (consecPairs (pairWorld.outsideCubes.map (fun c => c.p))).Nodup :=
  ⟨by decide, by decide, C7_outsideCubes_cyclic pairWorld (by decide) (by decide)⟩

end Compacting
